import Mathlib

/-!
# parallel_continue (kernels/algorithms/parallel_continue.h)

A shallow embedding of the work distribution engine `ParallelContinueTask`:
the claim cursor `cntr`, the per-thread work stacks `threadStack`, the two
emitters `Select` and `Recurse`, and the worker loop `task`, run by all threads
of the scheduler at once.

Concurrency is modelled by interleaving.  A state holds the shared data (cursor,
stacks) and, for every thread, the point its worker has reached.  One action of
one thread touches the shared data at most once (one `atomic_add`, one `push` or
one `pop`).  A schedule is the list of the thread indices in the order in which
the threads act.  `LockStepTaskScheduler::threadIndex()` inside `Select` is the
index of the acting thread.

The cursor `cntr` is an `atomic_t` that every claim attempt advances, the failed
ones included; line 71 converts the value read to the template type `Index`
before it is compared with `taskCount` and used as an index into the seed array.
`Index` is taken as an unsigned integer type of `indexBits` bits, so the
conversion keeps the value modulo `2 ^ indexBits`.  Where that range is wide
enough for the expansion of the seed array the cursor never leaves it
(`completeness_wide`, `claims_once_wide`, `termination_wide`); for a narrow
`Index` it does (`byteTask`, `byteLeafTask`).

The callback `func(c, emitter)` returns nothing and the emitter returns nothing
to it, so what a call does to the engine is fixed by the sequence of
continuations it hands to its emitter: `func c` is that sequence.  The expansion
of a seed array is finite when its continuations have a rank, a natural number,
that decreases from a continuation to everything emitted for it (the height of
the expansion tree of a continuation is such a rank).
-/

namespace embree

variable {C : Type}

/-- The capacity of every per-thread work stack. -/
def SIZE_WORK_STACK : Nat := 64

/-- Modelled from the spec: builders/workstack.h is not among the sources. The
work stack is a bounded LIFO, held as a list with the top first; `push` fails
and changes nothing when the stack holds `N` entries. -/
def WorkStack.push {C : Type} (N : Nat) (st : List C) (c : C) : Option (List C) :=
  if st.length < N then some (c :: st) else none

/-- Modelled from the spec: builders/workstack.h is not among the sources. `pop`
removes the most recently pushed entry, and fails on an empty stack. -/
def WorkStack.pop {C : Type} : List C → Option (C × List C)
  | [] => none
  | c :: st => some (c, st)

/-- The data a `ParallelContinueTask` is built from and never changes:
`c.final()`, the callback, the seed array with its length, the number of threads
of the scheduler, and the template type `Index`, taken as an unsigned integer
type of `indexBits` bits; `taskCount` is a value of that type. -/
structure ParallelContinueTask (C : Type) where
  final : C → Bool
  func : C → List C
  continuations : Nat → C
  taskCount : Nat
  threadCount : Nat
  indexBits : Nat
  fits : taskCount < 2 ^ indexBits

/-- The two `ParallelContinue` objects a call of `func` can be given. -/
inductive Emitter where
  | select
  | recurse
deriving DecidableEq, Repr

/-- A running call `func(c, emitter)`: its emitter and the continuations it has
yet to hand to it. -/
structure Frame (C : Type) where
  emitter : Emitter
  emits : List C
deriving DecidableEq, Repr

/-- Where the worker of one thread stands in `task`:
`claim` before the `atomic_add` of line 71, `steal i` before the `pop` of line
81 with loop index `i`, `call fs` inside the nested calls `fs` of `func`
(innermost first; `call []` is the `pop` of line 91), `done` after the `return`
of line 87. -/
inductive Pc (C : Type) where
  | claim
  | steal (i : Nat)
  | call (frames : List (Frame C))
  | done
deriving DecidableEq, Repr

/-- How a continuation reached `func`: read from the seed array at an index,
popped in the steal scan at loop index `i`, popped in the drain loop, passed on
by `Select`, or passed on by `Recurse`. -/
inductive Origin where
  | seed (taskIndex : Nat)
  | steal (i : Nat)
  | drain
  | select
  | recurse
deriving DecidableEq, Repr

/-- One invocation of `func`: the thread, the origin and the continuation. -/
structure Call (C : Type) where
  thread : Nat
  origin : Origin
  cont : C
deriving DecidableEq, Repr

/-- The state of a run: the claim cursor, the work stacks, the position of every
worker, and the record of all invocations of `func` so far, oldest first. -/
structure State (C : Type) where
  cntr : Nat
  threadStack : Nat → List C
  pc : Nat → Pc C
  log : List (Call C)

/-- The state the constructor sets up before `dispatchTask`: cursor 0, empty
stacks, every worker at the top of its loop. -/
def State.init (C : Type) : State C :=
  { cntr := 0, threadStack := fun _ => [], pc := fun _ => Pc.claim, log := [] }

/-- Replace the entry of thread `t`. -/
def upd {α : Type} (f : Nat → α) (t : Nat) (a : α) : Nat → α :=
  fun j => if j = t then a else f j

/-- Modelled from the spec: `atomic_add` is declared outside the sources; it is
the atomic fetch-and-increment on the cursor of type `atomic_t`, returning the
value before the addition. -/
def atomic_add {C : Type} (s : State C) (v : Nat) : Nat × State C :=
  (s.cntr, { s with cntr := s.cntr + v })

/-- Thread `t` calls `func(c, em)` below the calls `fs`: the invocation is
recorded and the new call becomes the innermost one. -/
def invoke {C : Type} (e : ParallelContinueTask C) (s : State C) (t : Nat) (o : Origin)
    (c : C) (em : Emitter) (fs : List (Frame C)) : State C :=
  { s with
    log := s.log ++ [⟨t, o, c⟩]
    pc := upd s.pc t (Pc.call (⟨em, e.func c⟩ :: fs)) }

/-- The conversion of line 71, `Index taskIndex = atomic_add(&cntr,1)`: the value
of the cursor is converted to `Index` and keeps its low `indexBits` bits. The
cursor itself is held as a natural number: the range of `atomic_t` is a multiple
of the range of `Index`, so reducing the cursor modulo the range of `atomic_t`
first gives the same index. -/
def Index.ofCursor {C : Type} (e : ParallelContinueTask C) (v : Nat) : Nat :=
  v % 2 ^ e.indexBits

/-- `Recurse::operator()`, which is `parent->func(c,*this)`: thread `t` calls
`func` on `c` and hands it the Recurse emitter itself; `fs` are the calls this
one is nested in. -/
def Recurse {C : Type} (e : ParallelContinueTask C) (s : State C) (t : Nat) (o : Origin)
    (c : C) (fs : List (Frame C)) : State C :=
  invoke e s t o c Emitter.recurse fs

/-- `Select::operator()` on thread `t`: a final continuation is not pushed; one
that is not final is pushed on the stack of the thread; if it is final or the
push fails, `Recurse r(parent); r(c)`. -/
def Select {C : Type} (e : ParallelContinueTask C) (s : State C) (t : Nat)
    (c : C) (fs : List (Frame C)) : State C :=
  if e.final c then
    Recurse e s t Origin.select c fs
  else
    match WorkStack.push SIZE_WORK_STACK (s.threadStack t) c with
    | some st => { s with threadStack := upd s.threadStack t st, pc := upd s.pc t (Pc.call fs) }
    | none => Recurse e s t Origin.select c fs

/-- One action of `task(threadIndex, threadCount)` on thread `t`, the worker
loop (a thread outside the pool has no worker and does nothing): the claim of
lines 71 to 73 (the test and the read of the seed array use the cursor value
converted to `Index`), one pop of the steal scan of lines 78 to 87, one pop of the
drain loop of line 91, the return of a call of `func`, or one emission of a
running call of `func` to its emitter. -/
def task {C : Type} (e : ParallelContinueTask C) (s : State C) (t : Nat) : State C :=
  if t < e.threadCount then
    match s.pc t with
    | Pc.claim =>
        let r := atomic_add s 1
        let taskIndex := Index.ofCursor e r.1
        if taskIndex < e.taskCount then
          invoke e r.2 t (Origin.seed taskIndex) (e.continuations taskIndex) Emitter.select []
        else
          { r.2 with pc := upd r.2.pc t (Pc.steal 0) }
    | Pc.steal i =>
        if i < e.threadCount then
          match WorkStack.pop (s.threadStack ((t + i) % e.threadCount)) with
          | some (cont, st) =>
              invoke e { s with threadStack := upd s.threadStack ((t + i) % e.threadCount) st }
                t (Origin.steal i) cont Emitter.select []
          | none => { s with pc := upd s.pc t (Pc.steal (i + 1)) }
        else
          { s with pc := upd s.pc t Pc.done }
    | Pc.call [] =>
        match WorkStack.pop (s.threadStack t) with
        | some (cont, st) =>
            invoke e { s with threadStack := upd s.threadStack t st }
              t Origin.drain cont Emitter.select []
        | none => { s with pc := upd s.pc t Pc.claim }
    | Pc.call (⟨_, []⟩ :: fs) => { s with pc := upd s.pc t (Pc.call fs) }
    | Pc.call (⟨Emitter.recurse, c :: cs⟩ :: fs) =>
        Recurse e s t Origin.recurse c (⟨Emitter.recurse, cs⟩ :: fs)
    | Pc.call (⟨Emitter.select, c :: cs⟩ :: fs) =>
        Select e s t c (⟨Emitter.select, cs⟩ :: fs)
    | Pc.done => s
  else s

/-- The run of a schedule from a state: `dispatchTask` lets every thread of the
pool execute `task`, and the schedule fixes how their actions interleave. -/
def run {C : Type} (e : ParallelContinueTask C) (sched : List Nat) (s : State C) : State C :=
  sched.foldl (task e) s

/-- The states of `parallel_continue(continuations, N, func)` under a schedule. -/
def parallel_continue {C : Type} (e : ParallelContinueTask C) (sched : List Nat) : State C :=
  run e sched (State.init C)

/-- All workers have returned, so `dispatchTask` and with it `parallel_continue`
returns. -/
def returned {C : Type} (e : ParallelContinueTask C) (s : State C) : Prop :=
  ∀ t, t < e.threadCount → s.pc t = Pc.done

/-- The continuations passed to `func`, in order of invocation. -/
def visited {C : Type} (s : State C) : List C :=
  s.log.map Call.cont

/-- The expansion of `c` to depth `n`: `c`, then the expansion of everything
`func` emits for it, depth first. -/
def expandN {C : Type} (e : ParallelContinueTask C) : Nat → C → List C
  | 0, c => [c]
  | n + 1, c => c :: (e.func c).flatMap (expandN e n)

/-- The possible actions of thread t in state s, with the state each leads to. -/
inductive Move (e : ParallelContinueTask C) (s : State C) (t : Nat) : State C → Prop where
  | claimSeed : s.pc t = Pc.claim → Index.ofCursor e s.cntr < e.taskCount →
      Move e s t ⟨s.cntr + 1, s.threadStack,
        upd s.pc t
          (Pc.call [⟨Emitter.select, e.func (e.continuations (Index.ofCursor e s.cntr))⟩]),
        s.log ++ [⟨t, Origin.seed (Index.ofCursor e s.cntr),
          e.continuations (Index.ofCursor e s.cntr)⟩]⟩
  | claimFail : s.pc t = Pc.claim → e.taskCount ≤ Index.ofCursor e s.cntr →
      Move e s t ⟨s.cntr + 1, s.threadStack, upd s.pc t (Pc.steal 0), s.log⟩
  | stealHit (i : Nat) (c : C) (st : List C) : s.pc t = Pc.steal i → i < e.threadCount →
      s.threadStack ((t + i) % e.threadCount) = c :: st →
      Move e s t ⟨s.cntr, upd s.threadStack ((t + i) % e.threadCount) st,
        upd s.pc t (Pc.call [⟨Emitter.select, e.func c⟩]),
        s.log ++ [⟨t, Origin.steal i, c⟩]⟩
  | stealMiss (i : Nat) : s.pc t = Pc.steal i → i < e.threadCount →
      s.threadStack ((t + i) % e.threadCount) = [] →
      Move e s t ⟨s.cntr, s.threadStack, upd s.pc t (Pc.steal (i + 1)), s.log⟩
  | stealEnd (i : Nat) : s.pc t = Pc.steal i → e.threadCount ≤ i →
      Move e s t ⟨s.cntr, s.threadStack, upd s.pc t Pc.done, s.log⟩
  | drainHit (c : C) (st : List C) : s.pc t = Pc.call [] → s.threadStack t = c :: st →
      Move e s t ⟨s.cntr, upd s.threadStack t st,
        upd s.pc t (Pc.call [⟨Emitter.select, e.func c⟩]),
        s.log ++ [⟨t, Origin.drain, c⟩]⟩
  | drainEnd : s.pc t = Pc.call [] → s.threadStack t = [] →
      Move e s t ⟨s.cntr, s.threadStack, upd s.pc t Pc.claim, s.log⟩
  | ret (em : Emitter) (fs : List (Frame C)) : s.pc t = Pc.call (⟨em, []⟩ :: fs) →
      Move e s t ⟨s.cntr, s.threadStack, upd s.pc t (Pc.call fs), s.log⟩
  | recurse (c : C) (cs : List C) (fs : List (Frame C)) :
      s.pc t = Pc.call (⟨Emitter.recurse, c :: cs⟩ :: fs) →
      Move e s t ⟨s.cntr, s.threadStack,
        upd s.pc t (Pc.call (⟨Emitter.recurse, e.func c⟩ :: ⟨Emitter.recurse, cs⟩ :: fs)),
        s.log ++ [⟨t, Origin.recurse, c⟩]⟩
  | selectFinal (c : C) (cs : List C) (fs : List (Frame C)) :
      s.pc t = Pc.call (⟨Emitter.select, c :: cs⟩ :: fs) → e.final c = true →
      Move e s t ⟨s.cntr, s.threadStack,
        upd s.pc t (Pc.call (⟨Emitter.recurse, e.func c⟩ :: ⟨Emitter.select, cs⟩ :: fs)),
        s.log ++ [⟨t, Origin.select, c⟩]⟩
  | selectPush (c : C) (cs : List C) (fs : List (Frame C)) :
      s.pc t = Pc.call (⟨Emitter.select, c :: cs⟩ :: fs) → e.final c = false →
      (s.threadStack t).length < SIZE_WORK_STACK →
      Move e s t ⟨s.cntr, upd s.threadStack t (c :: s.threadStack t),
        upd s.pc t (Pc.call (⟨Emitter.select, cs⟩ :: fs)), s.log⟩
  | selectFull (c : C) (cs : List C) (fs : List (Frame C)) :
      s.pc t = Pc.call (⟨Emitter.select, c :: cs⟩ :: fs) → e.final c = false →
      SIZE_WORK_STACK ≤ (s.threadStack t).length →
      Move e s t ⟨s.cntr, s.threadStack,
        upd s.pc t (Pc.call (⟨Emitter.recurse, e.func c⟩ :: ⟨Emitter.select, cs⟩ :: fs)),
        s.log ++ [⟨t, Origin.select, c⟩]⟩

/-- Every entry of every work stack is a continuation that is not final. -/
def StacksNotFinal (e : ParallelContinueTask C) (s : State C) : Prop :=
  ∀ t c, c ∈ s.threadStack t → e.final c = false

/-- An origin that is a pop from a work stack. -/
def Origin.isPop : Origin → Bool
  | Origin.steal _ => true
  | Origin.drain => true
  | _ => false

/-- No invocation of func on a popped continuation has a final continuation. -/
def PoppedNotFinal (e : ParallelContinueTask C) (s : State C) : Prop :=
  ∀ ev, ev ∈ s.log → ev.origin.isPop = true → e.final ev.cont = false

/-- A worker that is not inside a call of func has an empty work stack. -/
def Drained (s : State C) : Prop :=
  ∀ t, (∀ fs, s.pc t ≠ Pc.call fs) → s.threadStack t = []

/-- The sum of the weights of the entries of a list. -/
def mass (w : C → Nat) (l : List C) : Nat := (l.map w).sum

/-- The sum over all threads of the pool of a quantity of their entry. -/
def threadSum {α : Type} (T : Nat) (g : α → Nat) (f : Nat → α) : Nat :=
  Finset.sum (Finset.range T) (fun t => g (f t))

/-- The continuations of the expansion of the seed array: the seeds, and
everything func emits for a continuation of the expansion. -/
inductive InExpansion (e : ParallelContinueTask C) : C → Prop where
  | seed (i : Nat) : i < e.taskCount → InExpansion e (e.continuations i)
  | emit (c d : C) : InExpansion e c → d ∈ e.func c → InExpansion e d

/-- The expansion of the seed array is finite: within it, the rank decreases
from a continuation to everything func emits for it. -/
def FiniteExpansion (e : ParallelContinueTask C) (rank : C → Nat) : Prop :=
  ∀ c d, InExpansion e c → d ∈ e.func c → rank d < rank c

/-- Every continuation on a stack or yet to be emitted by a running call belongs
to the expansion of the seed array. -/
def Within (e : ParallelContinueTask C) (s : State C) : Prop :=
  (∀ t c, c ∈ s.threadStack t → InExpansion e c) ∧
  (∀ t fs f c, s.pc t = Pc.call fs → f ∈ fs → c ∈ f.emits → InExpansion e c)

/-- The full expansion of a continuation, for a callback with a rank that
decreases from a continuation to everything emitted for it. -/
def expansion (e : ParallelContinueTask C) (rank : C → Nat) (c : C) : List C :=
  expandN e (rank c) c

/-- The seed array as a list. -/
def seeds (e : ParallelContinueTask C) : List C :=
  (List.range e.taskCount).map e.continuations

/-- The weight of the full expansion of a continuation. -/
def treeWeight (e : ParallelContinueTask C) (rank : C → Nat) (w : C → Nat) (c : C) : Nat :=
  mass w (expansion e rank c)

/-- The weight of what the running calls of a worker have yet to emit. -/
def framesWeight (W : C → Nat) (fs : List (Frame C)) : Nat :=
  (fs.map (fun f => mass W f.emits)).sum

/-- The weight of what a worker holds in its running calls. -/
def pcWeight (W : C → Nat) : Pc C → Nat
  | Pc.call fs => framesWeight W fs
  | _ => 0

/-- The weight of the seeds not yet claimed. -/
def seedsPending (e : ParallelContinueTask C) (W : C → Nat) (cntr : Nat) : Nat :=
  Finset.sum (Finset.Ico cntr e.taskCount) (fun i => W (e.continuations i))

/-- The weight of everything that is still to be passed to func: unclaimed
seeds, stack entries, and pending emissions of running calls. -/
def pending (e : ParallelContinueTask C) (W : C → Nat) (s : State C) : Nat :=
  seedsPending e W s.cntr + threadSum e.threadCount (mass W) s.threadStack +
    threadSum e.threadCount (pcWeight W) s.pc

/-- The seed index of an invocation that came from the seed array. -/
def Call.claimed (ev : Call C) : Option Nat :=
  match ev.origin with
  | Origin.seed i => some i
  | _ => none

/-- The indices read from the seed array, in the order of the claims. -/
def seedClaims (s : State C) : List Nat :=
  s.log.filterMap Call.claimed

/-- Reference order, following the words of the single-thread order and not the
code. What one call of func hands to Select, split by the decision of Select when
the stack of the thread holds h entries: first the continuations passed to func
during the call (a continuation that is final or meets a full stack, followed at
once by its whole expansion, depth first), second the continuations pushed, the
top of the stack first. -/
def selectSplit (e : ParallelContinueTask C) (rank : C → Nat) : Nat → List C → List C × List C
  | _, [] => ([], [])
  | h, d :: ds =>
      if e.final d || decide (SIZE_WORK_STACK ≤ h) then
        (expansion e rank d ++ (selectSplit e rank h ds).1, (selectSplit e rank h ds).2)
      else
        ((selectSplit e rank (h + 1) ds).1, (selectSplit e rank (h + 1) ds).2 ++ [d])

/-- Reference order. The order in which stack entries (top first) that lie on h
other entries are popped and processed, when f h p is the processing sequence
of an entry p popped off h remaining entries. -/
def drainList (f : Nat → C → List C) (h : Nat) : List C → List C
  | [] => []
  | p :: ps => f (h + ps.length) p ++ drainList f h ps

/-- Reference order. The processing sequence, to depth n, of a continuation c
taken by a worker whose stack holds h entries: c, then what the call of func on
c passes on at once, then what it pushed, in LIFO pop order, each with its own
processing sequence. -/
def processOrder (e : ParallelContinueTask C) (rank : C → Nat) : Nat → Nat → C → List C
  | 0, _, c => [c]
  | n + 1, h, c =>
      c :: ((selectSplit e rank h (e.func c)).1 ++
        drainList (processOrder e rank n) h (selectSplit e rank h (e.func c)).2)

/-- Reference order. The processing sequence of a seed: it is taken with an empty
stack. -/
def seedOrder (e : ParallelContinueTask C) (rank : C → Nat) (c : C) : List C :=
  processOrder e rank (rank c) 0 c

/-- Reference order. The sequence of invocations of func on a pool of one
thread: the processing sequences of the seeds, in the order of the seed array. -/
def referenceOrder (e : ParallelContinueTask C) (rank : C → Nat) : List C :=
  (seeds e).flatMap (seedOrder e rank)

/-- Thread t, stepping alone from s, arrives at s2. -/
def Arrives (e : ParallelContinueTask C) (t : Nat) (s s2 : State C) : Prop :=
  ∃ k, run e (List.replicate k t) s = s2

/-- The record of invocations cut at the claims: the continuations passed to
func before the first claim, and then one block for every claim, holding the
claimed seed and everything passed to func before the next claim. -/
def splitClaims : List (Call C) → List C × List (List C)
  | [] => ([], [])
  | ev :: l =>
      match ev.claimed with
      | some _ => ([], (ev.cont :: (splitClaims l).1) :: (splitClaims l).2)
      | none => (ev.cont :: (splitClaims l).1, (splitClaims l).2)

/-- No invocation of func is on a continuation popped in a steal scan. -/
def NoStealHit (s : State C) : Prop :=
  ∀ ev i, ev ∈ s.log → ev.origin ≠ Origin.steal i

/-- The continuations of the scenario: seeds A and B, and the two children of A. -/
inductive Scene where
  | A
  | B
  | child1
  | child2
deriving DecidableEq, Repr

/-- The scenario on a pool of four threads: A emits its two children, which are
final and emit nothing; B is final and emits nothing. -/
def sceneTask : ParallelContinueTask Scene :=
  { final := fun c => match c with
      | Scene.A => false
      | _ => true
    func := fun c => match c with
      | Scene.A => [Scene.child1, Scene.child2]
      | _ => []
    continuations := fun i => if i = 0 then Scene.A else Scene.B
    taskCount := 2
    threadCount := 4
    indexBits := 64
    fits := by decide }

/-- A rank for the scenario: A is one level above everything else. -/
def sceneRank : Scene → Nat
  | Scene.A => 1
  | _ => 0

/-- The schedule that lets the four threads act in turn, fourteen rounds long. -/
def roundRobin : List Nat :=
  (List.range 56).map (fun k => k % 4)

/-- The four threads stepping in turn, sixty rounds long. -/
def longRobin : List Nat :=
  (List.range 240).map (fun k => k % 4)

/-- A callback that fans out: seed 0 emits the continuations 1, ..., 66, none of
them final and none emitting anything, on a pool of two threads. -/
def fanTask : ParallelContinueTask Nat :=
  { final := fun _ => false
    func := fun c => if c = 0 then List.range' 1 66 else []
    continuations := fun _ => 0
    taskCount := 1
    threadCount := 2
    indexBits := 64
    fits := by decide }

/-- A small tree on a pool of two threads: seed 0 emits 1 and 2, 1 emits 3, and
3 is the only final continuation. -/
def pairTask : ParallelContinueTask Nat :=
  { final := fun c => c == 3
    func := fun c => if c = 0 then [1, 2] else if c = 1 then [3] else []
    continuations := fun _ => 0
    taskCount := 1
    threadCount := 2
    indexBits := 64
    fits := by decide }

/-- The small tree on a pool of one thread. -/
def lineTask : ParallelContinueTask Nat :=
  { pairTask with threadCount := 1 }

/-- A rank for the small tree. -/
def pairRank (c : Nat) : Nat := if c = 0 then 2 else if c = 1 then 1 else 0

/-- A final continuation that emits: seed 0 emits 1, which is final and emits 2,
which is not final and emits nothing; one thread. -/
def nestTask : ParallelContinueTask Nat :=
  { final := fun c => c == 1
    func := fun c => if c = 0 then [1] else if c = 1 then [2] else []
    continuations := fun _ => 0
    taskCount := 1
    threadCount := 1
    indexBits := 64
    fits := by decide }

/-- Thread 0 steps n times. -/
def solo (n : Nat) : List Nat := List.replicate n 0

/-- An invocation that came from a claim attempt: a seed, or a continuation
popped in the steal scan that followed a failed claim. -/
def Call.fromClaim (ev : Call C) : Bool :=
  match ev.origin with
  | Origin.seed _ => true
  | Origin.steal _ => true
  | _ => false

/-- One for a worker that is in a steal scan or has returned, zero otherwise. -/
def scanning : Pc C → Nat
  | Pc.steal _ => 1
  | Pc.done => 1
  | _ => 0

/-- The cursor counts the claim attempts: one for every seed passed to func, one
for every continuation stolen, and one for every worker that is in its steal
scan or has returned. -/
def ClaimCount (e : ParallelContinueTask C) (s : State C) : Prop :=
  s.cntr = (s.log.filter Call.fromClaim).length + threadSum e.threadCount scanning s.pc

/-- An instantiation with `Index` an unsigned type of 8 bits: 255 seeds, the
continuations 0, ..., 254, none emitting anything, on a pool of two threads. -/
def byteTask : ParallelContinueTask Nat :=
  { final := fun _ => true
    func := fun _ => []
    continuations := fun i => i
    taskCount := 255
    threadCount := 2
    indexBits := 8
    fits := by decide }

/-- A rank for the 8 bit instantiation: nothing is emitted. -/
def byteRank (_ : Nat) : Nat := 0

/-- Thread 0 claims and processes all 255 seeds (three actions each) and fails
its next claim, at cursor 255; then thread 1 claims, at cursor 256. -/
def wrapSchedule : List Nat :=
  List.replicate 766 0 ++ [1]

/-- After the wrap: thread 1 goes on to claim and process 255 seeds, fails a
claim and its scan and returns; thread 0 fails its scan and returns. -/
def wrapToReturn : List Nat :=
  wrapSchedule ++ List.replicate 768 1 ++ List.replicate 3 0

/-- An instantiation with `Index` an unsigned type of 8 bits: 255 seeds, the
continuations 0, ..., 254, on a pool of two threads; for seed i the callback
emits the one continuation i + 255, which emits nothing; no continuation is
final. The expansion of the seed array has 510 continuations. -/
def byteLeafTask : ParallelContinueTask Nat :=
  { final := fun _ => false
    func := fun c => if c < 255 then [c + 255] else []
    continuations := fun i => i
    taskCount := 255
    threadCount := 2
    indexBits := 8
    fits := by decide }

/-- A rank for the instantiation with leaves: one for a seed, zero for a leaf. -/
def leafRank (c : Nat) : Nat :=
  if c < 255 then 1 else 0

/-- One round of 1533 actions. Thread 0 claims the seeds 0, ..., 253 and
processes each with its leaf (six actions each: claim, push of the leaf, return
of func, pop of the leaf, return of func, failed pop), then claims seed 254 and
pushes its leaf. Thread 1 fails a claim, misses its own stack, pops the leaf
from the stack of thread 0, and processes it (return of func, failed pop).
Thread 0 returns from func and fails its pop. -/
def spinRound : List Nat :=
  List.replicate (6 * 254 + 2) 0 ++ (List.replicate 5 1 ++ List.replicate 2 0)

/-- The schedule of n rounds. -/
def spin : Nat → List Nat
  | 0 => []
  | n + 1 => spin n ++ spinRound

/-- The invocations of func in one round, oldest first. -/
def spinLog : List (Call Nat) :=
  (List.range' 0 254).flatMap
      (fun i => [⟨0, Origin.seed i, i⟩, ⟨0, Origin.drain, i + 255⟩]) ++
    [⟨0, Origin.seed 254, 254⟩, ⟨1, Origin.steal 1, 509⟩]

/-- The invocations of func in n rounds, oldest first. -/
def spinLogs : Nat → List (Call Nat)
  | 0 => []
  | n + 1 => spinLogs n ++ spinLog

/-- Conservation of work: what has been passed to func and what is still
pending together weigh as much as the full expansions of all seeds. -/
def Conserved (e : ParallelContinueTask C) (rank : C → Nat) (w : C → Nat) (s : State C) : Prop :=
  mass w (visited s) + pending e (treeWeight e rank w) s = mass (treeWeight e rank w) (seeds e)


/-- The claims made so far are exactly the indices below the cursor that lie in
the seed array, each seed invocation is on the entry of the seed array at its
index, and a worker in its steal scan or returned has seen the array exhausted. -/
def CursorInv (e : ParallelContinueTask C) (s : State C) : Prop :=
  seedClaims s = List.range (min s.cntr e.taskCount) ∧
  (∀ ev i, ev ∈ s.log → ev.origin = Origin.seed i → ev.cont = e.continuations i) ∧
  (∀ t, (s.pc t = Pc.done ∨ ∃ i, s.pc t = Pc.steal i) → e.taskCount ≤ s.cntr)



/-- The number of continuations in the full expansion of a continuation. -/
def size (e : ParallelContinueTask C) (rank : C → Nat) (c : C) : Nat :=
  treeWeight e rank (fun _ => 1) c

/-- The cost of a continuation that a running call has yet to emit. -/
def emitCost (e : ParallelContinueTask C) (rank : C → Nat) (c : C) : Nat :=
  (e.threadCount + 4) * size e rank c

/-- The cost of a continuation on a work stack: one less than before its push. -/
def stackCost (e : ParallelContinueTask C) (rank : C → Nat) (c : C) : Nat :=
  emitCost e rank c - 1

/-- The cost of the position of a worker: the actions it can still take before
it next passes a continuation to func or returns, plus the cost of what its
running calls have yet to emit. -/
def pcCost (e : ParallelContinueTask C) (rank : C → Nat) : Pc C → Nat
  | Pc.done => 0
  | Pc.steal i => 1 + (e.threadCount - i)
  | Pc.claim => e.threadCount + 2
  | Pc.call fs => e.threadCount + 3 + (fs.map (fun f => 1 + mass (emitCost e rank) f.emits)).sum

/-- The cost of a state, which every action of every worker lowers. -/
def cost (e : ParallelContinueTask C) (rank : C → Nat) (s : State C) : Nat :=
  seedsPending e (emitCost e rank) s.cntr +
    threadSum e.threadCount (mass (stackCost e rank)) s.threadStack +
    threadSum e.threadCount (pcCost e rank) s.pc


/-- The range of `Index` holds the number of continuations of the full expansion
of the seed array plus the number of threads, so the cursor, which every claim
attempt advances, stays within the range of `Index` in every run. -/
def Wide (e : ParallelContinueTask C) (rank : C → Nat) : Prop :=
  ((seeds e).flatMap (expansion e rank)).length + e.threadCount ≤ 2 ^ e.indexBits

/-- What holds in every state of every run when the range of `Index` is wide
enough: the expansion is not left, the claims are the indices below the cursor,
the cursor counts the claim attempts, and work is conserved for every weight. -/
def WideInv (e : ParallelContinueTask C) (rank : C → Nat) (s : State C) : Prop :=
  Within e s ∧ CursorInv e s ∧ ClaimCount e s ∧ ∀ w : C → Nat, Conserved e rank w s

theorem upd_same {α : Type} (f : Nat → α) (t : Nat) (a : α) : upd f t a t = a := by
  simp [upd]

theorem upd_other {α : Type} (f : Nat → α) (t j : Nat) (a : α) (h : j ≠ t) :
    upd f t a j = f j := by
  simp [upd, h]

/-- A worker that has not returned performs exactly one of the actions of Move. -/
theorem task_move (e : ParallelContinueTask C) (s : State C) (t : Nat)
    (ht : t < e.threadCount) (hd : s.pc t ≠ Pc.done) : Move e s t (task e s t) := by
  unfold task
  rw [if_pos ht]
  cases hpc : s.pc t with
  | claim =>
      simp only [atomic_add]
      by_cases h : Index.ofCursor e s.cntr < e.taskCount
      · rw [if_pos h]; exact Move.claimSeed hpc h
      · rw [if_neg h]; exact Move.claimFail hpc (Nat.le_of_not_lt h)
  | steal i =>
      simp only
      by_cases h : i < e.threadCount
      · rw [if_pos h]
        cases hst : s.threadStack ((t + i) % e.threadCount) with
        | nil => exact Move.stealMiss i hpc h hst
        | cons c st => exact Move.stealHit i c st hpc h hst
      · rw [if_neg h]; exact Move.stealEnd i hpc (Nat.le_of_not_lt h)
  | call fs =>
      cases fs with
      | nil =>
          simp only
          cases hst : s.threadStack t with
          | nil => exact Move.drainEnd hpc hst
          | cons c st => exact Move.drainHit c st hpc hst
      | cons f fs =>
          obtain ⟨em, cs⟩ := f
          cases cs with
          | nil => cases em <;> exact Move.ret _ fs hpc
          | cons c cs =>
              cases em with
              | recurse => exact Move.recurse c cs fs hpc
              | select =>
                  simp only [Select, Recurse]
                  by_cases hf : e.final c = true
                  · rw [if_pos hf]; exact Move.selectFinal c cs fs hpc hf
                  · rw [if_neg hf]
                    have hf2 : e.final c = false := by simpa using hf
                    by_cases hl : (s.threadStack t).length < SIZE_WORK_STACK
                    · simp only [WorkStack.push, if_pos hl]
                      exact Move.selectPush c cs fs hpc hf2 hl
                    · simp only [WorkStack.push, if_neg hl]
                      exact Move.selectFull c cs fs hpc hf2 (Nat.le_of_not_lt hl)
  | done => exact absurd hpc hd

theorem task_idle (e : ParallelContinueTask C) (s : State C) (t : Nat)
    (h : ¬ t < e.threadCount ∨ s.pc t = Pc.done) : task e s t = s := by
  unfold task
  rcases h with h | h
  · rw [if_neg h]
  · split
    · rw [h]
    · rfl

theorem run_nil (e : ParallelContinueTask C) (s : State C) : run e [] s = s := rfl

theorem run_cons (e : ParallelContinueTask C) (t : Nat) (sched : List Nat) (s : State C) :
    run e (t :: sched) s = run e sched (task e s t) := rfl

theorem run_append (e : ParallelContinueTask C) (a b : List Nat) (s : State C) :
    run e (a ++ b) s = run e b (run e a s) := by
  simp [run, List.foldl_append]

/-- A property that holds initially and is kept by every action of every worker
holds in every state of every run. -/
theorem run_invariant (e : ParallelContinueTask C) (P : State C → Prop)
    (hmove : ∀ s t s', t < e.threadCount → P s → Move e s t s' → P s')
    (sched : List Nat) (s : State C) (h0 : P s) : P (run e sched s) := by
  induction sched generalizing s with
  | nil => exact h0
  | cons t sched ih =>
      rw [run_cons]
      apply ih
      by_cases h : t < e.threadCount ∧ s.pc t ≠ Pc.done
      · exact hmove s t _ h.1 h0 (task_move e s t h.1 h.2)
      · rw [task_idle e s t (by tauto)]; exact h0

theorem stacksNotFinal_move (e : ParallelContinueTask C) (s : State C) (t : Nat) (s' : State C)
    (h : StacksNotFinal e s) (hm : Move e s t s') : StacksNotFinal e s' := by
  intro u c hc
  cases hm with
  | stealHit i c0 st hpc hi hst =>
      simp only [upd] at hc
      split at hc
      · next hu => exact h _ c (by rw [hst]; exact List.mem_cons_of_mem _ hc)
      · exact h u c hc
  | drainHit c0 st hpc hst =>
      simp only [upd] at hc
      split at hc
      · exact h t c (by rw [hst]; exact List.mem_cons_of_mem _ hc)
      · exact h u c hc
  | selectPush c0 cs fs hpc hf hl =>
      simp only [upd] at hc
      split at hc
      · rcases List.mem_cons.1 hc with rfl | hc
        · exact hf
        · exact h t c hc
      · exact h u c hc
  | _ => exact h u c hc

theorem poppedNotFinal_move (e : ParallelContinueTask C) (s : State C) (t : Nat) (s' : State C)
    (h : StacksNotFinal e s ∧ PoppedNotFinal e s) (hm : Move e s t s') :
    StacksNotFinal e s' ∧ PoppedNotFinal e s' := by
  refine ⟨stacksNotFinal_move e s t s' h.1 hm, ?_⟩
  intro ev hev hpop
  cases hm with
  | stealHit i c0 st hpc hi hst =>
      rcases List.mem_append.1 hev with hev | hev
      · exact h.2 ev hev hpop
      · simp only [List.mem_singleton] at hev
        subst hev
        exact h.1 _ c0 (by rw [hst]; exact List.mem_cons_self _ _)
  | drainHit c0 st hpc hst =>
      rcases List.mem_append.1 hev with hev | hev
      · exact h.2 ev hev hpop
      · simp only [List.mem_singleton] at hev
        subst hev
        exact h.1 _ c0 (by rw [hst]; exact List.mem_cons_self _ _)
  | claimSeed hpc hlt =>
      rcases List.mem_append.1 hev with hev | hev
      · exact h.2 ev hev hpop
      · simp only [List.mem_singleton] at hev
        subst hev
        simp [Origin.isPop] at hpop
  | recurse c0 cs fs hpc =>
      rcases List.mem_append.1 hev with hev | hev
      · exact h.2 ev hev hpop
      · simp only [List.mem_singleton] at hev
        subst hev
        simp [Origin.isPop] at hpop
  | selectFinal c0 cs fs hpc hf =>
      rcases List.mem_append.1 hev with hev | hev
      · exact h.2 ev hev hpop
      · simp only [List.mem_singleton] at hev
        subst hev
        simp [Origin.isPop] at hpop
  | selectFull c0 cs fs hpc hf hl =>
      rcases List.mem_append.1 hev with hev | hev
      · exact h.2 ev hev hpop
      · simp only [List.mem_singleton] at hev
        subst hev
        simp [Origin.isPop] at hpop
  | _ => exact h.2 ev hev hpop

theorem drained_move (e : ParallelContinueTask C) (s : State C) (t : Nat) (s' : State C)
    (h : Drained s) (hm : Move e s t s') : Drained s' := by
  intro u hu
  cases hm with
  | claimSeed hpc hlt =>
      by_cases hut : u = t
      · subst hut; exact absurd (upd_same _ _ _) (hu _)
      · simp only [upd_other _ _ _ _ hut] at hu; exact h u hu
  | claimFail hpc hge =>
      by_cases hut : u = t
      · subst hut; exact h u (by simp [hpc])
      · simp only [upd_other _ _ _ _ hut] at hu; exact h u hu
  | stealHit i c0 st hpc hi hst =>
      by_cases hut : u = t
      · subst hut; exact absurd (upd_same _ _ _) (hu _)
      · simp only [upd_other _ _ _ _ hut] at hu
        have := h u hu
        simp only [upd]
        split
        · next hv => rw [hv, hst] at this; cases this
        · exact this
  | stealMiss i hpc hi hst =>
      by_cases hut : u = t
      · subst hut; exact h u (by simp [hpc])
      · simp only [upd_other _ _ _ _ hut] at hu; exact h u hu
  | stealEnd i hpc hi =>
      by_cases hut : u = t
      · subst hut; exact h u (by simp [hpc])
      · simp only [upd_other _ _ _ _ hut] at hu; exact h u hu
  | drainHit c0 st hpc hst =>
      by_cases hut : u = t
      · subst hut; exact absurd (upd_same _ _ _) (hu _)
      · simp only [upd_other _ _ _ _ hut] at hu
        simp only [upd_other _ _ _ _ hut]
        exact h u hu
  | drainEnd hpc hst =>
      by_cases hut : u = t
      · subst hut; exact hst
      · simp only [upd_other _ _ _ _ hut] at hu; exact h u hu
  | ret em fs hpc =>
      by_cases hut : u = t
      · subst hut; exact absurd (upd_same _ _ _) (hu _)
      · simp only [upd_other _ _ _ _ hut] at hu; exact h u hu
  | recurse c0 cs fs hpc =>
      by_cases hut : u = t
      · subst hut; exact absurd (upd_same _ _ _) (hu _)
      · simp only [upd_other _ _ _ _ hut] at hu; exact h u hu
  | selectFinal c0 cs fs hpc hf =>
      by_cases hut : u = t
      · subst hut; exact absurd (upd_same _ _ _) (hu _)
      · simp only [upd_other _ _ _ _ hut] at hu; exact h u hu
  | selectPush c0 cs fs hpc hf hl =>
      by_cases hut : u = t
      · subst hut; exact absurd (upd_same _ _ _) (hu _)
      · simp only [upd_other _ _ _ _ hut] at hu
        simp only [upd_other _ _ _ _ hut]
        exact h u hu
  | selectFull c0 cs fs hpc hf hl =>
      by_cases hut : u = t
      · subst hut; exact absurd (upd_same _ _ _) (hu _)
      · simp only [upd_other _ _ _ _ hut] at hu; exact h u hu

theorem mass_nil (w : C → Nat) : mass w [] = 0 := rfl

theorem mass_cons (w : C → Nat) (c : C) (l : List C) : mass w (c :: l) = w c + mass w l := by
  simp [mass]

theorem mass_append (w : C → Nat) (a b : List C) : mass w (a ++ b) = mass w a + mass w b := by
  simp [mass]

theorem mass_flatMap (w : C → Nat) (f : C → List C) (l : List C) :
    mass w (l.flatMap f) = mass (fun c => mass w (f c)) l := by
  induction l with
  | nil => rfl
  | cons c l ih => rw [List.flatMap_cons, mass_append, mass_cons, ih]

theorem threadSum_upd {α : Type} (T : Nat) (g : α → Nat) (f : Nat → α) (t : Nat) (a : α)
    (ht : t < T) : threadSum T g (upd f t a) + g (f t) = threadSum T g f + g a := by
  induction T with
  | zero => omega
  | succ T ih =>
      simp only [threadSum, Finset.sum_range_succ] at ih ⊢
      by_cases h : t = T
      · subst h
        have hsame : Finset.sum (Finset.range t) (fun j => g (upd f t a j)) =
            Finset.sum (Finset.range t) (fun j => g (f j)) := by
          apply Finset.sum_congr rfl
          intro j hj
          rw [upd_other _ _ _ _ (by have := Finset.mem_range.1 hj; omega)]
        rw [hsame, upd_same]
        omega
      · have := ih (by omega)
        rw [upd_other _ _ _ _ (Ne.symm h)]
        omega

theorem threadSum_const_zero {α : Type} (T : Nat) (g : α → Nat) (f : Nat → α)
    (h : ∀ t, t < T → g (f t) = 0) : threadSum T g f = 0 := by
  apply Finset.sum_eq_zero
  intro t ht
  exact h t (Finset.mem_range.1 ht)

theorem seedsPending_claim (e : ParallelContinueTask C) (W : C → Nat) (cntr : Nat)
    (h : cntr < e.taskCount) :
    seedsPending e W cntr = W (e.continuations cntr) + seedsPending e W (cntr + 1) := by
  unfold seedsPending
  rw [Finset.sum_eq_sum_Ico_succ_bot h]

theorem seedsPending_exhausted (e : ParallelContinueTask C) (W : C → Nat) (cntr : Nat)
    (h : e.taskCount ≤ cntr) : seedsPending e W cntr = 0 := by
  unfold seedsPending
  rw [Finset.Ico_eq_empty (by omega)]
  rfl

theorem sum_range_eq_list (N : Nat) (f : Nat → Nat) :
    Finset.sum (Finset.range N) f = ((List.range N).map f).sum := by
  induction N with
  | zero => rfl
  | succ N ih => rw [Finset.sum_range_succ, List.range_succ, List.map_append, List.sum_append, ih]; simp

theorem seedsPending_zero (e : ParallelContinueTask C) (W : C → Nat) :
    seedsPending e W 0 = mass W (seeds e) := by
  unfold seedsPending seeds mass
  rw [List.map_map, ← Finset.range_eq_Ico, sum_range_eq_list]
  rfl

theorem finiteExpansion_of_rank (e : ParallelContinueTask C) (rank : C → Nat)
    (h : ∀ c d, d ∈ e.func c → rank d < rank c) : FiniteExpansion e rank :=
  fun c d _ hd => h c d hd

theorem func_nil_of_rank_zero (e : ParallelContinueTask C) (rank : C → Nat)
    (hrank : FiniteExpansion e rank) (c : C) (hc : InExpansion e c) (h : rank c ≤ 0) :
    e.func c = [] := by
  cases hf : e.func c with
  | nil => rfl
  | cons d ds =>
      have := hrank c d hc (by rw [hf]; exact List.mem_cons_self _ _)
      omega

theorem expandN_stable (e : ParallelContinueTask C) (rank : C → Nat)
    (hrank : FiniteExpansion e rank) (n : Nat) :
    ∀ m c, InExpansion e c → rank c ≤ n → rank c ≤ m → expandN e n c = expandN e m c := by
  induction n with
  | zero =>
      intro m c hc hn _
      have hnil := func_nil_of_rank_zero e rank hrank c hc hn
      cases m with
      | zero => rfl
      | succ m => simp [expandN, hnil]
  | succ n ih =>
      intro m c hc hn hm
      cases m with
      | zero =>
          have hnil := func_nil_of_rank_zero e rank hrank c hc hm
          simp [expandN, hnil]
      | succ m =>
          simp only [expandN]
          congr 1
          apply List.flatMap_congr
          intro d hd
          have := hrank c d hc hd
          exact ih m d (InExpansion.emit c d hc hd) (by omega) (by omega)

/-- The expansion of a continuation is the continuation followed by the
expansions of everything func emits for it. -/
theorem expansion_unfold (e : ParallelContinueTask C) (rank : C → Nat)
    (hrank : FiniteExpansion e rank) (c : C) (hc : InExpansion e c) :
    expansion e rank c = c :: (e.func c).flatMap (expansion e rank) := by
  unfold expansion
  rw [expandN_stable e rank hrank (rank c) (rank c + 1) c hc (le_refl _) (by omega)]
  simp only [expandN]
  congr 1
  apply List.flatMap_congr
  intro d hd
  have := hrank c d hc hd
  exact expandN_stable e rank hrank (rank c) (rank d) d (InExpansion.emit c d hc hd)
    (by omega) (le_refl _)

theorem treeWeight_unfold (e : ParallelContinueTask C) (rank : C → Nat)
    (hrank : FiniteExpansion e rank) (w : C → Nat) (c : C) (hc : InExpansion e c) :
    treeWeight e rank w c = w c + mass (treeWeight e rank w) (e.func c) := by
  unfold treeWeight
  rw [expansion_unfold e rank hrank c hc, mass_cons, mass_flatMap]

theorem within_frame (e : ParallelContinueTask C) (s : State C) (t : Nat)
    (h : Within e s) (em : Emitter) (c : C) (cs : List C) (fs : List (Frame C))
    (hpc : s.pc t = Pc.call (⟨em, c :: cs⟩ :: fs)) : InExpansion e c :=
  h.2 t _ ⟨em, c :: cs⟩ c hpc (List.mem_cons_self _ _) (List.mem_cons_self _ _)

/-- The frames of a worker after a call was started for a continuation c of the
expansion on top of frames that are sublists of its former frames. -/
theorem within_pc_upd (e : ParallelContinueTask C) (s : State C) (t : Nat)
    (h : Within e s) (p : Pc C) (st : Nat → List C) (c0 : Nat) (l : List (Call C))
    (hst : ∀ u c, c ∈ st u → InExpansion e c)
    (hp : ∀ fs f c, p = Pc.call fs → f ∈ fs → c ∈ f.emits → InExpansion e c) :
    Within e ⟨c0, st, upd s.pc t p, l⟩ := by
  refine ⟨hst, ?_⟩
  intro u fs f c hpc hf hc
  change upd s.pc t p u = Pc.call fs at hpc
  by_cases hut : u = t
  · subst hut
    rw [upd_same] at hpc
    exact hp fs f c hpc hf hc
  · rw [upd_other _ _ _ _ hut] at hpc
    exact h.2 u fs f c hpc hf hc

theorem within_stack_upd (e : ParallelContinueTask C) (s : State C) (v : Nat) (st : List C)
    (h : Within e s) (hst : ∀ c, c ∈ st → InExpansion e c) :
    ∀ u c, c ∈ upd s.threadStack v st u → InExpansion e c := by
  intro u c hc
  simp only [upd] at hc
  split at hc
  · exact hst c hc
  · exact h.1 u c hc

theorem within_move (e : ParallelContinueTask C) (s : State C) (t : Nat) (s' : State C)
    (h : Within e s) (hm : Move e s t s') : Within e s' := by
  have hnew : ∀ (c : C) (em : Emitter) (rest : List (Frame C)), InExpansion e c →
      (∀ f x, f ∈ rest → x ∈ f.emits → InExpansion e x) →
      ∀ fs f x, Pc.call (⟨em, e.func c⟩ :: rest) = Pc.call fs → f ∈ fs → x ∈ f.emits →
        InExpansion e x := by
    intro c em rest hc hrest fs f x hfs hf hx
    simp only [Pc.call.injEq] at hfs
    subst hfs
    rcases List.mem_cons.1 hf with rfl | hf
    · exact InExpansion.emit c x hc hx
    · exact hrest f x hf hx
  have htail : ∀ (em : Emitter) (c : C) (cs : List C) (fs : List (Frame C)),
      s.pc t = Pc.call (⟨em, c :: cs⟩ :: fs) →
      ∀ f x, f ∈ (⟨em, cs⟩ : Frame C) :: fs → x ∈ f.emits → InExpansion e x := by
    intro em c cs fs hpc f x hf hx
    rcases List.mem_cons.1 hf with rfl | hf
    · exact h.2 t _ ⟨em, c :: cs⟩ x hpc (List.mem_cons_self _ _) (List.mem_cons_of_mem _ hx)
    · exact h.2 t _ f x hpc (List.mem_cons_of_mem _ hf) hx
  cases hm with
  | claimSeed hpc hlt =>
      exact within_pc_upd e s t h _ _ _ _ h.1
        (hnew _ _ [] (InExpansion.seed (Index.ofCursor e s.cntr) hlt) (fun f x hf => by simp at hf))
  | claimFail hpc hge =>
      exact within_pc_upd e s t h _ _ _ _ h.1 (fun fs f c hp => by simp at hp)
  | stealHit i c st hpc hi hst =>
      have hc : InExpansion e c := h.1 _ c (by rw [hst]; exact List.mem_cons_self _ _)
      exact within_pc_upd e s t h _ _ _ _
        (within_stack_upd e s _ st h
          (fun x hx => h.1 _ x (by rw [hst]; exact List.mem_cons_of_mem _ hx)))
        (hnew _ _ [] hc (fun f x hf => by simp at hf))
  | stealMiss i hpc hi hst =>
      exact within_pc_upd e s t h _ _ _ _ h.1 (fun fs f c hp => by simp at hp)
  | stealEnd i hpc hi =>
      exact within_pc_upd e s t h _ _ _ _ h.1 (fun fs f c hp => by simp at hp)
  | drainHit c st hpc hst =>
      have hc : InExpansion e c := h.1 _ c (by rw [hst]; exact List.mem_cons_self _ _)
      exact within_pc_upd e s t h _ _ _ _
        (within_stack_upd e s _ st h
          (fun x hx => h.1 _ x (by rw [hst]; exact List.mem_cons_of_mem _ hx)))
        (hnew _ _ [] hc (fun f x hf => by simp at hf))
  | drainEnd hpc hst =>
      exact within_pc_upd e s t h _ _ _ _ h.1 (fun fs f c hp => by simp at hp)
  | ret em fs hpc =>
      refine within_pc_upd e s t h _ _ _ _ h.1 ?_
      intro fs2 f c hp hf hc
      simp only [Pc.call.injEq] at hp
      subst hp
      exact h.2 t _ f c hpc (List.mem_cons_of_mem _ hf) hc
  | recurse c cs fs hpc =>
      exact within_pc_upd e s t h _ _ _ _ h.1
        (hnew _ _ _ (within_frame e s t h _ c cs fs hpc) (htail _ c cs fs hpc))
  | selectFinal c cs fs hpc hf =>
      exact within_pc_upd e s t h _ _ _ _ h.1
        (hnew _ _ _ (within_frame e s t h _ c cs fs hpc) (htail _ c cs fs hpc))
  | selectPush c cs fs hpc hf hl =>
      refine within_pc_upd e s t h _ _ _ _
        (within_stack_upd e s _ _ h (fun x hx => ?_)) ?_
      · rcases List.mem_cons.1 hx with rfl | hx
        · exact within_frame e s t h _ _ cs fs hpc
        · exact h.1 t x hx
      · intro fs2 f x hp hf2 hx
        simp only [Pc.call.injEq] at hp
        subst hp
        exact htail _ c cs fs hpc f x hf2 hx
  | selectFull c cs fs hpc hf hl =>
      exact within_pc_upd e s t h _ _ _ _ h.1
        (hnew _ _ _ (within_frame e s t h _ c cs fs hpc) (htail _ c cs fs hpc))

theorem within_init (e : ParallelContinueTask C) : Within e (State.init C) :=
  ⟨fun _ _ h => by simp [State.init] at h, fun _ _ _ _ h => by simp [State.init] at h⟩

theorem within_task (e : ParallelContinueTask C) (s : State C) (u : Nat) (h : Within e s) :
    Within e (task e s u) := by
  by_cases ha : u < e.threadCount ∧ s.pc u ≠ Pc.done
  · exact within_move e s u _ h (task_move e s u ha.1 ha.2)
  · rw [task_idle e s u (by tauto)]; exact h

theorem within_run (e : ParallelContinueTask C) (sched : List Nat) (s : State C)
    (h : Within e s) : Within e (run e sched s) :=
  run_invariant e (Within e) (fun s t s' _ h hm => within_move e s t s' h hm) sched s h

theorem within_reach (e : ParallelContinueTask C) (sched : List Nat) :
    Within e (parallel_continue e sched) :=
  within_run e sched _ (within_init e)

theorem seedClaims_append (s : State C) (c : Nat) (st : Nat → List C)
    (p : Nat → Pc C) (ev : Call C) :
    seedClaims (State.mk c st p (s.log ++ [ev])) =
      seedClaims s ++ (match ev.claimed with | some i => [i] | none => []) := by
  simp only [seedClaims, List.filterMap_append]
  congr 1
  cases h : ev.claimed <;> simp [List.filterMap_cons, h]

theorem drained_init : Drained (State.init C) := by
  intro t _; rfl

theorem drained_reach (e : ParallelContinueTask C) (sched : List Nat) :
    Drained (parallel_continue e sched) :=
  run_invariant e Drained (fun s t s' _ h hm => drained_move e s t s' h hm) sched _ drained_init

theorem notFinal_reach (e : ParallelContinueTask C) (sched : List Nat) :
    StacksNotFinal e (parallel_continue e sched) ∧ PoppedNotFinal e (parallel_continue e sched) :=
  run_invariant e (fun s => StacksNotFinal e s ∧ PoppedNotFinal e s)
    (fun s t s' _ h hm => poppedNotFinal_move e s t s' h hm) sched _
    ⟨fun _ _ h => by simp [State.init] at h, fun _ h => by simp [State.init] at h⟩

theorem parallel_continue_snoc (e : ParallelContinueTask C) (sched : List Nat) (t : Nat) :
    parallel_continue e (sched ++ [t]) = task e (parallel_continue e sched) t := by
  unfold parallel_continue
  rw [run_append]
  rfl

theorem upd_upd {α : Type} (f : Nat → α) (t : Nat) (a b : α) :
    upd (upd f t a) t b = upd f t b := by
  funext j
  simp only [upd]
  split <;> rfl

theorem task_select_final (e : ParallelContinueTask C) (s : State C) (t : Nat) (c : C)
    (cs : List C) (fs : List (Frame C)) (ht : t < e.threadCount)
    (hpc : s.pc t = Pc.call (⟨Emitter.select, c :: cs⟩ :: fs)) (hf : e.final c = true) :
    task e s t = ⟨s.cntr, s.threadStack,
      upd s.pc t (Pc.call (⟨Emitter.recurse, e.func c⟩ :: ⟨Emitter.select, cs⟩ :: fs)),
      s.log ++ [⟨t, Origin.select, c⟩]⟩ := by
  unfold task
  rw [if_pos ht, hpc]
  simp only [Select, Recurse, hf, if_true, invoke]

theorem task_select_push (e : ParallelContinueTask C) (s : State C) (t : Nat) (c : C)
    (cs : List C) (fs : List (Frame C)) (ht : t < e.threadCount)
    (hpc : s.pc t = Pc.call (⟨Emitter.select, c :: cs⟩ :: fs)) (hf : e.final c = false)
    (hl : (s.threadStack t).length < SIZE_WORK_STACK) :
    task e s t = ⟨s.cntr, upd s.threadStack t (c :: s.threadStack t),
      upd s.pc t (Pc.call (⟨Emitter.select, cs⟩ :: fs)), s.log⟩ := by
  unfold task
  rw [if_pos ht, hpc]
  simp only [Select, hf, WorkStack.push, if_pos hl]
  simp

theorem task_select_full (e : ParallelContinueTask C) (s : State C) (t : Nat) (c : C)
    (cs : List C) (fs : List (Frame C)) (ht : t < e.threadCount)
    (hpc : s.pc t = Pc.call (⟨Emitter.select, c :: cs⟩ :: fs)) (hf : e.final c = false)
    (hl : SIZE_WORK_STACK ≤ (s.threadStack t).length) :
    task e s t = ⟨s.cntr, s.threadStack,
      upd s.pc t (Pc.call (⟨Emitter.recurse, e.func c⟩ :: ⟨Emitter.select, cs⟩ :: fs)),
      s.log ++ [⟨t, Origin.select, c⟩]⟩ := by
  unfold task
  rw [if_pos ht, hpc]
  simp only [Select, Recurse, hf, WorkStack.push, if_neg (Nat.not_lt.2 hl), invoke]
  simp

theorem task_recurse (e : ParallelContinueTask C) (s : State C) (t : Nat) (c : C)
    (cs : List C) (fs : List (Frame C)) (ht : t < e.threadCount)
    (hpc : s.pc t = Pc.call (⟨Emitter.recurse, c :: cs⟩ :: fs)) :
    task e s t = ⟨s.cntr, s.threadStack,
      upd s.pc t (Pc.call (⟨Emitter.recurse, e.func c⟩ :: ⟨Emitter.recurse, cs⟩ :: fs)),
      s.log ++ [⟨t, Origin.recurse, c⟩]⟩ := by
  unfold task
  rw [if_pos ht, hpc]
  simp only [Recurse, invoke]

theorem task_ret (e : ParallelContinueTask C) (s : State C) (t : Nat) (em : Emitter)
    (fs : List (Frame C)) (ht : t < e.threadCount)
    (hpc : s.pc t = Pc.call (⟨em, []⟩ :: fs)) :
    task e s t = ⟨s.cntr, s.threadStack, upd s.pc t (Pc.call fs), s.log⟩ := by
  unfold task
  rw [if_pos ht, hpc]
  cases em <;> rfl

theorem task_claim_seed (e : ParallelContinueTask C) (s : State C) (t : Nat)
    (ht : t < e.threadCount) (hpc : s.pc t = Pc.claim)
    (hlt : Index.ofCursor e s.cntr < e.taskCount) :
    task e s t = ⟨s.cntr + 1, s.threadStack,
      upd s.pc t
        (Pc.call [⟨Emitter.select, e.func (e.continuations (Index.ofCursor e s.cntr))⟩]),
      s.log ++ [⟨t, Origin.seed (Index.ofCursor e s.cntr),
        e.continuations (Index.ofCursor e s.cntr)⟩]⟩ := by
  unfold task
  rw [if_pos ht, hpc]
  simp only [atomic_add, if_pos hlt, invoke]

theorem task_claim_fail (e : ParallelContinueTask C) (s : State C) (t : Nat)
    (ht : t < e.threadCount) (hpc : s.pc t = Pc.claim)
    (hge : e.taskCount ≤ Index.ofCursor e s.cntr) :
    task e s t = ⟨s.cntr + 1, s.threadStack, upd s.pc t (Pc.steal 0), s.log⟩ := by
  unfold task
  rw [if_pos ht, hpc]
  simp only [atomic_add, if_neg (Nat.not_lt.2 hge)]

theorem ofCursor_of_lt (e : ParallelContinueTask C) (c : Nat) (h : c < 2 ^ e.indexBits) :
    Index.ofCursor e c = c :=
  Nat.mod_eq_of_lt h

theorem ofCursor_taskCount (e : ParallelContinueTask C) : Index.ofCursor e e.taskCount = e.taskCount :=
  ofCursor_of_lt e _ e.fits

theorem ofCursor_succ (e : ParallelContinueTask C) (c : Nat)
    (h : Index.ofCursor e c + 1 < 2 ^ e.indexBits) :
    Index.ofCursor e (c + 1) = Index.ofCursor e c + 1 := by
  unfold Index.ofCursor at h ⊢
  rw [Nat.add_mod, Nat.mod_eq_of_lt (show 1 < 2 ^ e.indexBits by omega), Nat.mod_eq_of_lt h]

theorem task_steal_hit (e : ParallelContinueTask C) (s : State C) (t i : Nat) (c : C)
    (st : List C) (ht : t < e.threadCount) (hpc : s.pc t = Pc.steal i)
    (hi : i < e.threadCount) (hst : s.threadStack ((t + i) % e.threadCount) = c :: st) :
    task e s t = ⟨s.cntr, upd s.threadStack ((t + i) % e.threadCount) st,
      upd s.pc t (Pc.call [⟨Emitter.select, e.func c⟩]),
      s.log ++ [⟨t, Origin.steal i, c⟩]⟩ := by
  unfold task
  rw [if_pos ht, hpc]
  simp only [if_pos hi, hst, WorkStack.pop, invoke]

theorem task_steal_miss (e : ParallelContinueTask C) (s : State C) (t i : Nat)
    (ht : t < e.threadCount) (hpc : s.pc t = Pc.steal i)
    (hi : i < e.threadCount) (hst : s.threadStack ((t + i) % e.threadCount) = []) :
    task e s t = ⟨s.cntr, s.threadStack, upd s.pc t (Pc.steal (i + 1)), s.log⟩ := by
  unfold task
  rw [if_pos ht, hpc]
  simp only [if_pos hi, hst, WorkStack.pop]

theorem task_steal_end (e : ParallelContinueTask C) (s : State C) (t i : Nat)
    (ht : t < e.threadCount) (hpc : s.pc t = Pc.steal i) (hi : e.threadCount ≤ i) :
    task e s t = ⟨s.cntr, s.threadStack, upd s.pc t Pc.done, s.log⟩ := by
  unfold task
  rw [if_pos ht, hpc]
  simp only [if_neg (Nat.not_lt.2 hi)]

theorem task_drain_hit (e : ParallelContinueTask C) (s : State C) (t : Nat) (c : C)
    (st : List C) (ht : t < e.threadCount) (hpc : s.pc t = Pc.call [])
    (hst : s.threadStack t = c :: st) :
    task e s t = ⟨s.cntr, upd s.threadStack t st,
      upd s.pc t (Pc.call [⟨Emitter.select, e.func c⟩]),
      s.log ++ [⟨t, Origin.drain, c⟩]⟩ := by
  unfold task
  rw [if_pos ht, hpc]
  simp only [hst, WorkStack.pop, invoke]

theorem task_drain_end (e : ParallelContinueTask C) (s : State C) (t : Nat)
    (ht : t < e.threadCount) (hpc : s.pc t = Pc.call []) (hst : s.threadStack t = []) :
    task e s t = ⟨s.cntr, s.threadStack, upd s.pc t Pc.claim, s.log⟩ := by
  unfold task
  rw [if_pos ht, hpc]
  simp only [hst, WorkStack.pop]

theorem upd_eq_self {α : Type} (f : Nat → α) (t : Nat) (a : α) (h : f t = a) :
    upd f t a = f := by
  funext j
  simp only [upd]
  split
  · next hj => rw [hj, h]
  · rfl

theorem run_replicate_succ (e : ParallelContinueTask C) (t n : Nat) (s : State C) :
    run e (List.replicate (n + 1) t) s = task e (run e (List.replicate n t) s) t := by
  rw [List.replicate_succ', run_append]
  rfl

/-- A worker whose next k pops of the scan all fail moves k places on in the
scan and changes nothing else. -/
theorem scan_misses (e : ParallelContinueTask C) (t : Nat) (ht : t < e.threadCount) (k : Nat) :
    ∀ (s : State C) (i : Nat), s.pc t = Pc.steal i → i + k ≤ e.threadCount →
      (∀ j, i ≤ j → j < i + k → s.threadStack ((t + j) % e.threadCount) = []) →
      run e (List.replicate k t) s =
        ⟨s.cntr, s.threadStack, upd s.pc t (Pc.steal (i + k)), s.log⟩ := by
  induction k with
  | zero =>
      intro s i hpc _ _
      rw [List.replicate_zero, run_nil, Nat.add_zero, upd_eq_self _ _ _ hpc]
  | succ k ih =>
      intro s i hpc hk hemp
      rw [List.replicate_succ, run_cons,
        task_steal_miss e s t i ht hpc (by omega) (hemp i (le_refl _) (by omega))]
      rw [ih ⟨s.cntr, s.threadStack, upd s.pc t (Pc.steal (i + 1)), s.log⟩ (i + 1)
        (upd_same _ _ _) (by omega) (fun j h1 h2 => hemp j (by omega) (by omega))]
      have hik : i + 1 + k = i + (k + 1) := by omega
      simp only [upd_upd, hik]

/-- An action of one worker leaves the position of every other worker alone. -/
theorem pc_task_other (e : ParallelContinueTask C) (s : State C) (t u : Nat) (h : t ≠ u) :
    (task e s u).pc t = s.pc t := by
  by_cases ha : u < e.threadCount ∧ s.pc u ≠ Pc.done
  · have hm := task_move e s u ha.1 ha.2
    generalize task e s u = s' at hm
    cases hm <;> exact upd_other _ _ _ _ h
  · rw [task_idle e s u (by tauto)]

/-- A worker that has returned stays returned. -/
theorem done_task (e : ParallelContinueTask C) (s : State C) (t u : Nat)
    (h : s.pc t = Pc.done) : (task e s u).pc t = Pc.done := by
  by_cases hut : t = u
  · subst hut
    rw [task_idle e s t (Or.inr h)]
    exact h
  · rw [pc_task_other e s t u hut]
    exact h

theorem done_run (e : ParallelContinueTask C) (sched : List Nat) (s : State C) (t : Nat)
    (h : s.pc t = Pc.done) : (run e sched s).pc t = Pc.done := by
  induction sched generalizing s with
  | nil => exact h
  | cons u sched ih =>
      rw [run_cons]
      exact ih _ (done_task e s t u h)

theorem Arrives.refl (e : ParallelContinueTask C) (t : Nat) (s : State C) : Arrives e t s s :=
  ⟨0, rfl⟩

theorem Arrives.one (e : ParallelContinueTask C) (t : Nat) (s : State C) :
    Arrives e t s (task e s t) :=
  ⟨1, rfl⟩

theorem Arrives.trans {e : ParallelContinueTask C} {t : Nat} {s1 s2 s3 : State C}
    (h1 : Arrives e t s1 s2) (h2 : Arrives e t s2 s3) : Arrives e t s1 s3 := by
  obtain ⟨a, ha⟩ := h1
  obtain ⟨b, hb⟩ := h2
  refine ⟨a + b, ?_⟩
  rw [List.replicate_add, run_append, ha, hb]

/-- The calls a Recurse frame makes: given what the frames of the emitted lists
of continuations of rank at most n do, a frame with such continuations pending
passes each with its whole expansion to func, depth first, and returns; the
stacks and the cursor are untouched. -/
theorem recurse_frame_list (e : ParallelContinueTask C) (rank : C → Nat)
    (hrank : FiniteExpansion e rank) (t : Nat) (ht : t < e.threadCount) (n : Nat)
    (hchild : ∀ c, InExpansion e c → rank c ≤ n → ∀ (fs : List (Frame C)) (s : State C),
      s.pc t = Pc.call (⟨Emitter.recurse, e.func c⟩ :: fs) →
      ∃ L : List (Call C), L.map Call.cont = (e.func c).flatMap (expansion e rank) ∧
        (∀ ev, ev ∈ L → ev.origin = Origin.recurse) ∧
        Arrives e t s ⟨s.cntr, s.threadStack, upd s.pc t (Pc.call fs), s.log ++ L⟩)
    (cs : List C) :
    (∀ d, d ∈ cs → InExpansion e d ∧ rank d ≤ n) → ∀ (fs : List (Frame C)) (s : State C),
      s.pc t = Pc.call (⟨Emitter.recurse, cs⟩ :: fs) →
      ∃ L : List (Call C), L.map Call.cont = cs.flatMap (expansion e rank) ∧
        (∀ ev, ev ∈ L → ev.origin = Origin.recurse) ∧
        Arrives e t s ⟨s.cntr, s.threadStack, upd s.pc t (Pc.call fs), s.log ++ L⟩ := by
  induction cs with
  | nil =>
      intro _ fs s hpc
      refine ⟨[], rfl, by simp, ?_⟩
      have h := Arrives.one e t s
      rw [task_ret e s t Emitter.recurse fs ht hpc] at h
      simpa using h
  | cons c cs ih =>
      intro hr fs s hpc
      have h1 := Arrives.one e t s
      rw [task_recurse e s t c cs fs ht hpc] at h1
      obtain ⟨L1, hL1, ho1, h2⟩ := hchild c (hr c (List.mem_cons_self _ _)).1
        (hr c (List.mem_cons_self _ _)).2 (⟨Emitter.recurse, cs⟩ :: fs)
        ⟨s.cntr, s.threadStack,
          upd s.pc t (Pc.call (⟨Emitter.recurse, e.func c⟩ :: ⟨Emitter.recurse, cs⟩ :: fs)),
          s.log ++ [⟨t, Origin.recurse, c⟩]⟩ (upd_same _ _ _)
      simp only [upd_upd] at h2
      obtain ⟨L2, hL2, ho2, h3⟩ := ih (fun d hd => hr d (List.mem_cons_of_mem _ hd)) fs
        ⟨s.cntr, s.threadStack, upd s.pc t (Pc.call (⟨Emitter.recurse, cs⟩ :: fs)),
          s.log ++ [⟨t, Origin.recurse, c⟩] ++ L1⟩ (upd_same _ _ _)
      simp only [upd_upd] at h3
      refine ⟨⟨t, Origin.recurse, c⟩ :: (L1 ++ L2), ?_, ?_, ?_⟩
      · rw [List.map_cons, List.map_append, hL1, hL2, List.flatMap_cons,
          expansion_unfold e rank hrank c (hr c (List.mem_cons_self _ _)).1]
        simp
      · intro ev hev
        rcases List.mem_cons.1 hev with rfl | hev
        · rfl
        · rcases List.mem_append.1 hev with hev | hev
          · exact ho1 ev hev
          · exact ho2 ev hev
      · have h := (h1.trans h2).trans h3
        simpa [List.append_assoc] using h

/-- A Recurse frame passes every continuation handed to it, with its whole
expansion, to func at once and depth first, and touches no stack. -/
theorem recurse_frame (e : ParallelContinueTask C) (rank : C → Nat)
    (hrank : FiniteExpansion e rank) (t : Nat) (ht : t < e.threadCount) (n : Nat) :
    ∀ (cs : List C), (∀ d, d ∈ cs → InExpansion e d ∧ rank d ≤ n) →
      ∀ (fs : List (Frame C)) (s : State C),
      s.pc t = Pc.call (⟨Emitter.recurse, cs⟩ :: fs) →
      ∃ L : List (Call C), L.map Call.cont = cs.flatMap (expansion e rank) ∧
        (∀ ev, ev ∈ L → ev.origin = Origin.recurse) ∧
        Arrives e t s ⟨s.cntr, s.threadStack, upd s.pc t (Pc.call fs), s.log ++ L⟩ := by
  induction n with
  | zero =>
      intro cs
      apply recurse_frame_list e rank hrank t ht 0
      intro c hin hc fs s hpc
      rw [func_nil_of_rank_zero e rank hrank c hin hc] at hpc ⊢
      refine ⟨[], rfl, by simp, ?_⟩
      have h := Arrives.one e t s
      rw [task_ret e s t Emitter.recurse fs ht hpc] at h
      simpa using h
  | succ n ih =>
      intro cs
      apply recurse_frame_list e rank hrank t ht (n + 1)
      intro c hin hc fs s hpc
      exact ih (e.func c)
        (fun d hd => ⟨InExpansion.emit c d hin hd, by have := hrank c d hin hd; omega⟩) fs s hpc

/-- Every list of continuations has a bound on its ranks. -/
theorem rank_bound (rank : C → Nat) (cs : List C) :
    ∀ d, d ∈ cs → rank d ≤ (cs.map rank).sum := by
  intro d hd
  exact List.single_le_sum (fun _ _ => Nat.zero_le _) _ (List.mem_map_of_mem rank hd)

/-- A Recurse frame whose pending continuations belong to the expansion, whatever
their ranks. -/
theorem recurse_frame_any (e : ParallelContinueTask C) (rank : C → Nat)
    (hrank : FiniteExpansion e rank) (t : Nat) (ht : t < e.threadCount)
    (cs : List C) (hcs : ∀ d, d ∈ cs → InExpansion e d) (fs : List (Frame C)) (s : State C)
    (hpc : s.pc t = Pc.call (⟨Emitter.recurse, cs⟩ :: fs)) :
    ∃ L : List (Call C), L.map Call.cont = cs.flatMap (expansion e rank) ∧
      (∀ ev, ev ∈ L → ev.origin = Origin.recurse) ∧
      Arrives e t s ⟨s.cntr, s.threadStack, upd s.pc t (Pc.call fs), s.log ++ L⟩ :=
  recurse_frame e rank hrank t ht _ cs (fun d hd => ⟨hcs d hd, rank_bound rank cs d hd⟩) fs s hpc

theorem selectSplit_now (e : ParallelContinueTask C) (rank : C → Nat) (h : Nat) (d : C)
    (ds : List C) (hc : e.final d = true ∨ SIZE_WORK_STACK ≤ h) :
    selectSplit e rank h (d :: ds) =
      (expansion e rank d ++ (selectSplit e rank h ds).1, (selectSplit e rank h ds).2) := by
  have : (e.final d || decide (SIZE_WORK_STACK ≤ h)) = true := by
    rcases hc with hc | hc <;> simp [hc]
  simp only [selectSplit, this, if_true]

theorem selectSplit_push (e : ParallelContinueTask C) (rank : C → Nat) (h : Nat) (d : C)
    (ds : List C) (hf : e.final d = false) (hl : h < SIZE_WORK_STACK) :
    selectSplit e rank h (d :: ds) =
      ((selectSplit e rank (h + 1) ds).1, (selectSplit e rank (h + 1) ds).2 ++ [d]) := by
  have : (e.final d || decide (SIZE_WORK_STACK ≤ h)) = false := by
    simp [hf, hl]
  simp only [selectSplit, this]
  simp

theorem selectSplit_snd_mem (e : ParallelContinueTask C) (rank : C → Nat) (cs : List C) :
    ∀ h p, p ∈ (selectSplit e rank h cs).2 → p ∈ cs := by
  induction cs with
  | nil => intro h p hp; simp [selectSplit] at hp
  | cons d ds ih =>
      intro h p hp
      by_cases hc : e.final d = true ∨ SIZE_WORK_STACK ≤ h
      · rw [selectSplit_now e rank h d ds hc] at hp
        exact List.mem_cons_of_mem _ (ih h p hp)
      · have hf : e.final d = false := by
          cases hfd : e.final d with
          | true => exact absurd (Or.inl hfd) hc
          | false => rfl
        rw [selectSplit_push e rank h d ds hf (by omega)] at hp
        rcases List.mem_append.1 hp with hp | hp
        · exact List.mem_cons_of_mem _ (ih (h + 1) p hp)
        · rw [List.mem_singleton] at hp
          rw [hp]
          exact List.mem_cons_self _ _

/-- A continuation that Select passes to func at once is processed with its whole
expansion before the emit call returns. -/
theorem select_now (e : ParallelContinueTask C) (rank : C → Nat)
    (hrank : FiniteExpansion e rank) (t : Nat) (ht : t < e.threadCount)
    (d : C) (hd : InExpansion e d) (ds : List C) (fs : List (Frame C)) (s : State C)
    (hstep : task e s t = ⟨s.cntr, s.threadStack,
      upd s.pc t (Pc.call (⟨Emitter.recurse, e.func d⟩ :: ⟨Emitter.select, ds⟩ :: fs)),
      s.log ++ [⟨t, Origin.select, d⟩]⟩) :
    ∃ L : List (Call C), L.map Call.cont = expansion e rank d ∧
      (∀ ev, ev ∈ L → ev.claimed = none) ∧
      Arrives e t s ⟨s.cntr, s.threadStack, upd s.pc t (Pc.call (⟨Emitter.select, ds⟩ :: fs)),
        s.log ++ L⟩ := by
  have h1 := Arrives.one e t s
  rw [hstep] at h1
  obtain ⟨L1, hL1, ho1, h2⟩ := recurse_frame_any e rank hrank t ht (e.func d)
    (fun x hx => InExpansion.emit d x hd hx) (⟨Emitter.select, ds⟩ :: fs)
    ⟨s.cntr, s.threadStack,
      upd s.pc t (Pc.call (⟨Emitter.recurse, e.func d⟩ :: ⟨Emitter.select, ds⟩ :: fs)),
      s.log ++ [⟨t, Origin.select, d⟩]⟩ (upd_same _ _ _)
  simp only [upd_upd] at h2
  refine ⟨⟨t, Origin.select, d⟩ :: L1, ?_, ?_, ?_⟩
  · rw [List.map_cons, hL1, expansion_unfold e rank hrank d hd]
  · intro ev hev
    rcases List.mem_cons.1 hev with rfl | hev
    · rfl
    · simp [Call.claimed, ho1 ev hev]
  · simpa [List.append_assoc] using h1.trans h2

/-- A Select frame: the continuations it has yet to emit are passed to func at
once or pushed as selectSplit says, then the call returns. -/
theorem select_frame (e : ParallelContinueTask C) (rank : C → Nat)
    (hrank : FiniteExpansion e rank) (t : Nat) (ht : t < e.threadCount)
    (cs : List C) (hcs : ∀ d, d ∈ cs → InExpansion e d) :
    ∀ (fs : List (Frame C)) (s : State C),
      s.pc t = Pc.call (⟨Emitter.select, cs⟩ :: fs) →
      ∃ L : List (Call C),
        L.map Call.cont = (selectSplit e rank (s.threadStack t).length cs).1 ∧
        (∀ ev, ev ∈ L → ev.claimed = none) ∧
        Arrives e t s ⟨s.cntr,
          upd s.threadStack t
            ((selectSplit e rank (s.threadStack t).length cs).2 ++ s.threadStack t),
          upd s.pc t (Pc.call fs), s.log ++ L⟩ := by
  induction cs with
  | nil =>
      intro fs s hpc
      refine ⟨[], rfl, by simp, ?_⟩
      have h := Arrives.one e t s
      rw [task_ret e s t Emitter.select fs ht hpc] at h
      simpa [selectSplit, upd_eq_self] using h
  | cons d ds ih =>
      intro fs s hpc
      have ih := ih (fun x hx => hcs x (List.mem_cons_of_mem _ hx))
      by_cases hc : e.final d = true ∨ SIZE_WORK_STACK ≤ (s.threadStack t).length
      · have hstep : task e s t = ⟨s.cntr, s.threadStack,
            upd s.pc t (Pc.call (⟨Emitter.recurse, e.func d⟩ :: ⟨Emitter.select, ds⟩ :: fs)),
            s.log ++ [⟨t, Origin.select, d⟩]⟩ := by
          cases hfd : e.final d with
          | true => exact task_select_final e s t d ds fs ht hpc hfd
          | false =>
              rcases hc with hc | hc
              · rw [hfd] at hc; cases hc
              · exact task_select_full e s t d ds fs ht hpc hfd hc
        obtain ⟨L1, hL1, ho1, h1⟩ := select_now e rank hrank t ht d
          (hcs d (List.mem_cons_self _ _)) ds fs s hstep
        obtain ⟨L2, hL2, ho2, h2⟩ := ih fs
          ⟨s.cntr, s.threadStack, upd s.pc t (Pc.call (⟨Emitter.select, ds⟩ :: fs)),
            s.log ++ L1⟩ (upd_same _ _ _)
        simp only [upd_upd] at h2
        refine ⟨L1 ++ L2, ?_, ?_, ?_⟩
        · rw [selectSplit_now e rank _ d ds hc, List.map_append, hL1, hL2]
        · intro ev hev
          rcases List.mem_append.1 hev with hev | hev
          · exact ho1 ev hev
          · exact ho2 ev hev
        · rw [selectSplit_now e rank _ d ds hc]
          simpa [List.append_assoc] using h1.trans h2
      · have hf : e.final d = false := by
          cases hfd : e.final d with
          | true => exact absurd (Or.inl hfd) hc
          | false => rfl
        have hl : (s.threadStack t).length < SIZE_WORK_STACK := by omega
        have h1 := Arrives.one e t s
        rw [task_select_push e s t d ds fs ht hpc hf hl] at h1
        obtain ⟨L2, hL2, ho2, h2⟩ := ih fs
          ⟨s.cntr, upd s.threadStack t (d :: s.threadStack t),
            upd s.pc t (Pc.call (⟨Emitter.select, ds⟩ :: fs)), s.log⟩ (upd_same _ _ _)
        simp only [upd_upd, upd_same, List.length_cons] at h2 hL2
        refine ⟨L2, ?_, ho2, ?_⟩
        · rw [selectSplit_push e rank _ d ds hf hl, hL2]
        · rw [selectSplit_push e rank _ d ds hf hl]
          simpa [List.append_assoc] using h1.trans h2

/-- The drain loop, given the processing of one popped continuation of rank at
most n: the entries above the lower part of the stack are popped and processed
in LIFO order, and the loop is back at its pop with the lower part left. -/
theorem drain_items (e : ParallelContinueTask C) (rank : C → Nat) (t : Nat)
    (ht : t < e.threadCount) (n : Nat)
    (hone : ∀ p, InExpansion e p → rank p ≤ n → ∀ (s : State C),
      s.pc t = Pc.call [⟨Emitter.select, e.func p⟩] →
      ∃ L : List (Call C),
        p :: L.map Call.cont = processOrder e rank n (s.threadStack t).length p ∧
        (∀ ev, ev ∈ L → ev.claimed = none) ∧
        Arrives e t s ⟨s.cntr, s.threadStack, upd s.pc t (Pc.call []), s.log ++ L⟩)
    (items : List C) :
    (∀ p, p ∈ items → InExpansion e p ∧ rank p ≤ n) → ∀ (below : List C) (s : State C),
      s.pc t = Pc.call [] → s.threadStack t = items ++ below →
      ∃ L : List (Call C),
        L.map Call.cont = drainList (processOrder e rank n) below.length items ∧
        (∀ ev, ev ∈ L → ev.claimed = none) ∧
        Arrives e t s ⟨s.cntr, upd s.threadStack t below, upd s.pc t (Pc.call []),
          s.log ++ L⟩ := by
  induction items with
  | nil =>
      intro _ below s hpc hst
      refine ⟨[], rfl, by simp, ?_⟩
      have h := Arrives.refl e t s
      rw [List.nil_append] at hst
      simpa [upd_eq_self _ _ _ hst, upd_eq_self _ _ _ hpc] using h
  | cons p ps ih =>
      intro hr below s hpc hst
      have h1 := Arrives.one e t s
      rw [task_drain_hit e s t p (ps ++ below) ht hpc (by simpa using hst)] at h1
      obtain ⟨L1, hL1, ho1, h2⟩ := hone p (hr p (List.mem_cons_self _ _)).1
        (hr p (List.mem_cons_self _ _)).2
        ⟨s.cntr, upd s.threadStack t (ps ++ below),
          upd s.pc t (Pc.call [⟨Emitter.select, e.func p⟩]),
          s.log ++ [⟨t, Origin.drain, p⟩]⟩ (upd_same _ _ _)
      simp only [upd_upd, upd_same] at h2 hL1
      obtain ⟨L2, hL2, ho2, h3⟩ := ih (fun q hq => hr q (List.mem_cons_of_mem _ hq)) below
        ⟨s.cntr, upd s.threadStack t (ps ++ below), upd s.pc t (Pc.call []),
          s.log ++ [⟨t, Origin.drain, p⟩] ++ L1⟩ (upd_same _ _ _) (upd_same _ _ _)
      simp only [upd_upd] at h3
      refine ⟨⟨t, Origin.drain, p⟩ :: (L1 ++ L2), ?_, ?_, ?_⟩
      · rw [List.map_cons, List.map_append, hL2, ← List.cons_append, hL1]
        simp only [drainList, List.length_append]
        rw [Nat.add_comm ps.length]
      · intro ev hev
        rcases List.mem_cons.1 hev with rfl | hev
        · rfl
        · rcases List.mem_append.1 hev with hev | hev
          · exact ho1 ev hev
          · exact ho2 ev hev
      · simpa [List.append_assoc] using (h1.trans h2).trans h3

/-- The processing of one continuation that has just been passed to func by the
worker loop: its call under Select, then the drain of what it pushed; the stack
is back as it was. -/
theorem process_one (e : ParallelContinueTask C) (rank : C → Nat)
    (hrank : FiniteExpansion e rank) (t : Nat) (ht : t < e.threadCount)
    (n : Nat) :
    ∀ p, InExpansion e p → rank p ≤ n → ∀ (s : State C),
      s.pc t = Pc.call [⟨Emitter.select, e.func p⟩] →
      ∃ L : List (Call C),
        p :: L.map Call.cont = processOrder e rank n (s.threadStack t).length p ∧
        (∀ ev, ev ∈ L → ev.claimed = none) ∧
        Arrives e t s ⟨s.cntr, s.threadStack, upd s.pc t (Pc.call []), s.log ++ L⟩ := by
  induction n with
  | zero =>
      intro p hin hp s hpc
      rw [func_nil_of_rank_zero e rank hrank p hin hp] at hpc
      refine ⟨[], rfl, by simp, ?_⟩
      have h := Arrives.one e t s
      rw [task_ret e s t Emitter.select [] ht hpc] at h
      simpa using h
  | succ n ih =>
      intro p hin hp s hpc
      obtain ⟨L1, hL1, ho1, h1⟩ := select_frame e rank hrank t ht (e.func p)
        (fun x hx => InExpansion.emit p x hin hx) [] s hpc
      obtain ⟨L2, hL2, ho2, h2⟩ := drain_items e rank t ht n ih
        (selectSplit e rank (s.threadStack t).length (e.func p)).2
        (fun q hq => by
          have hq2 := selectSplit_snd_mem e rank _ _ q hq
          have := hrank p q hin hq2
          exact ⟨InExpansion.emit p q hin hq2, by omega⟩)
        (s.threadStack t)
        ⟨s.cntr,
          upd s.threadStack t
            ((selectSplit e rank (s.threadStack t).length (e.func p)).2 ++ s.threadStack t),
          upd s.pc t (Pc.call []), s.log ++ L1⟩ (upd_same _ _ _) (upd_same _ _ _)
      simp only [upd_upd] at h2
      rw [upd_eq_self _ _ _ rfl] at h2
      refine ⟨L1 ++ L2, ?_, ?_, ?_⟩
      · rw [List.map_append, hL1, hL2]
        rfl
      · intro ev hev
        rcases List.mem_append.1 hev with hev | hev
        · exact ho1 ev hev
        · exact ho2 ev hev
      · simpa [List.append_assoc] using h1.trans h2

theorem splitClaims_inner (L l : List (Call C)) (h : ∀ ev, ev ∈ L → ev.claimed = none) :
    splitClaims (L ++ l) = (L.map Call.cont ++ (splitClaims l).1, (splitClaims l).2) := by
  induction L with
  | nil => rfl
  | cons ev L ih =>
      have hev := h ev (List.mem_cons_self _ _)
      have := ih (fun x hx => h x (List.mem_cons_of_mem _ hx))
      rw [List.cons_append, splitClaims]
      simp only [hev, this, List.map_cons, List.cons_append]

theorem splitClaims_claim (ev : Call C) (l : List (Call C)) (i : Nat)
    (h : ev.claimed = some i) :
    splitClaims (ev :: l) = ([], (ev.cont :: (splitClaims l).1) :: (splitClaims l).2) := by
  rw [splitClaims]
  simp only [h]

theorem filterMap_claimed_inner (L : List (Call C)) (h : ∀ ev, ev ∈ L → ev.claimed = none) :
    L.filterMap Call.claimed = [] := by
  induction L with
  | nil => rfl
  | cons ev L ih =>
      rw [List.filterMap_cons, h ev (List.mem_cons_self _ _)]
      exact ih (fun x hx => h x (List.mem_cons_of_mem _ hx))

/-- The claim loop of a worker stepping alone with an empty stack, as long as the
converted cursor stays below N: the seeds left are claimed in index order, and
between the claim of a seed and the next claim func is passed exactly the
processing sequence of that seed. -/
theorem claim_loop (e : ParallelContinueTask C) (rank : C → Nat)
    (hrank : FiniteExpansion e rank) (t : Nat) (ht : t < e.threadCount)
    (m : Nat) :
    ∀ (s : State C), s.pc t = Pc.claim → s.threadStack t = [] →
      Index.ofCursor e s.cntr + m = e.taskCount →
      ∃ L : List (Call C),
        splitClaims L =
          ([], ((List.range' (Index.ofCursor e s.cntr) m).map e.continuations).map
            (seedOrder e rank)) ∧
        L.filterMap Call.claimed = List.range' (Index.ofCursor e s.cntr) m ∧
        Arrives e t s ⟨s.cntr + m, s.threadStack, s.pc, s.log ++ L⟩ := by
  induction m with
  | zero =>
      intro s hpc hst hc
      refine ⟨[], rfl, rfl, ?_⟩
      have h := Arrives.refl e t s
      simpa using h
  | succ m ih =>
      intro s hpc hst hc
      have hfit := e.fits
      have hlt : Index.ofCursor e s.cntr < e.taskCount := by omega
      have hsucc : Index.ofCursor e (s.cntr + 1) = Index.ofCursor e s.cntr + 1 :=
        ofCursor_succ e s.cntr (by omega)
      have h1 := Arrives.one e t s
      rw [task_claim_seed e s t ht hpc hlt] at h1
      obtain ⟨L1, hL1, ho1, h2⟩ := process_one e rank hrank t ht
        (rank (e.continuations (Index.ofCursor e s.cntr)))
        (e.continuations (Index.ofCursor e s.cntr))
        (InExpansion.seed (Index.ofCursor e s.cntr) hlt) (le_refl _)
        ⟨s.cntr + 1, s.threadStack,
          upd s.pc t
            (Pc.call [⟨Emitter.select, e.func (e.continuations (Index.ofCursor e s.cntr))⟩]),
          s.log ++ [⟨t, Origin.seed (Index.ofCursor e s.cntr),
            e.continuations (Index.ofCursor e s.cntr)⟩]⟩ (upd_same _ _ _)
      simp only [upd_upd, hst, List.length_nil] at h2 hL1
      have h3 := Arrives.one e t
        ⟨s.cntr + 1, s.threadStack, upd s.pc t (Pc.call []),
          s.log ++ [⟨t, Origin.seed (Index.ofCursor e s.cntr),
            e.continuations (Index.ofCursor e s.cntr)⟩] ++ L1⟩
      rw [task_drain_end e
        ⟨s.cntr + 1, s.threadStack, upd s.pc t (Pc.call []),
          s.log ++ [Call.mk t (Origin.seed (Index.ofCursor e s.cntr))
            (e.continuations (Index.ofCursor e s.cntr))] ++ L1⟩
        t ht (upd_same _ _ _) hst] at h3
      simp only [upd_upd] at h3
      rw [upd_eq_self _ _ _ hpc] at h3
      obtain ⟨L2, hL2, hc2, h4⟩ := ih
        ⟨s.cntr + 1, s.threadStack, s.pc,
          s.log ++ [⟨t, Origin.seed (Index.ofCursor e s.cntr),
            e.continuations (Index.ofCursor e s.cntr)⟩] ++ L1⟩ hpc hst
        (by show Index.ofCursor e (s.cntr + 1) + m = e.taskCount; omega)
      simp only [hsucc] at hL2 hc2
      refine ⟨⟨t, Origin.seed (Index.ofCursor e s.cntr),
        e.continuations (Index.ofCursor e s.cntr)⟩ :: (L1 ++ L2), ?_, ?_, ?_⟩
      · rw [splitClaims_claim (Call.mk t (Origin.seed (Index.ofCursor e s.cntr))
          (e.continuations (Index.ofCursor e s.cntr))) _
          (Index.ofCursor e s.cntr) rfl, splitClaims_inner L1 L2 ho1, hL2]
        simp only [List.append_nil, List.range'_succ, List.map_cons]
        rw [hL1]
        rfl
      · have hcl : (Call.mk t (Origin.seed (Index.ofCursor e s.cntr))
            (e.continuations (Index.ofCursor e s.cntr))).claimed =
            some (Index.ofCursor e s.cntr) := rfl
        rw [List.filterMap_cons, hcl]
        simp only
        rw [List.filterMap_append, filterMap_claimed_inner L1 ho1, hc2]
        simp [List.range'_succ]
      · have h := ((h1.trans h2).trans h3).trans h4
        have hm : s.cntr + 1 + m = s.cntr + (m + 1) := by omega
        simpa [List.append_assoc, hm] using h

theorem run_done_idle (e : ParallelContinueTask C) (t k : Nat) (s : State C)
    (h : s.pc t = Pc.done) : run e (List.replicate k t) s = s := by
  induction k with
  | zero => rfl
  | succ k ih => rw [List.replicate_succ, run_cons, task_idle e s t (Or.inr h), ih]

/-- On a pool of one thread only the actions of thread 0 count. -/
theorem run_single (e : ParallelContinueTask C) (hT : e.threadCount = 1) (sched : List Nat) :
    ∀ s : State C, run e sched s = run e (List.replicate (sched.count 0) 0) s := by
  induction sched with
  | nil => intro s; rfl
  | cons u sched ih =>
      intro s
      by_cases hu : u = 0
      · subst hu
        rw [List.count_cons_self, List.replicate_succ, run_cons, run_cons, ih]
      · rw [List.count_cons_of_ne (fun h => hu h.symm), run_cons,
          task_idle e s u (Or.inl (by omega)), ih]

/-- Two runs of one thread alone that both end with the worker returned end in
the same state. -/
theorem solo_final_unique (e : ParallelContinueTask C) (t a b : Nat) (s : State C)
    (ha : (run e (List.replicate a t) s).pc t = Pc.done)
    (hb : (run e (List.replicate b t) s).pc t = Pc.done) :
    run e (List.replicate a t) s = run e (List.replicate b t) s := by
  rcases Nat.le_total a b with h | h
  · obtain ⟨d, rfl⟩ := Nat.exists_eq_add_of_le h
    rw [List.replicate_add, run_append, run_done_idle e t d _ ha]
  · obtain ⟨d, rfl⟩ := Nat.exists_eq_add_of_le h
    rw [List.replicate_add, run_append, run_done_idle e t d _ hb]

theorem splitClaims_flatten (L : List (Call C)) :
    L.map Call.cont = (splitClaims L).1 ++ (splitClaims L).2.flatten := by
  induction L with
  | nil => rfl
  | cons ev L ih =>
      rw [splitClaims]
      cases h : ev.claimed with
      | none => simp only [List.map_cons, ih, List.cons_append]
      | some i => simp only [List.map_cons, ih, List.nil_append, List.flatten_cons,
          List.cons_append]

theorem ofCursor_zero (e : ParallelContinueTask C) : Index.ofCursor e 0 = 0 :=
  Nat.zero_mod _

/-- One thread alone runs the whole computation: it claims every seed in index
order, processes each completely before the next claim, fails its last claim
and its one steal scan, and returns. -/
theorem single_final (e : ParallelContinueTask C) (rank : C → Nat)
    (hrank : FiniteExpansion e rank) (hT : e.threadCount = 1) :
    ∃ (k : Nat) (L : List (Call C)),
      splitClaims L = ([], (seeds e).map (seedOrder e rank)) ∧
      L.filterMap Call.claimed = List.range e.taskCount ∧
      run e (List.replicate k 0) (State.init C) =
        ⟨e.taskCount + 1, fun _ => [], upd (fun _ => Pc.claim) 0 Pc.done, L⟩ := by
  have ht : 0 < e.threadCount := by omega
  have h0 : Index.ofCursor e (State.init C).cntr = 0 := ofCursor_zero e
  obtain ⟨L, hL, hcl, h1⟩ := claim_loop e rank hrank 0 ht e.taskCount (State.init C) rfl rfl
    (by rw [h0]; omega)
  rw [h0] at hL hcl
  have h1b : Arrives e 0 (State.init C)
      (⟨e.taskCount, fun _ => [], fun _ => Pc.claim, L⟩ : State C) := by
    simpa [State.init] using h1
  have h2 := Arrives.one e 0
    (⟨e.taskCount, fun _ => [], fun _ => Pc.claim, L⟩ : State C)
  rw [task_claim_fail e _ 0 ht rfl
    (by show e.taskCount ≤ Index.ofCursor e e.taskCount; rw [ofCursor_taskCount])] at h2
  have h3 := Arrives.one e 0
    (⟨e.taskCount + 1, fun _ => [], upd (fun _ => Pc.claim) 0 (Pc.steal 0), L⟩ : State C)
  rw [task_steal_miss e _ 0 0 ht (by simp [upd]) ht rfl] at h3
  have h4 := Arrives.one e 0
    (⟨e.taskCount + 1, fun _ => [], upd (fun _ => Pc.claim) 0 (Pc.steal (0 + 1)), L⟩ :
      State C)
  rw [task_steal_end e _ 0 (0 + 1) ht (by simp [upd]) (by omega)] at h4
  simp only [upd_upd] at h3 h4
  obtain ⟨k, hk⟩ := ((h1b.trans h2).trans h3).trans h4
  refine ⟨k, L, ?_, ?_, hk⟩
  · rw [hL]
    simp [seeds, List.range_eq_range']
  · rw [hcl, List.range_eq_range']

theorem noStealHit_move (e : ParallelContinueTask C) (hT : e.threadCount = 1)
    (s : State C) (t : Nat) (s' : State C) (ht : t < e.threadCount)
    (h : Drained s ∧ NoStealHit s) (hm : Move e s t s') : Drained s' ∧ NoStealHit s' := by
  refine ⟨drained_move e s t s' h.1 hm, ?_⟩
  intro ev i hev
  have hlog : ∀ (l : List (Call C)) (x : Call C), ev ∈ l ++ [x] →
      (∀ j, x.origin ≠ Origin.steal j) → (∀ a j, a ∈ l → a.origin ≠ Origin.steal j) →
      ev.origin ≠ Origin.steal i := by
    intro l x hmem hx hl
    rcases List.mem_append.1 hmem with hmem | hmem
    · exact hl ev i hmem
    · rw [List.mem_singleton] at hmem
      rw [hmem]
      exact hx i
  cases hm with
  | stealHit j c st hpc hj hst =>
      have ht0 : t = 0 := by omega
      have hj0 : j = 0 := by omega
      subst ht0 hj0
      have hemp := h.1 0 (by rw [hpc]; simp)
      rw [hT] at hst
      simp only [Nat.add_zero, Nat.zero_mod] at hst
      rw [hemp] at hst
      cases hst
  | claimSeed hpc hlt => exact hlog _ _ hev (by simp) h.2
  | drainHit c st hpc hst => exact hlog _ _ hev (by simp) h.2
  | recurse c cs fs hpc => exact hlog _ _ hev (by simp) h.2
  | selectFinal c cs fs hpc hf => exact hlog _ _ hev (by simp) h.2
  | selectFull c cs fs hpc hf hl => exact hlog _ _ hev (by simp) h.2
  | claimFail hpc hge => exact h.2 ev i hev
  | stealMiss j hpc hj hst => exact h.2 ev i hev
  | stealEnd j hpc hj => exact h.2 ev i hev
  | drainEnd hpc hst => exact h.2 ev i hev
  | ret em fs hpc => exact h.2 ev i hev
  | selectPush c cs fs hpc hf hl => exact h.2 ev i hev

theorem noStealHit_reach (e : ParallelContinueTask C) (hT : e.threadCount = 1)
    (sched : List Nat) : NoStealHit (parallel_continue e sched) :=
  (run_invariant e (fun s => Drained s ∧ NoStealHit s)
    (fun s t s' ht h hm => noStealHit_move e hT s t s' ht h hm) sched _
    ⟨drained_init, fun _ _ h => by simp [State.init] at h⟩).2

theorem selectSplit_perm (e : ParallelContinueTask C) (rank : C → Nat) (cs : List C) :
    ∀ h, ((selectSplit e rank h cs).1 ++
      (selectSplit e rank h cs).2.flatMap (expansion e rank)).Perm
        (cs.flatMap (expansion e rank)) := by
  induction cs with
  | nil => intro h; simp [selectSplit]
  | cons d ds ih =>
      intro h
      by_cases hc : e.final d = true ∨ SIZE_WORK_STACK ≤ h
      · rw [selectSplit_now e rank h d ds hc, List.flatMap_cons, List.append_assoc]
        exact List.Perm.append_left _ (ih h)
      · have hf : e.final d = false := by
          cases hfd : e.final d with
          | true => exact absurd (Or.inl hfd) hc
          | false => rfl
        rw [selectSplit_push e rank h d ds hf (by omega), List.flatMap_cons]
        simp only [List.flatMap_append, List.flatMap_cons, List.flatMap_nil, List.append_nil]
        rw [← List.append_assoc]
        exact List.perm_append_comm.trans (List.Perm.append_left _ (ih (h + 1)))

theorem drainList_perm (e : ParallelContinueTask C) (rank : C → Nat)
    (f : Nat → C → List C) (h : Nat) (items : List C)
    (hf : ∀ p, p ∈ items → ∀ k, (f k p).Perm (expansion e rank p)) :
    (drainList f h items).Perm (items.flatMap (expansion e rank)) := by
  induction items with
  | nil => exact List.Perm.refl _
  | cons p ps ih =>
      rw [drainList, List.flatMap_cons]
      exact List.Perm.append (hf p (List.mem_cons_self _ _) _)
        (ih (fun q hq => hf q (List.mem_cons_of_mem _ hq)))

/-- The processing sequence of a continuation is a rearrangement of its full
expansion. -/
theorem processOrder_perm (e : ParallelContinueTask C) (rank : C → Nat)
    (hrank : FiniteExpansion e rank) (n : Nat) :
    ∀ c, InExpansion e c → rank c ≤ n →
      ∀ h, (processOrder e rank n h c).Perm (expansion e rank c) := by
  induction n with
  | zero =>
      intro c hin hc h
      rw [expansion_unfold e rank hrank c hin, func_nil_of_rank_zero e rank hrank c hin hc]
      exact List.Perm.refl _
  | succ n ih =>
      intro c hin hc h
      rw [expansion_unfold e rank hrank c hin, processOrder]
      apply List.Perm.cons
      refine List.Perm.trans ?_ (selectSplit_perm e rank (e.func c) h)
      apply List.Perm.append_left
      apply drainList_perm
      intro p hp k
      have hp2 := selectSplit_snd_mem e rank _ _ p hp
      have := hrank c p hin hp2
      exact ih p (InExpansion.emit c p hin hp2) (by omega) k

theorem lineTask_rank (c d : Nat) (h : d ∈ lineTask.func c) : pairRank d < pairRank c := by
  simp only [lineTask, pairTask] at h
  unfold pairRank
  by_cases h0 : c = 0
  · subst h0
    simp at h
    rcases h with rfl | rfl <;> simp
  · by_cases h1 : c = 1
    · subst h1
      simp at h
      subst h
      simp
    · simp [h0, h1] at h

theorem threadSum_le {α : Type} (T : Nat) (g : α → Nat) (f : Nat → α)
    (h : ∀ a, g a ≤ 1) : threadSum T g f ≤ T := by
  unfold threadSum
  calc Finset.sum (Finset.range T) (fun t => g (f t))
      ≤ Finset.sum (Finset.range T) (fun _ => 1) := Finset.sum_le_sum (fun t _ => h (f t))
    _ = T := by simp

theorem claimCount_move (e : ParallelContinueTask C) (s : State C) (t : Nat) (s' : State C)
    (ht : t < e.threadCount) (h : ClaimCount e s) (hm : Move e s t s') : ClaimCount e s' := by
  unfold ClaimCount at h ⊢
  cases hm with
  | claimSeed hpc hlt =>
      have hp := threadSum_upd e.threadCount scanning s.pc t
        (Pc.call [⟨Emitter.select, e.func (e.continuations (Index.ofCursor e s.cntr))⟩]) ht
      rw [hpc] at hp
      simp only [scanning] at hp
      simp only [List.filter_append, List.length_append]
      simp [Call.fromClaim]
      omega
  | claimFail hpc hge =>
      have hp := threadSum_upd e.threadCount scanning s.pc t (Pc.steal 0) ht
      rw [hpc] at hp
      simp only [scanning] at hp
      simp only
      omega
  | stealHit i c st hpc hi hst =>
      have hp := threadSum_upd e.threadCount scanning s.pc t
        (Pc.call [⟨Emitter.select, e.func c⟩]) ht
      rw [hpc] at hp
      simp only [scanning] at hp
      simp only [List.filter_append, List.length_append]
      simp [Call.fromClaim]
      omega
  | stealMiss i hpc hi hst =>
      have hp := threadSum_upd e.threadCount scanning s.pc t (Pc.steal (i + 1)) ht
      rw [hpc] at hp
      simp only [scanning] at hp
      simp only
      omega
  | stealEnd i hpc hi =>
      have hp := threadSum_upd e.threadCount scanning s.pc t Pc.done ht
      rw [hpc] at hp
      simp only [scanning] at hp
      simp only
      omega
  | drainHit c st hpc hst =>
      have hp := threadSum_upd e.threadCount scanning s.pc t
        (Pc.call [⟨Emitter.select, e.func c⟩]) ht
      rw [hpc] at hp
      simp only [scanning] at hp
      simp only [List.filter_append, List.length_append]
      simp [Call.fromClaim]
      omega
  | drainEnd hpc hst =>
      have hp := threadSum_upd e.threadCount scanning s.pc t Pc.claim ht
      rw [hpc] at hp
      simp only [scanning] at hp
      simp only
      omega
  | ret em fs hpc =>
      have hp := threadSum_upd e.threadCount scanning s.pc t (Pc.call fs) ht
      rw [hpc] at hp
      simp only [scanning] at hp
      simp only
      omega
  | recurse c cs fs hpc =>
      have hp := threadSum_upd e.threadCount scanning s.pc t
        (Pc.call (⟨Emitter.recurse, e.func c⟩ :: ⟨Emitter.recurse, cs⟩ :: fs)) ht
      rw [hpc] at hp
      simp only [scanning] at hp
      simp only [List.filter_append, List.length_append]
      simp [Call.fromClaim]
      omega
  | selectFinal c cs fs hpc hf =>
      have hp := threadSum_upd e.threadCount scanning s.pc t
        (Pc.call (⟨Emitter.recurse, e.func c⟩ :: ⟨Emitter.select, cs⟩ :: fs)) ht
      rw [hpc] at hp
      simp only [scanning] at hp
      simp only [List.filter_append, List.length_append]
      simp [Call.fromClaim]
      omega
  | selectPush c cs fs hpc hf hl =>
      have hp := threadSum_upd e.threadCount scanning s.pc t
        (Pc.call (⟨Emitter.select, cs⟩ :: fs)) ht
      rw [hpc] at hp
      simp only [scanning] at hp
      simp only
      omega
  | selectFull c cs fs hpc hf hl =>
      have hp := threadSum_upd e.threadCount scanning s.pc t
        (Pc.call (⟨Emitter.recurse, e.func c⟩ :: ⟨Emitter.select, cs⟩ :: fs)) ht
      rw [hpc] at hp
      simp only [scanning] at hp
      simp only [List.filter_append, List.length_append]
      simp [Call.fromClaim]
      omega

/-- An action of a worker never adds to the stack of another thread: only the
owner pushes. -/
theorem stack_other_le (e : ParallelContinueTask C) (s : State C) (t u : Nat) (h : u ≠ t) :
    ((task e s t).threadStack u).length ≤ (s.threadStack u).length := by
  by_cases ha : t < e.threadCount ∧ s.pc t ≠ Pc.done
  · have hm := task_move e s t ha.1 ha.2
    generalize task e s t = s' at hm
    cases hm with
    | stealHit i c st hpc hi hst =>
        simp only [upd]
        split
        · next hv => rw [hv, hst]; simp
        · exact le_refl _
    | drainHit c st hpc hst => simp only [upd_other _ _ _ _ h]; exact le_refl _
    | selectPush c cs fs hpc hf hl => simp only [upd_other _ _ _ _ h]; exact le_refl _
    | claimSeed hpc hlt => exact le_refl _
    | claimFail hpc hge => exact le_refl _
    | stealMiss i hpc hi hst => exact le_refl _
    | stealEnd i hpc hi => exact le_refl _
    | drainEnd hpc hst => exact le_refl _
    | ret em fs hpc => exact le_refl _
    | recurse c cs fs hpc => exact le_refl _
    | selectFinal c cs fs hpc hf => exact le_refl _
    | selectFull c cs fs hpc hf hl => exact le_refl _
  · rw [task_idle e s t (by tauto)]

/-- The drain loop is left, for the next claim, exactly when its pop fails. -/
theorem drain_exit (e : ParallelContinueTask C) (s : State C) (t : Nat)
    (ht : t < e.threadCount) (hpc : s.pc t = Pc.call []) :
    (task e s t).pc t = Pc.claim ↔ s.threadStack t = [] := by
  cases hst : s.threadStack t with
  | nil =>
      rw [task_drain_end e s t ht hpc hst]
      simp [upd_same]
  | cons c st =>
      rw [task_drain_hit e s t c st ht hpc hst]
      simp [upd_same]

theorem mod_lt_threads (e : ParallelContinueTask C) (t i : Nat) (ht : t < e.threadCount) :
    (t + i) % e.threadCount < e.threadCount :=
  Nat.mod_lt _ (by omega)

theorem run_replicate_add (e : ParallelContinueTask C) (t a b : Nat) (s : State C) :
    run e (List.replicate (a + b) t) s =
      run e (List.replicate b t) (run e (List.replicate a t) s) := by
  rw [List.replicate_add, run_append]

/-- A worker in its scan that finds all stacks of the pool empty returns after T
failed pops. -/
theorem scan_all_miss (e : ParallelContinueTask C) (s : State C) (t : Nat)
    (ht : t < e.threadCount) (hpc : s.pc t = Pc.steal 0)
    (hemp : ∀ j, j < e.threadCount → s.threadStack j = []) :
    run e (List.replicate (e.threadCount + 1) t) s =
      ⟨s.cntr, s.threadStack, upd s.pc t Pc.done, s.log⟩ := by
  rw [run_replicate_succ, scan_misses e t ht e.threadCount s 0 hpc (by omega)
    (fun j _ _ => hemp _ (mod_lt_threads e t j ht))]
  rw [task_steal_end e _ t (0 + e.threadCount) ht (upd_same _ _ _) (by omega)]
  simp only [upd_upd]

/-- A worker whose claim returns an index that is not below N while all stacks of
the pool are empty fails its scan and returns. -/
theorem fail_and_return (e : ParallelContinueTask C) (s : State C) (t : Nat)
    (ht : t < e.threadCount) (hpc : s.pc t = Pc.claim)
    (hge : e.taskCount ≤ Index.ofCursor e s.cntr)
    (hemp : ∀ j, j < e.threadCount → s.threadStack j = []) :
    run e (List.replicate (1 + (e.threadCount + 1)) t) s =
      ⟨s.cntr + 1, s.threadStack, upd s.pc t Pc.done, s.log⟩ := by
  rw [run_replicate_add]
  have h1 : run e (List.replicate 1 t) s = task e s t := rfl
  rw [h1, task_claim_fail e s t ht hpc hge]
  rw [scan_all_miss e ⟨s.cntr + 1, s.threadStack, upd s.pc t (Pc.steal 0), s.log⟩ t ht
    (upd_same _ _ _) hemp]
  simp only [upd_upd]

/-- The claim and the processing of a seed that emits nothing: three actions of
the worker (claim, return of func, failed pop of the drain loop). -/
theorem claim_leaf (e : ParallelContinueTask C) (s : State C) (t : Nat)
    (ht : t < e.threadCount) (hpc : s.pc t = Pc.claim) (hst : s.threadStack t = [])
    (hlt : Index.ofCursor e s.cntr < e.taskCount)
    (hf : e.func (e.continuations (Index.ofCursor e s.cntr)) = []) :
    run e (List.replicate 3 t) s =
      ⟨s.cntr + 1, s.threadStack, s.pc,
        s.log ++ [⟨t, Origin.seed (Index.ofCursor e s.cntr),
          e.continuations (Index.ofCursor e s.cntr)⟩]⟩ := by
  have h3 : List.replicate 3 t = [t, t, t] := rfl
  rw [h3, run_cons, run_cons, run_cons, run_nil, task_claim_seed e s t ht hpc hlt, hf]
  rw [task_ret e
    ⟨s.cntr + 1, s.threadStack, upd s.pc t (Pc.call [⟨Emitter.select, []⟩]),
      s.log ++ [Call.mk t (Origin.seed (Index.ofCursor e s.cntr))
        (e.continuations (Index.ofCursor e s.cntr))]⟩
    t Emitter.select [] ht (upd_same _ _ _)]
  rw [task_drain_end e
    ⟨s.cntr + 1, s.threadStack,
      upd (upd s.pc t (Pc.call [⟨Emitter.select, []⟩])) t (Pc.call []),
      s.log ++ [Call.mk t (Origin.seed (Index.ofCursor e s.cntr))
        (e.continuations (Index.ofCursor e s.cntr))]⟩
    t ht (upd_same _ _ _) hst]
  simp only [upd_upd, upd_eq_self _ _ _ hpc]

/-- The claims of a worker stepping alone while the seeds emit nothing and the
converted cursor stays below N: m seeds are claimed, three actions each. -/
theorem claim_leaves (e : ParallelContinueTask C) (t : Nat) (ht : t < e.threadCount)
    (hf : ∀ i, i < e.taskCount → e.func (e.continuations i) = []) (m : Nat) :
    ∀ (s : State C), s.pc t = Pc.claim → s.threadStack t = [] →
      Index.ofCursor e s.cntr + m ≤ e.taskCount →
      run e (List.replicate (3 * m) t) s =
        ⟨s.cntr + m, s.threadStack, s.pc,
          s.log ++ (List.range' (Index.ofCursor e s.cntr) m).map
            (fun i => ⟨t, Origin.seed i, e.continuations i⟩)⟩ := by
  induction m with
  | zero =>
      intro s _ _ _
      simp [run_nil]
  | succ m ih =>
      intro s hpc hst hm
      have hfit := e.fits
      have hlt : Index.ofCursor e s.cntr < e.taskCount := by omega
      have hsucc : Index.ofCursor e (s.cntr + 1) = Index.ofCursor e s.cntr + 1 :=
        ofCursor_succ e s.cntr (by omega)
      have h3 : 3 * (m + 1) = 3 + 3 * m := by omega
      rw [h3, run_replicate_add, claim_leaf e s t ht hpc hst hlt (hf _ hlt)]
      rw [ih ⟨s.cntr + 1, s.threadStack, s.pc,
        s.log ++ [Call.mk t (Origin.seed (Index.ofCursor e s.cntr))
          (e.continuations (Index.ofCursor e s.cntr))]⟩ hpc hst
        (by show Index.ofCursor e (s.cntr + 1) + m ≤ e.taskCount; omega)]
      have hc : s.cntr + 1 + m = s.cntr + (m + 1) := by omega
      simp only [hsucc, hc, List.range'_succ, List.map_cons, List.append_assoc,
        List.singleton_append]

/-- A worker that is back from processing a seed, with all stacks of the pool
empty and m seeds left before the converted cursor reaches N: it claims the m
seeds, fails its next claim and its scan, and returns. -/
theorem finish_leaves (e : ParallelContinueTask C) (t : Nat) (ht : t < e.threadCount)
    (hf : ∀ i, i < e.taskCount → e.func (e.continuations i) = []) (m : Nat)
    (s : State C) (hpc : s.pc t = Pc.call [⟨Emitter.select, []⟩])
    (hemp : ∀ j, j < e.threadCount → s.threadStack j = [])
    (hm : Index.ofCursor e s.cntr + m = e.taskCount) :
    run e (List.replicate 2 t ++ (List.replicate (3 * m) t ++
        List.replicate (1 + (e.threadCount + 1)) t)) s =
      ⟨s.cntr + m + 1, s.threadStack, upd s.pc t Pc.done,
        s.log ++ (List.range' (Index.ofCursor e s.cntr) m).map
          (fun i => ⟨t, Origin.seed i, e.continuations i⟩)⟩ := by
  have h2 : run e (List.replicate 2 t) s = task e (task e s t) t := rfl
  rw [run_append, run_append, h2, task_ret e s t Emitter.select [] ht hpc]
  rw [task_drain_end e ⟨s.cntr, s.threadStack, upd s.pc t (Pc.call []), s.log⟩ t ht
    (upd_same _ _ _) (hemp t ht)]
  rw [claim_leaves e t ht hf m
    ⟨s.cntr, s.threadStack, upd (upd s.pc t (Pc.call [])) t Pc.claim, s.log⟩
    (upd_same _ _ _) (hemp t ht) (by show Index.ofCursor e s.cntr + m ≤ e.taskCount; omega)]
  have hfit := e.fits
  have hidx : Index.ofCursor e (s.cntr + m) = e.taskCount := by
    clear h2
    induction m generalizing s with
    | zero => simpa using hm
    | succ m ih =>
        have h1 : Index.ofCursor e (s.cntr + 1) = Index.ofCursor e s.cntr + 1 :=
          ofCursor_succ e s.cntr (by omega)
        have := ih ⟨s.cntr + 1, s.threadStack, s.pc, s.log⟩ hpc hemp
          (by show Index.ofCursor e (s.cntr + 1) + m = e.taskCount; omega)
        have hc : s.cntr + (m + 1) = s.cntr + 1 + m := by omega
        rw [hc]
        exact this
  rw [fail_and_return e
    ⟨s.cntr + m, s.threadStack, upd (upd s.pc t (Pc.call [])) t Pc.claim,
      s.log ++ (List.range' (Index.ofCursor e s.cntr) m).map
        (fun i => Call.mk t (Origin.seed i) (e.continuations i))⟩ t ht
    (upd_same _ _ _) (by show e.taskCount ≤ Index.ofCursor e (s.cntr + m); omega) hemp]
  simp only [upd_upd]

theorem seedClaims_map (t : Nat) (f : Nat → C) (l : List Nat) :
    (l.map (fun i => (⟨t, Origin.seed i, f i⟩ : Call C))).filterMap Call.claimed = l := by
  induction l with
  | nil => rfl
  | cons i l ih =>
      rw [List.map_cons, List.filterMap_cons]
      simp only [Call.claimed]
      rw [ih]

/-- No seed of the 8 bit instantiation emits anything. -/
theorem byteTask_leaf (i : Nat) (_ : i < byteTask.taskCount) :
    byteTask.func (byteTask.continuations i) = [] := rfl

/-- On the 8 bit instantiation thread 0 alone claims the 255 seeds; its next
claim reads cursor 255, which is index 255 and fails; the claim of thread 1
reads cursor 256, which converts to index 0, and seed 0 is passed to func a
second time. -/
theorem wrap_state :
    parallel_continue byteTask wrapSchedule =
      ⟨257, fun _ => [],
        upd (upd (fun _ => Pc.claim) 0 (Pc.steal 0)) 1 (Pc.call [⟨Emitter.select, []⟩]),
        (List.range' 0 255).map (fun i => ⟨0, Origin.seed i, i⟩) ++
          [⟨1, Origin.seed 0, 0⟩]⟩ := by
  unfold parallel_continue wrapSchedule
  have h766 : (766 : Nat) = 3 * 255 + 1 := rfl
  rw [run_append, h766, run_replicate_add]
  rw [claim_leaves byteTask 0 (by decide) byteTask_leaf 255 (State.init Nat) rfl rfl
    (by decide)]
  have h1 : ∀ s : State Nat, run byteTask (List.replicate 1 0) s = task byteTask s 0 :=
    fun _ => rfl
  have h2 : ∀ s : State Nat, run byteTask [1] s = task byteTask s 1 := fun _ => rfl
  rw [h1, h2]
  rw [task_claim_fail byteTask _ 0 (by decide) rfl (by decide)]
  rw [task_claim_seed byteTask _ 1 (by decide) (by simp [upd, State.init]) (by decide)]
  rfl

/-- After the wrap thread 1 claims the seeds 1, ..., 254 once more, and both
workers return: every seed has been passed to func twice. -/
theorem wrap_return_state :
    parallel_continue byteTask wrapToReturn =
      ⟨512, fun _ => [], upd (upd (fun _ => Pc.claim) 0 Pc.done) 1 Pc.done,
        (List.range' 0 255).map (fun i => ⟨0, Origin.seed i, i⟩) ++
          ([⟨1, Origin.seed 0, 0⟩] ++
            (List.range' 1 254).map (fun i => ⟨1, Origin.seed i, i⟩))⟩ := by
  have hw : run byteTask wrapSchedule (State.init Nat) =
      parallel_continue byteTask wrapSchedule := rfl
  unfold parallel_continue wrapToReturn
  have hsplit : List.replicate 768 1 =
      List.replicate 2 1 ++ (List.replicate (3 * 254) 1 ++
        List.replicate (1 + (byteTask.threadCount + 1)) 1) := by
    rw [← List.replicate_add, ← List.replicate_add]
    rfl
  have h3 : List.replicate 3 0 = List.replicate (byteTask.threadCount + 1) 0 := rfl
  rw [run_append, run_append, hw, wrap_state, hsplit, h3]
  rw [finish_leaves byteTask 1 (by decide) byteTask_leaf 254]
  · rw [scan_all_miss byteTask]
    · have hpc : upd (upd (upd (upd (fun _ => (Pc.claim : Pc Nat)) 0 (Pc.steal 0)) 1
          (Pc.call [⟨Emitter.select, []⟩])) 1 Pc.done) 0 Pc.done =
          upd (upd (fun _ => (Pc.claim : Pc Nat)) 0 Pc.done) 1 Pc.done := by
        funext j
        simp only [upd]
        by_cases h0 : j = 0
        · subst h0; simp
        · by_cases h1 : j = 1
          · subst h1; simp
          · simp [h0, h1]
      simp only [hpc, List.append_assoc]
      rfl
    · decide
    · rfl
    · intro _ _; rfl
  · rfl
  · intro _ _; rfl
  · decide

/-- The claim of a seed for which func emits one continuation that is not final,
with room on the stack of the worker: two actions, the claim and the push. -/
theorem claim_push (e : ParallelContinueTask C) (s : State C) (t : Nat)
    (ht : t < e.threadCount) (hpc : s.pc t = Pc.claim) (hst : s.threadStack t = [])
    (hlt : Index.ofCursor e s.cntr < e.taskCount) (d : C)
    (hf : e.func (e.continuations (Index.ofCursor e s.cntr)) = [d])
    (hnf : e.final d = false) :
    run e (List.replicate 2 t) s =
      ⟨s.cntr + 1, upd s.threadStack t [d], upd s.pc t (Pc.call [⟨Emitter.select, []⟩]),
        s.log ++ [⟨t, Origin.seed (Index.ofCursor e s.cntr),
          e.continuations (Index.ofCursor e s.cntr)⟩]⟩ := by
  have h2 : List.replicate 2 t = [t, t] := rfl
  rw [h2, run_cons, run_cons, run_nil, task_claim_seed e s t ht hpc hlt, hf]
  rw [task_select_push e
    ⟨s.cntr + 1, s.threadStack, upd s.pc t (Pc.call [⟨Emitter.select, [d]⟩]),
      s.log ++ [Call.mk t (Origin.seed (Index.ofCursor e s.cntr))
        (e.continuations (Index.ofCursor e s.cntr))]⟩
    t d [] [] ht (upd_same _ _ _) hnf
    (by show (s.threadStack t).length < SIZE_WORK_STACK; rw [hst]; exact Nat.zero_lt_succ _)]
  simp only [upd_upd, hst]

/-- A worker back from func with nothing left on its stack: two actions, the
return of func and the failed pop of the drain loop, take it to its next claim. -/
theorem ret_drain_end (e : ParallelContinueTask C) (s : State C) (t : Nat)
    (ht : t < e.threadCount) (hpc : s.pc t = Pc.call [⟨Emitter.select, []⟩])
    (hst : s.threadStack t = []) :
    run e (List.replicate 2 t) s =
      ⟨s.cntr, s.threadStack, upd s.pc t Pc.claim, s.log⟩ := by
  have h2 : List.replicate 2 t = [t, t] := rfl
  rw [h2, run_cons, run_cons, run_nil, task_ret e s t Emitter.select [] ht hpc]
  rw [task_drain_end e ⟨s.cntr, s.threadStack, upd s.pc t (Pc.call []), s.log⟩ t ht
    (upd_same _ _ _) hst]
  simp only [upd_upd]

/-- A worker back from func whose stack holds one continuation that emits
nothing: four actions (return of func, pop, return of func, failed pop) take it
to its next claim, with the continuation passed to func. -/
theorem ret_drain_leaf (e : ParallelContinueTask C) (s : State C) (t : Nat)
    (ht : t < e.threadCount) (hpc : s.pc t = Pc.call [⟨Emitter.select, []⟩]) (d : C)
    (hst : s.threadStack t = [d]) (hd : e.func d = []) :
    run e (List.replicate 4 t) s =
      ⟨s.cntr, upd s.threadStack t [], upd s.pc t Pc.claim,
        s.log ++ [⟨t, Origin.drain, d⟩]⟩ := by
  have h4 : (4 : Nat) = 2 + 2 := rfl
  have hin : run e (List.replicate 2 t) s =
      ⟨s.cntr, upd s.threadStack t [], upd (upd s.pc t (Pc.call [])) t
        (Pc.call [⟨Emitter.select, []⟩]), s.log ++ [Call.mk t Origin.drain d]⟩ := by
    have h2 : List.replicate 2 t = [t, t] := rfl
    rw [h2, run_cons, run_cons, run_nil, task_ret e s t Emitter.select [] ht hpc]
    rw [task_drain_hit e ⟨s.cntr, s.threadStack, upd s.pc t (Pc.call []), s.log⟩ t d [] ht
      (upd_same _ _ _) hst, hd]
  rw [h4, run_replicate_add, hin]
  rw [ret_drain_end e
    ⟨s.cntr, upd s.threadStack t [], upd (upd s.pc t (Pc.call [])) t
      (Pc.call [⟨Emitter.select, []⟩]), s.log ++ [Call.mk t Origin.drain d]⟩ t ht
    (upd_same _ _ _) (upd_same _ _ _)]
  simp only [upd_upd]

/-- The claim and the processing of a seed for which func emits one continuation
that is not final and emits nothing: six actions of the worker. -/
theorem claim_twig (e : ParallelContinueTask C) (s : State C) (t : Nat)
    (ht : t < e.threadCount) (hpc : s.pc t = Pc.claim) (hst : s.threadStack t = [])
    (hlt : Index.ofCursor e s.cntr < e.taskCount) (d : C)
    (hf : e.func (e.continuations (Index.ofCursor e s.cntr)) = [d])
    (hnf : e.final d = false) (hd : e.func d = []) :
    run e (List.replicate 6 t) s =
      ⟨s.cntr + 1, s.threadStack, s.pc,
        s.log ++ [⟨t, Origin.seed (Index.ofCursor e s.cntr),
          e.continuations (Index.ofCursor e s.cntr)⟩, ⟨t, Origin.drain, d⟩]⟩ := by
  have h6 : (6 : Nat) = 2 + 4 := rfl
  rw [h6, run_replicate_add, claim_push e s t ht hpc hst hlt d hf hnf]
  rw [ret_drain_leaf e
    ⟨s.cntr + 1, upd s.threadStack t [d], upd s.pc t (Pc.call [⟨Emitter.select, []⟩]),
      s.log ++ [Call.mk t (Origin.seed (Index.ofCursor e s.cntr))
        (e.continuations (Index.ofCursor e s.cntr))]⟩ t ht (upd_same _ _ _) d
    (upd_same _ _ _) hd]
  simp only [upd_upd, upd_eq_self _ _ _ hpc, upd_eq_self _ _ _ hst, List.append_assoc,
    List.singleton_append]

/-- The claims of a worker stepping alone while every seed emits one leaf and the
converted cursor stays below N: m seeds are claimed and processed with their
leaves, six actions each. -/
theorem claim_twigs (e : ParallelContinueTask C) (t : Nat) (ht : t < e.threadCount)
    (leaf : Nat → C)
    (hf : ∀ i, i < e.taskCount → e.func (e.continuations i) = [leaf i] ∧
      e.final (leaf i) = false ∧ e.func (leaf i) = []) (m : Nat) :
    ∀ (s : State C), s.pc t = Pc.claim → s.threadStack t = [] →
      Index.ofCursor e s.cntr + m ≤ e.taskCount →
      run e (List.replicate (6 * m) t) s =
        ⟨s.cntr + m, s.threadStack, s.pc,
          s.log ++ (List.range' (Index.ofCursor e s.cntr) m).flatMap
            (fun i => [⟨t, Origin.seed i, e.continuations i⟩,
              ⟨t, Origin.drain, leaf i⟩])⟩ := by
  induction m with
  | zero =>
      intro s _ _ _
      simp [run_nil]
  | succ m ih =>
      intro s hpc hst hm
      have hfit := e.fits
      have hlt : Index.ofCursor e s.cntr < e.taskCount := by omega
      have hsucc : Index.ofCursor e (s.cntr + 1) = Index.ofCursor e s.cntr + 1 :=
        ofCursor_succ e s.cntr (by omega)
      have h6 : 6 * (m + 1) = 6 + 6 * m := by omega
      obtain ⟨h1, h2, h3⟩ := hf _ hlt
      rw [h6, run_replicate_add, claim_twig e s t ht hpc hst hlt _ h1 h2 h3]
      rw [ih ⟨s.cntr + 1, s.threadStack, s.pc,
        s.log ++ [Call.mk t (Origin.seed (Index.ofCursor e s.cntr))
          (e.continuations (Index.ofCursor e s.cntr)),
          Call.mk t Origin.drain (leaf (Index.ofCursor e s.cntr))]⟩ hpc hst
        (by show Index.ofCursor e (s.cntr + 1) + m ≤ e.taskCount; omega)]
      have hc : s.cntr + 1 + m = s.cntr + (m + 1) := by omega
      simp only [hsucc, hc, List.range'_succ, List.flatMap_cons, List.append_assoc]

theorem byteLeaf_index (c k : Nat) (hc : Index.ofCursor byteLeafTask c = 0) (hk : k < 256) :
    Index.ofCursor byteLeafTask (c + k) = k := by
  have h : ∀ v, Index.ofCursor byteLeafTask v = v % 256 := fun _ => rfl
  rw [h] at hc ⊢
  omega

theorem byteLeaf_twig (i : Nat) (hi : i < byteLeafTask.taskCount) :
    byteLeafTask.func (byteLeafTask.continuations i) = [i + 255] ∧
      byteLeafTask.final (i + 255) = false ∧ byteLeafTask.func (i + 255) = [] := by
  have h : i < 255 := hi
  refine ⟨?_, rfl, ?_⟩
  · show (if i < 255 then [i + 255] else []) = [i + 255]
    rw [if_pos h]
  · show (if i + 255 < 255 then [i + 255 + 255] else []) = []
    rw [if_neg (by omega)]

/-- One round from a state in which both workers stand at their claim, all stacks
are empty and the cursor converts to index 0: after the 1533 actions both workers
stand at their claim again, all stacks are empty, and the cursor, 256 higher,
converts to index 0 again; func has been invoked 510 times. -/
theorem spin_round (c : Nat) (L : List (Call Nat))
    (hc : Index.ofCursor byteLeafTask c = 0) :
    run byteLeafTask spinRound ⟨c, fun _ => [], fun _ => Pc.claim, L⟩ =
      ⟨c + 256, fun _ => [], fun _ => Pc.claim, L ++ spinLog⟩ := by
  have h254 : Index.ofCursor byteLeafTask (c + 254) = 254 :=
    byteLeaf_index c 254 hc (by decide)
  have h255 : Index.ofCursor byteLeafTask (c + 254 + 1) = 255 :=
    byteLeaf_index c 255 hc (by decide)
  have e1 : run byteLeafTask (List.replicate (6 * 254) 0)
      ⟨c, fun _ => [], fun _ => Pc.claim, L⟩ =
      ⟨c + 254, fun _ => [], fun _ => Pc.claim,
        L ++ (List.range' 0 254).flatMap
          (fun i => [⟨0, Origin.seed i, i⟩, ⟨0, Origin.drain, i + 255⟩])⟩ := by
    rw [claim_twigs byteLeafTask 0 (by decide) (fun i => i + 255) byteLeaf_twig 254
      ⟨c, fun _ => [], fun _ => Pc.claim, L⟩ rfl rfl (by rw [hc]; decide)]
    simp only [hc]
    rfl
  have e2 : ∀ L1 : List (Call Nat), run byteLeafTask (List.replicate 2 0)
      ⟨c + 254, fun _ => [], fun _ => Pc.claim, L1⟩ =
      ⟨c + 254 + 1, upd (fun _ => []) 0 [509],
        upd (fun _ => Pc.claim) 0 (Pc.call [⟨Emitter.select, []⟩]),
        L1 ++ [⟨0, Origin.seed 254, 254⟩]⟩ := by
    intro L1
    rw [claim_push byteLeafTask ⟨c + 254, fun _ => [], fun _ => Pc.claim, L1⟩ 0 (by decide)
      rfl rfl (by rw [h254]; decide) 509 (by rw [h254]; rfl) rfl]
    simp only [h254]
    rfl
  have e3 : ∀ L2 : List (Call Nat), run byteLeafTask (List.replicate 5 1)
      ⟨c + 254 + 1, upd (fun _ => []) 0 [509],
        upd (fun _ => Pc.claim) 0 (Pc.call [⟨Emitter.select, []⟩]), L2⟩ =
      ⟨c + 254 + 1 + 1, fun _ => [],
        upd (fun _ => Pc.claim) 0 (Pc.call [⟨Emitter.select, []⟩]),
        L2 ++ [⟨1, Origin.steal 1, 509⟩]⟩ := by
    intro L2
    have h5 : List.replicate 5 1 = [1, 1, 1, 1, 1] := rfl
    rw [h5, run_cons, task_claim_fail byteLeafTask
      ⟨c + 254 + 1, upd (fun _ => []) 0 [509],
        upd (fun _ => Pc.claim) 0 (Pc.call [⟨Emitter.select, []⟩]), L2⟩ 1 (by decide) rfl
      (by rw [h255]; decide)]
    rw [run_cons, task_steal_miss byteLeafTask
      ⟨c + 254 + 1 + 1, upd (fun _ => []) 0 [509],
        upd (upd (fun _ => Pc.claim) 0 (Pc.call [⟨Emitter.select, []⟩])) 1 (Pc.steal 0),
        L2⟩ 1 0 (by decide) rfl (by decide) rfl]
    rw [run_cons, task_steal_hit byteLeafTask
      ⟨c + 254 + 1 + 1, upd (fun _ => []) 0 [509],
        upd (upd (upd (fun _ => Pc.claim) 0 (Pc.call [⟨Emitter.select, []⟩])) 1
          (Pc.steal 0)) 1 (Pc.steal (0 + 1)),
        L2⟩ 1 1 509 [] (by decide) rfl (by decide) rfl]
    rw [run_cons, task_ret byteLeafTask
      ⟨c + 254 + 1 + 1, upd (upd (fun _ => []) 0 [509]) ((1 + 1) % byteLeafTask.threadCount) [],
        upd (upd (upd (upd (fun _ => Pc.claim) 0 (Pc.call [⟨Emitter.select, []⟩])) 1
          (Pc.steal 0)) 1 (Pc.steal (0 + 1))) 1
          (Pc.call [⟨Emitter.select, byteLeafTask.func 509⟩]),
        L2 ++ [Call.mk 1 (Origin.steal 1) 509]⟩ 1 Emitter.select [] (by decide) rfl]
    rw [run_cons, task_drain_end byteLeafTask
      ⟨c + 254 + 1 + 1, upd (upd (fun _ => []) 0 [509]) ((1 + 1) % byteLeafTask.threadCount) [],
        upd (upd (upd (upd (upd (fun _ => Pc.claim) 0 (Pc.call [⟨Emitter.select, []⟩])) 1
          (Pc.steal 0)) 1 (Pc.steal (0 + 1))) 1
          (Pc.call [⟨Emitter.select, byteLeafTask.func 509⟩])) 1 (Pc.call []),
        L2 ++ [Call.mk 1 (Origin.steal 1) 509]⟩ 1 (by decide) rfl rfl, run_nil]
    have hst : upd (upd (fun _ => ([] : List Nat)) 0 [509])
        ((1 + 1) % byteLeafTask.threadCount) [] = fun _ => [] := by
      funext j
      show (if j = 0 then [] else if j = 0 then [509] else []) = []
      split <;> rfl
    simp only [upd_upd, hst]
    rw [upd_eq_self _ 1 Pc.claim rfl]
  have e4 : ∀ L3 : List (Call Nat), run byteLeafTask (List.replicate 2 0)
      ⟨c + 254 + 1 + 1, fun _ => [],
        upd (fun _ => Pc.claim) 0 (Pc.call [⟨Emitter.select, []⟩]), L3⟩ =
      ⟨c + 256, fun _ => [], fun _ => Pc.claim, L3⟩ := by
    intro L3
    rw [ret_drain_end byteLeafTask
      ⟨c + 254 + 1 + 1, fun _ => [],
        upd (fun _ => Pc.claim) 0 (Pc.call [⟨Emitter.select, []⟩]), L3⟩ 0 (by decide) rfl rfl]
    simp only [upd_upd]
    rw [upd_eq_self _ 0 Pc.claim rfl]
  unfold spinRound
  rw [run_append, run_append, run_replicate_add, e1, e2, e3, e4]
  simp only [spinLog, List.append_assoc, List.singleton_append]

/-- After n rounds both workers stand at their claim, all stacks are empty and
the cursor is 256 n. -/
theorem spin_state (n : Nat) :
    parallel_continue byteLeafTask (spin n) =
      ⟨256 * n, fun _ => [], fun _ => Pc.claim, spinLogs n⟩ := by
  induction n with
  | zero => rfl
  | succ n ih =>
      have h : parallel_continue byteLeafTask (spin (n + 1)) =
          run byteLeafTask spinRound (parallel_continue byteLeafTask (spin n)) := by
        unfold parallel_continue
        show run byteLeafTask (spin n ++ spinRound) _ = _
        rw [run_append]
      rw [h, ih, spin_round (256 * n) (spinLogs n)
        (by show 256 * n % 256 = 0; exact Nat.mul_mod_right 256 n)]
      have hc : 256 * n + 256 = 256 * (n + 1) := by omega
      rw [hc]
      rfl

theorem spinLog_length : spinLog.length = 510 := by
  unfold spinLog
  have h : ∀ (l : List Nat), (l.flatMap (fun i =>
      [(⟨0, Origin.seed i, i⟩ : Call Nat), ⟨0, Origin.drain, i + 255⟩])).length =
      2 * l.length := by
    intro l
    induction l with
    | nil => rfl
    | cons a l ih =>
        rw [List.flatMap_cons, List.length_append, ih, List.length_cons]
        simp only [List.length_cons, List.length_nil]
        omega
  rw [List.length_append, h, List.length_range']
  rfl

theorem spinLogs_length (n : Nat) : (spinLogs n).length = 510 * n := by
  induction n with
  | zero => rfl
  | succ n ih =>
      show (spinLogs n ++ spinLog).length = 510 * (n + 1)
      rw [List.length_append, ih, spinLog_length]
      omega

theorem spin_count (n : Nat) : (spin n).count 0 = 1528 * n ∧ (spin n).count 1 = 5 * n := by
  have h0 : spinRound.count 0 = 1528 := by
    unfold spinRound
    simp only [List.count_append, List.count_replicate]
    rfl
  have h1 : spinRound.count 1 = 5 := by
    unfold spinRound
    simp only [List.count_append, List.count_replicate]
    rfl
  induction n with
  | zero => exact ⟨rfl, rfl⟩
  | succ n ih =>
      constructor
      · show (spin n ++ spinRound).count 0 = 1528 * (n + 1)
        rw [List.count_append, ih.1, h0]
        omega
      · show (spin n ++ spinRound).count 1 = 5 * (n + 1)
        rw [List.count_append, ih.2, h1]
        omega

theorem byteLeaf_finite : FiniteExpansion byteLeafTask leafRank := by
  intro c d _ hd
  have hd2 : d ∈ (if c < 255 then [c + 255] else []) := hd
  by_cases hc : c < 255
  · rw [if_pos hc, List.mem_singleton] at hd2
    subst hd2
    unfold leafRank
    rw [if_pos hc, if_neg (by omega)]
    exact Nat.zero_lt_one
  · rw [if_neg hc] at hd2
    exact absurd hd2 (List.not_mem_nil d)

theorem byteLeaf_expansion :
    ((seeds byteLeafTask).flatMap (expansion byteLeafTask leafRank)).length = 510 := by
  have h : ∀ (l : List Nat), (∀ i, i ∈ l → i < 255) →
      ((l.map byteLeafTask.continuations).flatMap
        (expansion byteLeafTask leafRank)).length = 2 * l.length := by
    intro l
    induction l with
    | nil => intro _; rfl
    | cons a l ih =>
        intro hl
        have ha : a < 255 := hl a (List.mem_cons_self a l)
        have hexp : expansion byteLeafTask leafRank (byteLeafTask.continuations a) =
            [a, a + 255] := by
          show expandN byteLeafTask (leafRank a) a = [a, a + 255]
          unfold leafRank
          rw [if_pos ha]
          show a :: (byteLeafTask.func a).flatMap (expandN byteLeafTask 0) = [a, a + 255]
          have hf : byteLeafTask.func a = [a + 255] := (byteLeaf_twig a ha).1
          rw [hf]
          rfl
        rw [List.map_cons, List.flatMap_cons, List.length_append,
          ih (fun i hi => hl i (List.mem_cons_of_mem a hi)), hexp]
        simp only [List.length_cons, List.length_nil]
        omega
  show ((List.map byteLeafTask.continuations (List.range 255)).flatMap
    (expansion byteLeafTask leafRank)).length = 510
  rw [h _ (fun i hi => List.mem_range.1 hi), List.length_range]

theorem pcWeight_call_cons (W : C → Nat) (em : Emitter) (cs : List C) (fs : List (Frame C)) :
    pcWeight W (Pc.call (⟨em, cs⟩ :: fs)) = mass W cs + pcWeight W (Pc.call fs) := by
  simp [pcWeight, framesWeight]

theorem pcWeight_call_nil (W : C → Nat) : pcWeight W (Pc.call ([] : List (Frame C))) = 0 := rfl

theorem visited_append (s : State C) (l : List (Call C)) (c : Nat) (st : Nat → List C)
    (p : Nat → Pc C) (ev : Call C) (w : C → Nat) (h : l = s.log ++ [ev]) :
    mass w (visited (State.mk c st p l)) = mass w (visited s) + w ev.cont := by
  subst h
  simp [visited, mass]

theorem conserved_move (e : ParallelContinueTask C) (rank : C → Nat)
    (hrank : FiniteExpansion e rank) (w : C → Nat)
    (s : State C) (t : Nat) (s' : State C) (ht : t < e.threadCount) (hw : Within e s)
    (hnw : s.pc t = Pc.claim → s.cntr < 2 ^ e.indexBits)
    (h : Conserved e rank w s) (hm : Move e s t s') : Conserved e rank w s' := by
  unfold Conserved pending at h ⊢
  cases hm with
  | claimSeed hpc hlt =>
      rw [ofCursor_of_lt e s.cntr (hnw hpc)] at hlt ⊢
      have hp := threadSum_upd e.threadCount (pcWeight (treeWeight e rank w)) s.pc t
        (Pc.call [⟨Emitter.select, e.func (e.continuations s.cntr)⟩]) ht
      have hs := seedsPending_claim e (treeWeight e rank w) s.cntr hlt
      have hu := treeWeight_unfold e rank hrank w (e.continuations s.cntr)
        (InExpansion.seed s.cntr hlt)
      rw [visited_append s _ _ _ _ _ w rfl]
      rw [hpc, pcWeight_call_cons, pcWeight_call_nil] at hp
      simp only [pcWeight] at hp
      simp only
      omega
  | claimFail hpc hge0 =>
      have hge : e.taskCount ≤ s.cntr := le_trans hge0 (Nat.mod_le _ _)
      have hp := threadSum_upd e.threadCount (pcWeight (treeWeight e rank w)) s.pc t
        (Pc.steal 0) ht
      rw [hpc] at hp
      simp only [pcWeight] at hp
      have h1 := seedsPending_exhausted e (treeWeight e rank w) s.cntr hge
      have h2 := seedsPending_exhausted e (treeWeight e rank w) (s.cntr + 1) (by omega)
      simp only [visited] at h ⊢
      omega
  | stealHit i c st hpc hi hst =>
      have hp := threadSum_upd e.threadCount (pcWeight (treeWeight e rank w)) s.pc t
        (Pc.call [⟨Emitter.select, e.func c⟩]) ht
      have hs := threadSum_upd e.threadCount (mass (treeWeight e rank w)) s.threadStack
        ((t + i) % e.threadCount) st (mod_lt_threads e t i ht)
      have hu := treeWeight_unfold e rank hrank w c
        (hw.1 _ c (by rw [hst]; exact List.mem_cons_self _ _))
      rw [visited_append s _ _ _ _ _ w rfl]
      rw [hpc, pcWeight_call_cons, pcWeight_call_nil] at hp
      rw [hst, mass_cons] at hs
      simp only [pcWeight] at hp
      simp only
      omega
  | stealMiss i hpc hi hst =>
      have hp := threadSum_upd e.threadCount (pcWeight (treeWeight e rank w)) s.pc t
        (Pc.steal (i + 1)) ht
      rw [hpc] at hp
      simp only [pcWeight] at hp
      simp only [visited] at h ⊢
      omega
  | stealEnd i hpc hi =>
      have hp := threadSum_upd e.threadCount (pcWeight (treeWeight e rank w)) s.pc t
        Pc.done ht
      rw [hpc] at hp
      simp only [pcWeight] at hp
      simp only [visited] at h ⊢
      omega
  | drainHit c st hpc hst =>
      have hp := threadSum_upd e.threadCount (pcWeight (treeWeight e rank w)) s.pc t
        (Pc.call [⟨Emitter.select, e.func c⟩]) ht
      have hs := threadSum_upd e.threadCount (mass (treeWeight e rank w)) s.threadStack
        t st ht
      have hu := treeWeight_unfold e rank hrank w c
        (hw.1 _ c (by rw [hst]; exact List.mem_cons_self _ _))
      rw [visited_append s _ _ _ _ _ w rfl]
      rw [hpc, pcWeight_call_cons, pcWeight_call_nil] at hp
      rw [hst, mass_cons] at hs
      simp only
      omega
  | drainEnd hpc hst =>
      have hp := threadSum_upd e.threadCount (pcWeight (treeWeight e rank w)) s.pc t
        Pc.claim ht
      rw [hpc, pcWeight_call_nil] at hp
      simp only [pcWeight] at hp
      simp only [visited] at h ⊢
      omega
  | ret em fs hpc =>
      have hp := threadSum_upd e.threadCount (pcWeight (treeWeight e rank w)) s.pc t
        (Pc.call fs) ht
      rw [hpc, pcWeight_call_cons, mass_nil] at hp
      simp only [visited] at h ⊢
      omega
  | recurse c cs fs hpc =>
      have hp := threadSum_upd e.threadCount (pcWeight (treeWeight e rank w)) s.pc t
        (Pc.call (⟨Emitter.recurse, e.func c⟩ :: ⟨Emitter.recurse, cs⟩ :: fs)) ht
      have hu := treeWeight_unfold e rank hrank w c (within_frame e s t hw _ c cs fs hpc)
      rw [visited_append s _ _ _ _ _ w rfl]
      rw [hpc, pcWeight_call_cons, pcWeight_call_cons, pcWeight_call_cons, mass_cons] at hp
      simp only
      omega
  | selectFinal c cs fs hpc hf =>
      have hp := threadSum_upd e.threadCount (pcWeight (treeWeight e rank w)) s.pc t
        (Pc.call (⟨Emitter.recurse, e.func c⟩ :: ⟨Emitter.select, cs⟩ :: fs)) ht
      have hu := treeWeight_unfold e rank hrank w c (within_frame e s t hw _ c cs fs hpc)
      rw [visited_append s _ _ _ _ _ w rfl]
      rw [hpc, pcWeight_call_cons, pcWeight_call_cons, pcWeight_call_cons, mass_cons] at hp
      simp only
      omega
  | selectPush c cs fs hpc hf hl =>
      have hp := threadSum_upd e.threadCount (pcWeight (treeWeight e rank w)) s.pc t
        (Pc.call (⟨Emitter.select, cs⟩ :: fs)) ht
      have hs := threadSum_upd e.threadCount (mass (treeWeight e rank w)) s.threadStack
        t (c :: s.threadStack t) ht
      rw [hpc, pcWeight_call_cons, pcWeight_call_cons, mass_cons] at hp
      rw [mass_cons] at hs
      simp only [visited] at h ⊢
      omega
  | selectFull c cs fs hpc hf hl =>
      have hp := threadSum_upd e.threadCount (pcWeight (treeWeight e rank w)) s.pc t
        (Pc.call (⟨Emitter.recurse, e.func c⟩ :: ⟨Emitter.select, cs⟩ :: fs)) ht
      have hu := treeWeight_unfold e rank hrank w c (within_frame e s t hw _ c cs fs hpc)
      rw [visited_append s _ _ _ _ _ w rfl]
      rw [hpc, pcWeight_call_cons, pcWeight_call_cons, pcWeight_call_cons, mass_cons] at hp
      simp only
      omega

theorem conserved_init (e : ParallelContinueTask C) (rank : C → Nat) (w : C → Nat) :
    Conserved e rank w (State.init C) := by
  unfold Conserved pending State.init
  simp only [visited, List.map_nil, mass_nil, Nat.zero_add]
  rw [seedsPending_zero, threadSum_const_zero, threadSum_const_zero]
  · rfl
  · intro t _; rfl
  · intro t _; rfl

theorem cursorInv_log_other (e : ParallelContinueTask C) (s : State C) (t : Nat)
    (p : Pc C) (ev : Call C) (st : Nat → List C)
    (h : CursorInv e s) (hev : ∀ i, ev.origin ≠ Origin.seed i)
    (hp : (p = Pc.done ∨ ∃ i, p = Pc.steal i) → e.taskCount ≤ s.cntr) :
    CursorInv e (State.mk s.cntr st (upd s.pc t p) (s.log ++ [ev])) := by
  obtain ⟨h1, h2, h3⟩ := h
  refine ⟨?_, ?_, ?_⟩
  · rw [seedClaims_append]
    have : ev.claimed = none := by
      unfold Call.claimed
      split
      · next i hi => exact absurd hi (hev i)
      · rfl
    rw [this]
    simpa using h1
  · intro ev2 i hmem ho
    rcases List.mem_append.1 hmem with hmem | hmem
    · exact h2 ev2 i hmem ho
    · simp only [List.mem_singleton] at hmem
      subst hmem
      exact absurd ho (hev i)
  · intro u hu
    by_cases hut : u = t
    · subst hut
      simp only [upd_same] at hu
      exact hp hu
    · simp only [upd_other _ _ _ _ hut] at hu
      exact h3 u hu

theorem cursorInv_control (e : ParallelContinueTask C) (s : State C) (t : Nat)
    (p : Pc C) (st : Nat → List C)
    (h : CursorInv e s)
    (hp : (p = Pc.done ∨ ∃ i, p = Pc.steal i) → e.taskCount ≤ s.cntr) :
    CursorInv e (State.mk s.cntr st (upd s.pc t p) s.log) := by
  obtain ⟨h1, h2, h3⟩ := h
  refine ⟨h1, h2, ?_⟩
  intro u hu
  by_cases hut : u = t
  · subst hut
    simp only [upd_same] at hu
    exact hp hu
  · simp only [upd_other _ _ _ _ hut] at hu
    exact h3 u hu

theorem cursorInv_move (e : ParallelContinueTask C) (s : State C) (t : Nat) (s' : State C)
    (hnw : s.pc t = Pc.claim → s.cntr < 2 ^ e.indexBits)
    (h : CursorInv e s) (hm : Move e s t s') : CursorInv e s' := by
  cases hm with
  | claimSeed hpc hlt =>
      rw [ofCursor_of_lt e s.cntr (hnw hpc)] at hlt ⊢
      obtain ⟨h1, h2, h3⟩ := h
      refine ⟨?_, ?_, ?_⟩
      · rw [seedClaims_append, h1]
        simp only [Call.claimed]
        rw [Nat.min_eq_left (by omega), Nat.min_eq_left (by omega), List.range_succ]
      · intro ev2 i hmem ho
        rcases List.mem_append.1 hmem with hmem | hmem
        · exact h2 ev2 i hmem ho
        · simp only [List.mem_singleton] at hmem
          subst hmem
          simp only [Origin.seed.injEq] at ho
          subst ho
          rfl
      · intro u hu
        by_cases hut : u = t
        · subst hut
          simp [upd_same] at hu
        · simp only [upd_other _ _ _ _ hut] at hu
          have := h3 u hu
          simp only
          omega
  | claimFail hpc hge0 =>
      have hge : e.taskCount ≤ s.cntr := le_trans hge0 (Nat.mod_le _ _)
      obtain ⟨h1, h2, h3⟩ := h
      refine ⟨?_, h2, ?_⟩
      · simp only [seedClaims] at h1 ⊢
        rw [h1, Nat.min_eq_right hge, Nat.min_eq_right (by omega)]
      · intro u hu
        simp only
        omega
  | stealHit i c st hpc hi hst =>
      exact cursorInv_log_other e s t _ _ _ h (by simp) (by simp)
  | stealMiss i hpc hi hst =>
      exact cursorInv_control e s t _ _ h (fun _ => h.2.2 t (Or.inr ⟨i, hpc⟩))
  | stealEnd i hpc hi =>
      exact cursorInv_control e s t _ _ h (fun _ => h.2.2 t (Or.inr ⟨i, hpc⟩))
  | drainHit c st hpc hst =>
      exact cursorInv_log_other e s t _ _ _ h (by simp) (by simp)
  | drainEnd hpc hst =>
      exact cursorInv_control e s t _ _ h (by simp)
  | ret em fs hpc =>
      exact cursorInv_control e s t _ _ h (by simp)
  | recurse c cs fs hpc =>
      exact cursorInv_log_other e s t _ _ _ h (by simp) (by simp)
  | selectFinal c cs fs hpc hf =>
      exact cursorInv_log_other e s t _ _ _ h (by simp) (by simp)
  | selectPush c cs fs hpc hf hl =>
      exact cursorInv_control e s t _ _ h (by simp)
  | selectFull c cs fs hpc hf hl =>
      exact cursorInv_log_other e s t _ _ _ h (by simp) (by simp)

theorem cursorInv_init (e : ParallelContinueTask C) : CursorInv e (State.init C) := by
  refine ⟨?_, ?_, ?_⟩
  · simp [seedClaims, State.init]
  · intro ev i hmem; simp [State.init] at hmem
  · intro t ht; simp [State.init] at ht

theorem count_eq_mass [DecidableEq C] (x : C) (l : List C) :
    List.count x l = mass (fun c => if c = x then 1 else 0) l := by
  induction l with
  | nil => rfl
  | cons c l ih =>
      rw [List.count_cons, mass_cons, ih]
      by_cases h : c = x <;> simp [h]
      omega

/-- When all workers have returned nothing is pending. -/
theorem pending_returned (e : ParallelContinueTask C) (W : C → Nat) (s : State C)
    (hT : 0 < e.threadCount) (hd : Drained s) (hc : CursorInv e s) (hret : returned e s) :
    pending e W s = 0 := by
  unfold pending
  rw [seedsPending_exhausted e W s.cntr (hc.2.2 0 (Or.inl (hret 0 hT))),
    threadSum_const_zero, threadSum_const_zero]
  · intro t ht; rw [hret t ht]; rfl
  · intro t ht; rw [hd t (by rw [hret t ht]; simp)]; rfl

theorem mass_mul (k : Nat) (w : C → Nat) (l : List C) :
    mass (fun c => k * w c) l = k * mass w l := by
  induction l with
  | nil => rfl
  | cons c l ih => rw [mass_cons, mass_cons, ih, Nat.mul_add]

theorem size_unfold (e : ParallelContinueTask C) (rank : C → Nat)
    (hrank : FiniteExpansion e rank) (c : C) (hc : InExpansion e c) :
    size e rank c = 1 + mass (size e rank) (e.func c) :=
  treeWeight_unfold e rank hrank (fun _ => 1) c hc

theorem emitCost_unfold (e : ParallelContinueTask C) (rank : C → Nat)
    (hrank : FiniteExpansion e rank) (c : C) (hc : InExpansion e c) :
    emitCost e rank c = e.threadCount + 4 + mass (emitCost e rank) (e.func c) := by
  unfold emitCost
  rw [mass_mul, size_unfold e rank hrank c hc, Nat.mul_add, Nat.mul_one]

theorem stackCost_succ (e : ParallelContinueTask C) (rank : C → Nat)
    (hrank : FiniteExpansion e rank) (c : C) (hc : InExpansion e c) :
    stackCost e rank c + 1 = emitCost e rank c := by
  have := emitCost_unfold e rank hrank c hc
  unfold stackCost
  omega

theorem pcCost_call_cons (e : ParallelContinueTask C) (rank : C → Nat) (em : Emitter)
    (cs : List C) (fs : List (Frame C)) :
    pcCost e rank (Pc.call (⟨em, cs⟩ :: fs)) =
      1 + mass (emitCost e rank) cs + pcCost e rank (Pc.call fs) := by
  simp only [pcCost, List.map_cons, List.sum_cons]
  omega

theorem pcCost_call_nil (e : ParallelContinueTask C) (rank : C → Nat) :
    pcCost e rank (Pc.call []) = e.threadCount + 3 := rfl

/-- Every action of a worker that does not read a cursor beyond the range of
`Index` lowers the cost of the state. -/
theorem cost_move (e : ParallelContinueTask C) (rank : C → Nat)
    (hrank : FiniteExpansion e rank)
    (s : State C) (t : Nat) (s' : State C) (ht : t < e.threadCount) (hw : Within e s)
    (hnw : s.pc t = Pc.claim → s.cntr < 2 ^ e.indexBits)
    (hm : Move e s t s') : cost e rank s' < cost e rank s := by
  unfold cost
  cases hm with
  | claimSeed hpc hlt =>
      rw [ofCursor_of_lt e s.cntr (hnw hpc)] at hlt ⊢
      have hp := threadSum_upd e.threadCount (pcCost e rank) s.pc t
        (Pc.call [⟨Emitter.select, e.func (e.continuations s.cntr)⟩]) ht
      have hs := seedsPending_claim e (emitCost e rank) s.cntr hlt
      have hu := emitCost_unfold e rank hrank (e.continuations s.cntr)
        (InExpansion.seed s.cntr hlt)
      rw [hpc, pcCost_call_cons, pcCost_call_nil] at hp
      simp only [pcCost] at hp
      simp only
      omega
  | claimFail hpc hge0 =>
      have hge : e.taskCount ≤ s.cntr := le_trans hge0 (Nat.mod_le _ _)
      have hp := threadSum_upd e.threadCount (pcCost e rank) s.pc t (Pc.steal 0) ht
      rw [hpc] at hp
      simp only [pcCost] at hp
      have h1 := seedsPending_exhausted e (emitCost e rank) s.cntr hge
      have h2 := seedsPending_exhausted e (emitCost e rank) (s.cntr + 1) (by omega)
      simp only
      omega
  | stealHit i c st hpc hi hst =>
      have hp := threadSum_upd e.threadCount (pcCost e rank) s.pc t
        (Pc.call [⟨Emitter.select, e.func c⟩]) ht
      have hs := threadSum_upd e.threadCount (mass (stackCost e rank)) s.threadStack
        ((t + i) % e.threadCount) st (mod_lt_threads e t i ht)
      have hin : InExpansion e c := hw.1 _ c (by rw [hst]; exact List.mem_cons_self _ _)
      have hu := emitCost_unfold e rank hrank c hin
      have hc := stackCost_succ e rank hrank c hin
      rw [hpc, pcCost_call_cons, pcCost_call_nil] at hp
      rw [hst, mass_cons] at hs
      simp only [pcCost] at hp
      simp only
      omega
  | stealMiss i hpc hi hst =>
      have hp := threadSum_upd e.threadCount (pcCost e rank) s.pc t (Pc.steal (i + 1)) ht
      rw [hpc] at hp
      simp only [pcCost] at hp
      simp only
      omega
  | stealEnd i hpc hi =>
      have hp := threadSum_upd e.threadCount (pcCost e rank) s.pc t Pc.done ht
      rw [hpc] at hp
      simp only [pcCost] at hp
      simp only
      omega
  | drainHit c st hpc hst =>
      have hp := threadSum_upd e.threadCount (pcCost e rank) s.pc t
        (Pc.call [⟨Emitter.select, e.func c⟩]) ht
      have hs := threadSum_upd e.threadCount (mass (stackCost e rank)) s.threadStack t st ht
      have hin : InExpansion e c := hw.1 _ c (by rw [hst]; exact List.mem_cons_self _ _)
      have hu := emitCost_unfold e rank hrank c hin
      have hc := stackCost_succ e rank hrank c hin
      rw [hpc, pcCost_call_cons, pcCost_call_nil] at hp
      rw [hst, mass_cons] at hs
      simp only
      omega
  | drainEnd hpc hst =>
      have hp := threadSum_upd e.threadCount (pcCost e rank) s.pc t Pc.claim ht
      rw [hpc, pcCost_call_nil] at hp
      simp only [pcCost] at hp
      simp only
      omega
  | ret em fs hpc =>
      have hp := threadSum_upd e.threadCount (pcCost e rank) s.pc t (Pc.call fs) ht
      rw [hpc, pcCost_call_cons, mass_nil] at hp
      simp only
      omega
  | recurse c cs fs hpc =>
      have hp := threadSum_upd e.threadCount (pcCost e rank) s.pc t
        (Pc.call (⟨Emitter.recurse, e.func c⟩ :: ⟨Emitter.recurse, cs⟩ :: fs)) ht
      have hu := emitCost_unfold e rank hrank c (within_frame e s t hw _ c cs fs hpc)
      rw [hpc, pcCost_call_cons, pcCost_call_cons, pcCost_call_cons, mass_cons] at hp
      simp only
      omega
  | selectFinal c cs fs hpc hf =>
      have hp := threadSum_upd e.threadCount (pcCost e rank) s.pc t
        (Pc.call (⟨Emitter.recurse, e.func c⟩ :: ⟨Emitter.select, cs⟩ :: fs)) ht
      have hu := emitCost_unfold e rank hrank c (within_frame e s t hw _ c cs fs hpc)
      rw [hpc, pcCost_call_cons, pcCost_call_cons, pcCost_call_cons, mass_cons] at hp
      simp only
      omega
  | selectPush c cs fs hpc hf hl =>
      have hp := threadSum_upd e.threadCount (pcCost e rank) s.pc t
        (Pc.call (⟨Emitter.select, cs⟩ :: fs)) ht
      have hs := threadSum_upd e.threadCount (mass (stackCost e rank)) s.threadStack
        t (c :: s.threadStack t) ht
      have hc := stackCost_succ e rank hrank c (within_frame e s t hw _ c cs fs hpc)
      rw [hpc, pcCost_call_cons, pcCost_call_cons, mass_cons] at hp
      rw [mass_cons] at hs
      simp only
      omega
  | selectFull c cs fs hpc hf hl =>
      have hp := threadSum_upd e.threadCount (pcCost e rank) s.pc t
        (Pc.call (⟨Emitter.recurse, e.func c⟩ :: ⟨Emitter.select, cs⟩ :: fs)) ht
      have hu := emitCost_unfold e rank hrank c (within_frame e s t hw _ c cs fs hpc)
      rw [hpc, pcCost_call_cons, pcCost_call_cons, pcCost_call_cons, mass_cons] at hp
      simp only
      omega

theorem mass_one (l : List C) : mass (fun _ => 1) l = l.length := by
  induction l with
  | nil => rfl
  | cons c l ih => rw [mass_cons, ih, List.length_cons]; omega

theorem mass_treeWeight (e : ParallelContinueTask C) (rank : C → Nat) (w : C → Nat)
    (l : List C) :
    mass (treeWeight e rank w) l = mass w (l.flatMap (expansion e rank)) :=
  (mass_flatMap w (expansion e rank) l).symm

/-- With a wide range of `Index` a worker that stands at its claim reads a cursor
within the range of `Index`: the cursor counts the invocations that came from a
claim attempt, at most as many as the expansion has continuations, and the
workers in their scan or returned, fewer than there are threads. -/
theorem wide_claim (e : ParallelContinueTask C) (rank : C → Nat) (hwide : Wide e rank)
    (s : State C) (h : WideInv e rank s) (t : Nat) (ht : t < e.threadCount)
    (hpc : s.pc t = Pc.claim) : s.cntr < 2 ^ e.indexBits := by
  obtain ⟨_, _, hcc, hcons⟩ := h
  have h1 := hcons (fun _ => 1)
  unfold Conserved at h1
  rw [mass_one, mass_treeWeight, mass_one] at h1
  unfold ClaimCount at hcc
  unfold Wide at hwide
  have h2 := List.length_filter_le Call.fromClaim s.log
  have h3 := threadSum_upd e.threadCount scanning s.pc t Pc.done ht
  rw [hpc] at h3
  simp only [scanning] at h3
  have h4 := threadSum_le e.threadCount scanning (upd s.pc t Pc.done)
    (fun a => by cases a <;> simp [scanning])
  have h5 : (visited s).length = s.log.length := by
    unfold visited
    rw [List.length_map]
  omega

theorem wideInv_move (e : ParallelContinueTask C) (rank : C → Nat)
    (hrank : FiniteExpansion e rank) (hwide : Wide e rank)
    (s : State C) (t : Nat) (s' : State C) (ht : t < e.threadCount)
    (h : WideInv e rank s) (hm : Move e s t s') : WideInv e rank s' :=
  ⟨within_move e s t s' h.1 hm,
   cursorInv_move e s t s' (wide_claim e rank hwide s h t ht) h.2.1 hm,
   claimCount_move e s t s' ht h.2.2.1 hm,
   fun w => conserved_move e rank hrank w s t s' ht h.1 (wide_claim e rank hwide s h t ht)
     (h.2.2.2 w) hm⟩

theorem wideInv_init (e : ParallelContinueTask C) (rank : C → Nat) :
    WideInv e rank (State.init C) := by
  refine ⟨within_init e, cursorInv_init e, ?_, fun w => conserved_init e rank w⟩
  unfold ClaimCount
  rw [threadSum_const_zero]
  · rfl
  · intro t _; rfl

theorem wideInv_task (e : ParallelContinueTask C) (rank : C → Nat)
    (hrank : FiniteExpansion e rank) (hwide : Wide e rank) (s : State C) (u : Nat)
    (h : WideInv e rank s) : WideInv e rank (task e s u) := by
  by_cases ha : u < e.threadCount ∧ s.pc u ≠ Pc.done
  · exact wideInv_move e rank hrank hwide s u _ ha.1 h (task_move e s u ha.1 ha.2)
  · rw [task_idle e s u (by tauto)]
    exact h

theorem wideInv_reach (e : ParallelContinueTask C) (rank : C → Nat)
    (hrank : FiniteExpansion e rank) (hwide : Wide e rank) (sched : List Nat) :
    WideInv e rank (parallel_continue e sched) :=
  run_invariant e (WideInv e rank)
    (fun s t s' ht h hm => wideInv_move e rank hrank hwide s t s' ht h hm) sched _
    (wideInv_init e rank)

theorem cost_task_le (e : ParallelContinueTask C) (rank : C → Nat)
    (hrank : FiniteExpansion e rank) (hwide : Wide e rank) (s : State C) (u : Nat)
    (h : WideInv e rank s) : cost e rank (task e s u) ≤ cost e rank s := by
  by_cases ha : u < e.threadCount ∧ s.pc u ≠ Pc.done
  · exact Nat.le_of_lt (cost_move e rank hrank s u _ ha.1 h.1
      (wide_claim e rank hwide s h u ha.1) (task_move e s u ha.1 ha.2))
  · rw [task_idle e s u (by tauto)]

/-- With a wide range of `Index`, a worker that has not returned at the end of a
run has taken at most as many actions as the cost has dropped. -/
theorem count_bound (e : ParallelContinueTask C) (rank : C → Nat)
    (hrank : FiniteExpansion e rank) (hwide : Wide e rank) (t : Nat)
    (ht : t < e.threadCount) (sched : List Nat) :
    ∀ s : State C, WideInv e rank s → (run e sched s).pc t ≠ Pc.done →
      sched.count t + cost e rank (run e sched s) ≤ cost e rank s := by
  induction sched with
  | nil =>
      intro s _ _
      simp [run_nil]
  | cons u sched ih =>
      intro s hw hnd
      rw [run_cons] at hnd ⊢
      have h1 := ih (task e s u) (wideInv_task e rank hrank hwide s u hw) hnd
      by_cases hut : u = t
      · subst hut
        have hs : s.pc u ≠ Pc.done := by
          intro hd
          exact hnd (done_run e sched _ u (done_task e s u u hd))
        have h2 := cost_move e rank hrank s u _ ht hw.1
          (wide_claim e rank hwide s hw u ht) (task_move e s u ht hs)
        rw [List.count_cons_self]
        omega
      · have h2 := cost_task_le e rank hrank hwide s u hw
        rw [List.count_cons_of_ne (fun h => hut h.symm)]
        omega

/-- With no seeds a worker fails its claim, fails every pop of its scan and
returns; no stack is ever filled and func is never invoked. -/
theorem no_seeds (e : ParallelContinueTask C) (hN : e.taskCount = 0) (sched : List Nat) :
    (parallel_continue e sched).log = [] ∧
    (∀ t, (parallel_continue e sched).threadStack t = []) ∧
    (∀ t, t < e.threadCount → (parallel_continue e sched).pc t =
      if sched.count t = 0 then Pc.claim
      else if sched.count t ≤ e.threadCount + 1 then Pc.steal (sched.count t - 1)
      else Pc.done) := by
  induction sched using List.reverseRecOn with
  | nil =>
      refine ⟨rfl, fun _ => rfl, ?_⟩
      intro t _
      simp [parallel_continue, run_nil, State.init]
  | append_singleton sched u ih =>
      obtain ⟨hlog, hst, hpc⟩ := ih
      rw [parallel_continue_snoc]
      by_cases hu : u < e.threadCount
      · have hpu := hpc u hu
        have hother : ∀ t, t < e.threadCount → t ≠ u →
            (parallel_continue e sched).pc t =
            if (sched ++ [u]).count t = 0 then Pc.claim
            else if (sched ++ [u]).count t ≤ e.threadCount + 1 then
              Pc.steal ((sched ++ [u]).count t - 1)
            else Pc.done := by
          intro t ht htu
          rw [hpc t ht, List.count_append, List.count_singleton]
          simp [Ne.symm htu]
        have hcount : (sched ++ [u]).count u = sched.count u + 1 := by
          rw [List.count_append, List.count_singleton]
          simp
        by_cases h0 : sched.count u = 0
        · rw [if_pos h0] at hpu
          rw [task_claim_fail e _ u hu hpu (by omega)]
          refine ⟨hlog, hst, ?_⟩
          intro t ht
          by_cases htu : t = u
          · subst htu
            show upd _ t _ t = _
            rw [upd_same, hcount, h0]
            simp
          · show upd _ u _ t = _
            rw [upd_other _ _ _ _ htu]
            exact hother t ht htu
        · rw [if_neg h0] at hpu
          by_cases h1 : sched.count u ≤ e.threadCount
          · rw [if_pos (by omega)] at hpu
            rw [task_steal_miss e _ u (sched.count u - 1) hu hpu (by omega) (hst _)]
            refine ⟨hlog, hst, ?_⟩
            intro t ht
            by_cases htu : t = u
            · subst htu
              show upd _ t _ t = _
              rw [upd_same, hcount, if_neg (by omega), if_pos (by omega)]
              congr 1
              omega
            · show upd _ u _ t = _
              rw [upd_other _ _ _ _ htu]
              exact hother t ht htu
          · by_cases h2 : sched.count u = e.threadCount + 1
            · rw [if_pos (by omega)] at hpu
              rw [task_steal_end e _ u (sched.count u - 1) hu hpu (by omega)]
              refine ⟨hlog, hst, ?_⟩
              intro t ht
              by_cases htu : t = u
              · subst htu
                show upd _ t _ t = _
                rw [upd_same, hcount, if_neg (by omega), if_neg (by omega)]
              · show upd _ u _ t = _
                rw [upd_other _ _ _ _ htu]
                exact hother t ht htu
            · rw [if_neg (by omega)] at hpu
              rw [task_idle e _ u (Or.inr hpu)]
              refine ⟨hlog, hst, ?_⟩
              intro t ht
              by_cases htu : t = u
              · subst htu
                rw [hpu, hcount, if_neg (by omega), if_neg (by omega)]
              · exact hother t ht htu
      · rw [task_idle e _ u (Or.inl hu)]
        refine ⟨hlog, hst, ?_⟩
        intro t ht
        have htu : u ≠ t := by omega
        rw [hpc t ht, List.count_append, List.count_singleton]
        simp [htu]

theorem sceneRank_decreases (c d : Scene) (h : d ∈ sceneTask.func c) :
    sceneRank d < sceneRank c := by
  cases c <;> cases d <;> simp [sceneTask, sceneRank] at h ⊢

/-- Completeness when the range of `Index` is wide enough (the number of
continuations of the expansion plus the number of threads lies within it): for a
seed array and a callback with finite expansion on a pool with at least one
thread, once all workers have returned the continuations passed to func are, as
a multiset, exactly the full expansions of all seeds, under every schedule. -/
theorem completeness_wide (e : ParallelContinueTask C) (rank : C → Nat)
    (hrank : FiniteExpansion e rank) (hwide : Wide e rank) (hT : 0 < e.threadCount)
    (sched : List Nat) (hret : returned e (parallel_continue e sched)) :
    List.Perm (visited (parallel_continue e sched)) ((seeds e).flatMap (expansion e rank)) := by
  classical
  rw [List.perm_iff_count]
  intro x
  have hinv := wideInv_reach e rank hrank hwide sched
  have hcons := hinv.2.2.2 (fun c => if c = x then 1 else 0)
  unfold Conserved at hcons
  rw [pending_returned e _ _ hT (drained_reach e sched) hinv.2.1 hret] at hcons
  rw [count_eq_mass, count_eq_mass, mass_flatMap]
  exact hcons

/-- The scenario of seeds A and B on four threads stepping in turn, with `Index`
of 64 bits: all four workers return and the continuations passed to func are A,
B and the two children of A, each once. -/
theorem completeness_wide_scene :
    returned sceneTask (parallel_continue sceneTask roundRobin) ∧
    List.Perm (visited (parallel_continue sceneTask roundRobin))
      [Scene.A, Scene.child1, Scene.child2, Scene.B] :=
  ⟨by unfold returned; decide,
   completeness_wide sceneTask sceneRank
     (finiteExpansion_of_rank sceneTask sceneRank sceneRank_decreases)
     (by unfold Wide; decide) (by decide) roundRobin
     (by unfold returned; decide)⟩

/-- No duplicate claims when the range of `Index` is wide enough: in every state
of every run no seed index has been claimed twice, every claimed index lies in
the seed array and the claim is processed on the entry of the array at that
index; once all workers of a pool with at least one thread have returned, the
claims are exactly the indices 0, ..., N-1, each claimed once, N claims in all. -/
theorem claims_once_wide (e : ParallelContinueTask C) (rank : C → Nat)
    (hrank : FiniteExpansion e rank) (hwide : Wide e rank) (sched : List Nat) :
    (seedClaims (parallel_continue e sched)).Nodup ∧
    (∀ i, i ∈ seedClaims (parallel_continue e sched) → i < e.taskCount) ∧
    (∀ ev i, ev ∈ (parallel_continue e sched).log → ev.origin = Origin.seed i →
      ev.cont = e.continuations i) ∧
    (0 < e.threadCount → returned e (parallel_continue e sched) →
      seedClaims (parallel_continue e sched) = List.range e.taskCount ∧
      (seedClaims (parallel_continue e sched)).length = e.taskCount ∧
      ∀ i, i < e.taskCount → (seedClaims (parallel_continue e sched)).count i = 1) := by
  obtain ⟨h1, h2, h3⟩ := (wideInv_reach e rank hrank hwide sched).2.1
  refine ⟨?_, ?_, h2, ?_⟩
  · rw [h1]; exact List.nodup_range _
  · intro i hi
    rw [h1, List.mem_range] at hi
    omega
  · intro hT hret
    have hge := h3 0 (Or.inl (hret 0 hT))
    rw [Nat.min_eq_right hge] at h1
    refine ⟨h1, ?_, ?_⟩
    · rw [h1, List.length_range]
    · intro i hi
      rw [h1]
      exact List.count_eq_one_of_mem (List.nodup_range _) (List.mem_range.2 hi)

/-- On the scenario with `Index` of 64 bits: after the round robin schedule the
two seeds have been claimed once each, in the order 0, 1. -/
theorem claims_once_wide_scene :
    seedClaims (parallel_continue sceneTask roundRobin) = [0, 1] :=
  ((claims_once_wide sceneTask sceneRank
    (finiteExpansion_of_rank sceneTask sceneRank sceneRank_decreases)
    (by unfold Wide; decide) roundRobin).2.2.2 (by decide)
    (by unfold returned; decide)).1

/-- Termination when the range of `Index` is wide enough: for a seed array and a
callback with finite expansion, in every run every action of a worker that has
not returned lowers the cost of the state, a natural number; so under every
schedule a worker has returned once it has taken more actions than the cost of
the initial state, and parallel_continue returns once every worker has. -/
theorem termination_wide (e : ParallelContinueTask C) (rank : C → Nat)
    (hrank : FiniteExpansion e rank) (hwide : Wide e rank) (sched : List Nat) :
    (∀ t, t < e.threadCount → (parallel_continue e sched).pc t ≠ Pc.done →
      cost e rank (parallel_continue e (sched ++ [t])) <
        cost e rank (parallel_continue e sched)) ∧
    (∀ t, t < e.threadCount → cost e rank (State.init C) < sched.count t →
      (parallel_continue e sched).pc t = Pc.done) ∧
    ((∀ t, t < e.threadCount → cost e rank (State.init C) < sched.count t) →
      returned e (parallel_continue e sched)) := by
  have hdone : ∀ t, t < e.threadCount → cost e rank (State.init C) < sched.count t →
      (parallel_continue e sched).pc t = Pc.done := by
    intro t ht hlt
    by_contra hnd
    have := count_bound e rank hrank hwide t ht sched (State.init C) (wideInv_init e rank) hnd
    omega
  refine ⟨?_, hdone, ?_⟩
  · intro t ht hnd
    rw [parallel_continue_snoc]
    have hinv := wideInv_reach e rank hrank hwide sched
    exact cost_move e rank hrank _ t _ ht hinv.1 (wide_claim e rank hwide _ hinv t ht)
      (task_move e _ t ht hnd)
  · intro h t ht
    exact hdone t ht (h t ht)

set_option maxRecDepth 100000 in
/-- On the scenario with `Index` of 64 bits: the initial cost is 56, and after
sixty rounds of the four threads all workers have returned. -/
theorem termination_wide_scene :
    cost sceneTask sceneRank (State.init Scene) = 56 ∧
    returned sceneTask (parallel_continue sceneTask longRobin) :=
  ⟨by decide,
   (termination_wide sceneTask sceneRank
     (finiteExpansion_of_rank sceneTask sceneRank sceneRank_decreases)
     (by unfold Wide; decide) longRobin).2.2
     (by decide)⟩

/-- C1: the code at an instantiation with a narrow `Index`. With `Index` an
unsigned type of 8 bits, 255 seeds that emit nothing (a finite expansion of 255
continuations) and two threads, there is a run in which both workers have
returned and func has been invoked 510 times, twice on every seed: the
continuations passed to func are not the expansion of the seed array. -/
theorem completeness_narrow_index :
    FiniteExpansion byteTask byteRank ∧
    returned byteTask (parallel_continue byteTask wrapToReturn) ∧
    (seeds byteTask).flatMap (expansion byteTask byteRank) = List.range 255 ∧
    visited (parallel_continue byteTask wrapToReturn) = List.range 255 ++ List.range 255 ∧
    (∀ i, i < 255 → (visited (parallel_continue byteTask wrapToReturn)).count i = 2) ∧
    ¬ List.Perm (visited (parallel_continue byteTask wrapToReturn))
      ((seeds byteTask).flatMap (expansion byteTask byteRank)) := by
  have hexp : (seeds byteTask).flatMap (expansion byteTask byteRank) = List.range 255 := by
    unfold seeds
    have h : ∀ l : List Nat, (l.map byteTask.continuations).flatMap
        (expansion byteTask byteRank) = l := by
      intro l
      induction l with
      | nil => rfl
      | cons a l ih =>
          rw [List.map_cons, List.flatMap_cons, ih]
          rfl
    exact h _
  have hvis : visited (parallel_continue byteTask wrapToReturn) =
      List.range 255 ++ List.range 255 := by
    rw [wrap_return_state]
    unfold visited
    have hm : ∀ (t : Nat) (l : List Nat),
        (l.map (fun i => (⟨t, Origin.seed i, i⟩ : Call Nat))).map Call.cont = l := by
      intro t l
      induction l with
      | nil => rfl
      | cons a l ih => rw [List.map_cons, List.map_cons, ih]
    simp only [List.map_append, hm, List.map_cons, List.map_nil]
    rw [List.range_eq_range']
    rfl
  refine ⟨?_, ?_, hexp, hvis, ?_, ?_⟩
  · intro c d _ hd
    exact absurd hd (List.not_mem_nil d)
  · intro t ht
    rw [wrap_return_state]
    have h2 : t < 2 := ht
    interval_cases t <;> rfl
  · intro i hi
    rw [hvis, List.count_append,
      List.count_eq_one_of_mem (List.nodup_range 255) (List.mem_range.2 hi)]
  · intro hp
    have hl := hp.length_eq
    rw [hvis, hexp] at hl
    simp at hl

/-- C2: the code at an instantiation with a narrow `Index`. With `Index` an
unsigned type of 8 bits, 255 seeds and two threads: once thread 0 has claimed the
255 seeds and failed a claim at cursor 255, the claim of thread 1 reads cursor
256, which converts to index 0, so index 0 has been claimed by both workers, 256
claims in all; in the run continued until both workers have returned every index
has been claimed twice, 510 claims in all. -/
theorem claims_narrow_index :
    (parallel_continue byteTask wrapSchedule).cntr = 257 ∧
    seedClaims (parallel_continue byteTask wrapSchedule) = List.range 255 ++ [0] ∧
    (⟨0, Origin.seed 0, byteTask.continuations 0⟩ : Call Nat) ∈
      (parallel_continue byteTask wrapSchedule).log ∧
    (⟨1, Origin.seed 0, byteTask.continuations 0⟩ : Call Nat) ∈
      (parallel_continue byteTask wrapSchedule).log ∧
    (seedClaims (parallel_continue byteTask wrapSchedule)).count 0 = 2 ∧
    ¬ (seedClaims (parallel_continue byteTask wrapSchedule)).Nodup ∧
    returned byteTask (parallel_continue byteTask wrapToReturn) ∧
    seedClaims (parallel_continue byteTask wrapToReturn) =
      List.range 255 ++ List.range 255 ∧
    (seedClaims (parallel_continue byteTask wrapToReturn)).length =
      2 * byteTask.taskCount := by
  have hsc : seedClaims (parallel_continue byteTask wrapSchedule) = List.range 255 ++ [0] := by
    rw [wrap_state]
    unfold seedClaims
    rw [List.filterMap_append, seedClaims_map, List.range_eq_range']
    rfl
  have hcount : (seedClaims (parallel_continue byteTask wrapSchedule)).count 0 = 2 := by
    rw [hsc, List.count_append,
      List.count_eq_one_of_mem (List.nodup_range 255) (List.mem_range.2 (by decide))]
    rfl
  have hsc2 : seedClaims (parallel_continue byteTask wrapToReturn) =
      List.range 255 ++ List.range 255 := by
    rw [wrap_return_state]
    unfold seedClaims
    rw [List.filterMap_append, List.filterMap_append, seedClaims_map, seedClaims_map,
      List.range_eq_range']
    rfl
  refine ⟨?_, hsc, ?_, ?_, hcount, ?_, ?_, hsc2, ?_⟩
  · rw [wrap_state]
  · rw [wrap_state]
    refine List.mem_append_left _ (List.mem_map.2 ⟨0, ?_, rfl⟩)
    rw [List.mem_range']
    exact ⟨0, by decide, rfl⟩
  · rw [wrap_state]
    exact List.mem_append_right _ (List.mem_singleton.2 rfl)
  · intro hnd
    have := List.nodup_iff_count_le_one.1 hnd 0
    omega
  · intro t ht
    rw [wrap_return_state]
    have h2 : t < 2 := ht
    interval_cases t <;> rfl
  · rw [hsc2]
    simp [byteTask]

/-- C5: in every state of every run, every continuation stored in a work stack
is not final, and every continuation that reached func by a pop (in the drain
loop or in a steal scan) is not final. -/
theorem no_final_buffered (e : ParallelContinueTask C) (sched : List Nat) :
    (∀ t c, c ∈ (parallel_continue e sched).threadStack t → e.final c = false) ∧
    (∀ ev, ev ∈ (parallel_continue e sched).log → ev.origin.isPop = true →
      e.final ev.cont = false) :=
  notFinal_reach e sched

/-- C5 on the small tree: after the seed and two pushes the stack of thread 0
holds 2 and 1, and 2 is not final; the final continuation 3 is never pushed. -/
theorem no_final_buffered_witness :
    (parallel_continue pairTask (solo 3)).threadStack 0 = [2, 1] ∧
    pairTask.final 2 = false :=
  ⟨by decide, (no_final_buffered pairTask (solo 3)).1 0 2 (by decide)⟩

/-- C7: in every state of every run, a worker that is about to claim, is in its
steal scan, or has returned has an empty work stack; so when all workers have
returned all stacks of the pool are empty. This rests on two facts of the worker
loop: the action of a thread never adds to the stack of another thread, and the
drain loop is left for the next claim exactly when its pop fails. -/
theorem drain_invariant (e : ParallelContinueTask C) (sched : List Nat) :
    (∀ t, ((parallel_continue e sched).pc t = Pc.claim ∨
        (∃ i, (parallel_continue e sched).pc t = Pc.steal i) ∨
        (parallel_continue e sched).pc t = Pc.done) →
      (parallel_continue e sched).threadStack t = []) ∧
    (returned e (parallel_continue e sched) →
      ∀ t, t < e.threadCount → (parallel_continue e sched).threadStack t = []) ∧
    (∀ (s : State C) (t u : Nat), u ≠ t →
      ((task e s t).threadStack u).length ≤ (s.threadStack u).length) ∧
    (∀ (s : State C) (t : Nat), t < e.threadCount → s.pc t = Pc.call [] →
      ((task e s t).pc t = Pc.claim ↔ s.threadStack t = [])) := by
  have hd := drained_reach e sched
  refine ⟨?_, ?_, fun s t u h => stack_other_le e s t u h,
    fun s t ht hpc => drain_exit e s t ht hpc⟩
  · intro t ht
    apply hd t
    intro fs hfs
    rw [hfs] at ht
    simp at ht
  · intro hret t ht
    apply hd t
    intro fs hfs
    rw [hret t ht] at hfs
    cases hfs

/-- C7 on the small tree: thread 0 pushes 1 and 2 and drains them itself, then
thread 1 finds nothing; both workers have returned and both stacks are empty. -/
theorem drain_invariant_witness :
    returned pairTask (parallel_continue pairTask (solo 20 ++ [1, 1, 1, 1, 1])) ∧
    ∀ t, t < 2 → (parallel_continue pairTask (solo 20 ++ [1, 1, 1, 1, 1])).threadStack t = [] :=
  ⟨by unfold returned; decide,
   (drain_invariant pairTask (solo 20 ++ [1, 1, 1, 1, 1])).2.1 (by unfold returned; decide)⟩

/-- C3: the emission decision of Select on thread t for a continuation c handed
to it. (1) c final: nothing is pushed and func is invoked on c at once (with
the Recurse emitter, inside the emit call). (2) c not final and fewer than 64
entries on stack t: c is pushed on stack t, func is not invoked and the emit
call has returned. (3) c not final and stack t full: the stacks are unchanged
and func is invoked on c at once. In every case c is then on stack t or has
been passed to func. For a callback with finite expansion and c in the expansion
of the seeds, in cases (1) and (3) the worker stepping alone reaches the return
of the emit call with the stacks as they were and c, with its whole expansion,
passed to func. -/
theorem select_emission (e : ParallelContinueTask C) (s : State C) (t : Nat) (c : C)
    (cs : List C) (fs : List (Frame C)) (ht : t < e.threadCount)
    (hpc : s.pc t = Pc.call (⟨Emitter.select, c :: cs⟩ :: fs)) :
    (e.final c = true →
      task e s t = ⟨s.cntr, s.threadStack,
        upd s.pc t (Pc.call (⟨Emitter.recurse, e.func c⟩ :: ⟨Emitter.select, cs⟩ :: fs)),
        s.log ++ [⟨t, Origin.select, c⟩]⟩) ∧
    (e.final c = false → (s.threadStack t).length < 64 →
      task e s t = ⟨s.cntr, upd s.threadStack t (c :: s.threadStack t),
        upd s.pc t (Pc.call (⟨Emitter.select, cs⟩ :: fs)), s.log⟩) ∧
    (e.final c = false → 64 ≤ (s.threadStack t).length →
      task e s t = ⟨s.cntr, s.threadStack,
        upd s.pc t (Pc.call (⟨Emitter.recurse, e.func c⟩ :: ⟨Emitter.select, cs⟩ :: fs)),
        s.log ++ [⟨t, Origin.select, c⟩]⟩) ∧
    (c ∈ (task e s t).threadStack t ∨ c ∈ visited (task e s t)) ∧
    (∀ rank : C → Nat, FiniteExpansion e rank → InExpansion e c →
      (e.final c = true ∨ 64 ≤ (s.threadStack t).length) →
      ∃ L : List (Call C), L.map Call.cont = expansion e rank c ∧
        Arrives e t s ⟨s.cntr, s.threadStack,
          upd s.pc t (Pc.call (⟨Emitter.select, cs⟩ :: fs)), s.log ++ L⟩) := by
  refine ⟨task_select_final e s t c cs fs ht hpc, task_select_push e s t c cs fs ht hpc,
    task_select_full e s t c cs fs ht hpc, ?_, ?_⟩
  rotate_left
  · intro rank hrank hin hnow
    have hstep : task e s t = ⟨s.cntr, s.threadStack,
        upd s.pc t (Pc.call (⟨Emitter.recurse, e.func c⟩ :: ⟨Emitter.select, cs⟩ :: fs)),
        s.log ++ [⟨t, Origin.select, c⟩]⟩ := by
      cases hfd : e.final c with
      | true => exact task_select_final e s t c cs fs ht hpc hfd
      | false =>
          rcases hnow with hnow | hnow
          · rw [hfd] at hnow; cases hnow
          · exact task_select_full e s t c cs fs ht hpc hfd hnow
    obtain ⟨L, hL, _, h⟩ := select_now e rank hrank t ht c hin cs fs s hstep
    exact ⟨L, hL, h⟩
  cases hf : e.final c with
  | true =>
      right
      rw [task_select_final e s t c cs fs ht hpc hf]
      simp [visited]
  | false =>
      by_cases hl : (s.threadStack t).length < SIZE_WORK_STACK
      · left
        rw [task_select_push e s t c cs fs ht hpc hf hl]
        simp [upd]
      · right
        rw [task_select_full e s t c cs fs ht hpc hf (Nat.le_of_not_lt hl)]
        simp [visited]

/-- C3 on the fan: after the seed and 64 pushes the stack of thread 0 is full;
the next continuation handed to Select, 65, is not final, is passed to func at
once, and the stack is unchanged. -/
theorem select_emission_witness :
    ((parallel_continue fanTask (solo 65)).threadStack 0).length = 64 ∧
    (parallel_continue fanTask (solo 66)).threadStack 0 =
      (parallel_continue fanTask (solo 65)).threadStack 0 ∧
    (parallel_continue fanTask (solo 66)).log =
      (parallel_continue fanTask (solo 65)).log ++ [⟨0, Origin.select, 65⟩] := by
  have h := (select_emission fanTask (parallel_continue fanTask (solo 65)) 0 65 [66] []
    (by decide) (by decide)).2.2.1 (by decide) (by decide)
  have h2 : parallel_continue fanTask (solo 66) =
      task fanTask (parallel_continue fanTask (solo 65)) 0 := rfl
  rw [h2, h]
  exact ⟨by decide, rfl, rfl⟩

/-- C4 fails as stated: on the nested task Select processes the final
continuation 1 at once; func emits 2 for it, which is not final, while the stack
of the thread is empty; yet 2 is not pushed but passed to func at once. -/
theorem recurse_policy_counterexample :
    nestTask.final 1 = true ∧
    (parallel_continue nestTask (solo 2)).pc 0 =
      Pc.call [⟨Emitter.recurse, [2]⟩, ⟨Emitter.select, []⟩] ∧
    nestTask.final 2 = false ∧
    ((parallel_continue nestTask (solo 2)).threadStack 0).length < SIZE_WORK_STACK ∧
    (parallel_continue nestTask (solo 3)).threadStack 0 = [] ∧
    (parallel_continue nestTask (solo 3)).log =
      [⟨0, Origin.seed 0, 0⟩, ⟨0, Origin.select, 1⟩, ⟨0, Origin.recurse, 2⟩] := by
  decide

/-- C4 amended: when Select processes a continuation c at once (c final, or the
stack full) the call of func on c is given the Recurse emitter; and a
continuation d handed to the Recurse emitter is passed to func at once, again
with the Recurse emitter, whether or not d is final and whatever room the stack
has: no stack changes. So, for a callback with finite expansion, a call under the
Recurse emitter passes everything it emits (continuations of the expansion of
the seeds), each with its whole expansion, to func at once and depth first, and
returns with the stacks as they were. -/
theorem recurse_emission (e : ParallelContinueTask C) (s : State C) (t : Nat) (c : C)
    (cs : List C) (fs : List (Frame C)) (ht : t < e.threadCount) :
    (s.pc t = Pc.call (⟨Emitter.select, c :: cs⟩ :: fs) →
      (e.final c = true ∨ 64 ≤ (s.threadStack t).length) →
      (task e s t).pc t =
        Pc.call (⟨Emitter.recurse, e.func c⟩ :: ⟨Emitter.select, cs⟩ :: fs)) ∧
    (s.pc t = Pc.call (⟨Emitter.recurse, c :: cs⟩ :: fs) →
      task e s t = ⟨s.cntr, s.threadStack,
        upd s.pc t (Pc.call (⟨Emitter.recurse, e.func c⟩ :: ⟨Emitter.recurse, cs⟩ :: fs)),
        s.log ++ [⟨t, Origin.recurse, c⟩]⟩) ∧
    (∀ rank : C → Nat, FiniteExpansion e rank → (∀ d, d ∈ cs → InExpansion e d) →
      s.pc t = Pc.call (⟨Emitter.recurse, cs⟩ :: fs) →
      ∃ L : List (Call C), L.map Call.cont = cs.flatMap (expansion e rank) ∧
        (∀ ev, ev ∈ L → ev.origin = Origin.recurse) ∧
        Arrives e t s ⟨s.cntr, s.threadStack, upd s.pc t (Pc.call fs), s.log ++ L⟩) := by
  refine ⟨?_, task_recurse e s t c cs fs ht, ?_⟩
  rotate_left
  · intro rank hrank hcs hpc
    exact recurse_frame_any e rank hrank t ht cs hcs fs s hpc
  intro hpc h
  cases hf : e.final c with
  | true => rw [task_select_final e s t c cs fs ht hpc hf]; exact upd_same _ _ _
  | false =>
      rcases h with h | h
      · rw [hf] at h; cases h
      · rw [task_select_full e s t c cs fs ht hpc hf h]; exact upd_same _ _ _

/-- C4 amended, on the nested task: 2 is handed to the Recurse emitter and is
passed to func at once; the stack stays empty. -/
theorem recurse_emission_witness :
    (parallel_continue nestTask (solo 3)).threadStack 0 = [] ∧
    visited (parallel_continue nestTask (solo 3)) = [0, 1, 2] := by
  have h := (recurse_emission nestTask (parallel_continue nestTask (solo 2)) 0 2 []
    [⟨Emitter.select, []⟩] (by decide)).2.1 (by decide)
  have h2 : parallel_continue nestTask (solo 3) =
      task nestTask (parallel_continue nestTask (solo 2)) 0 := rfl
  rw [h2, h]
  exact ⟨by decide, by decide⟩

/-- C6: the steal scan of worker t, entered at index 0 after a claim that
returned an index (the cursor value converted to Index) that is not below N.
At index i < T the worker pops stack (t + i) mod T and no other: a failed pop
moves the scan to i + 1 and changes nothing else; a successful pop ends the
scan and passes exactly the popped continuation to func. The scan starts at
the own stack and the T indices visit T different stacks. If the stacks
k places on are the first that is not empty, k + 1 actions of the worker pop
exactly its top; if all T stacks are empty, the worker returns after T failed
pops. It returns in no other way: only from a scan index that is not below T,
and an index j + 1 is reached only by a failed pop at index j. -/
theorem steal_scan (e : ParallelContinueTask C) (s : State C) (t : Nat)
    (ht : t < e.threadCount) :
    (s.pc t = Pc.claim → e.taskCount ≤ Index.ofCursor e s.cntr →
      (task e s t).pc t = Pc.steal 0) ∧
    (∀ i, s.pc t = Pc.steal i → i < e.threadCount →
      s.threadStack ((t + i) % e.threadCount) = [] →
      task e s t = ⟨s.cntr, s.threadStack, upd s.pc t (Pc.steal (i + 1)), s.log⟩) ∧
    (∀ i c st, s.pc t = Pc.steal i → i < e.threadCount →
      s.threadStack ((t + i) % e.threadCount) = c :: st →
      task e s t = ⟨s.cntr, upd s.threadStack ((t + i) % e.threadCount) st,
        upd s.pc t (Pc.call [⟨Emitter.select, e.func c⟩]),
        s.log ++ [⟨t, Origin.steal i, c⟩]⟩) ∧
    ((t + 0) % e.threadCount = t) ∧
    (∀ j k, j < e.threadCount → k < e.threadCount →
      (t + j) % e.threadCount = (t + k) % e.threadCount → j = k) ∧
    (∀ k c st, s.pc t = Pc.steal 0 → k < e.threadCount →
      (∀ j, j < k → s.threadStack ((t + j) % e.threadCount) = []) →
      s.threadStack ((t + k) % e.threadCount) = c :: st →
      run e (List.replicate (k + 1) t) s =
        ⟨s.cntr, upd s.threadStack ((t + k) % e.threadCount) st,
          upd s.pc t (Pc.call [⟨Emitter.select, e.func c⟩]),
          s.log ++ [⟨t, Origin.steal k, c⟩]⟩) ∧
    (s.pc t = Pc.steal 0 →
      (∀ j, j < e.threadCount → s.threadStack ((t + j) % e.threadCount) = []) →
      run e (List.replicate (e.threadCount + 1) t) s =
        ⟨s.cntr, s.threadStack, upd s.pc t Pc.done, s.log⟩) ∧
    (s.pc t ≠ Pc.done →
      ((task e s t).pc t = Pc.done ↔ ∃ i, s.pc t = Pc.steal i ∧ e.threadCount ≤ i)) ∧
    (∀ j, (task e s t).pc t = Pc.steal (j + 1) →
      s.pc t = Pc.steal j ∧ j < e.threadCount ∧
        s.threadStack ((t + j) % e.threadCount) = []) := by
  refine ⟨fun hpc hge => by rw [task_claim_fail e s t ht hpc hge]; exact upd_same _ _ _,
    fun i hpc hi hst => task_steal_miss e s t i ht hpc hi hst,
    fun i c st hpc hi hst => task_steal_hit e s t i c st ht hpc hi hst,
    ?_, ?_, ?_, ?_, ?_, ?_⟩
  · rw [Nat.add_zero]; exact Nat.mod_eq_of_lt ht
  · intro j k hj hk h
    have h1 : (t + j) % e.threadCount = if t + j < e.threadCount then t + j
        else t + j - e.threadCount := by
      split
      · next hlt => exact Nat.mod_eq_of_lt hlt
      · next hge =>
          rw [Nat.mod_eq_sub_mod (by omega)]
          exact Nat.mod_eq_of_lt (by omega)
    have h2 : (t + k) % e.threadCount = if t + k < e.threadCount then t + k
        else t + k - e.threadCount := by
      split
      · next hlt => exact Nat.mod_eq_of_lt hlt
      · next hge =>
          rw [Nat.mod_eq_sub_mod (by omega)]
          exact Nat.mod_eq_of_lt (by omega)
    rw [h1, h2] at h
    split at h <;> split at h <;> omega
  · intro k c st hpc hk hemp hst
    rw [run_replicate_succ, scan_misses e t ht k s 0 hpc (by omega)
      (fun j _ h2 => hemp j (by omega))]
    rw [task_steal_hit e _ t (0 + k) c st ht (upd_same _ _ _) (by omega)
      (by simpa using hst)]
    simp only [upd_upd, Nat.zero_add]
  · intro hpc hemp
    rw [run_replicate_succ, scan_misses e t ht e.threadCount s 0 hpc (by omega)
      (fun j _ h2 => hemp j (by omega))]
    rw [task_steal_end e _ t (0 + e.threadCount) ht (upd_same _ _ _) (by omega)]
    simp only [upd_upd]
  · intro hnd
    have hm := task_move e s t ht hnd
    generalize task e s t = s' at hm
    cases hm with
    | claimSeed hpc hlt => simp [hpc, upd_same]
    | claimFail hpc hge => simp [hpc, upd_same]
    | stealHit i c st hpc hi hst => simp [hpc, upd_same]; omega
    | stealMiss i hpc hi hst => simp [hpc, upd_same]; omega
    | stealEnd i hpc hi => simp [hpc, upd_same]; omega
    | drainHit c st hpc hst => simp [hpc, upd_same]
    | drainEnd hpc hst => simp [hpc, upd_same]
    | ret em fs hpc => simp [hpc, upd_same]
    | recurse c cs fs hpc => simp [hpc, upd_same]
    | selectFinal c cs fs hpc hf => simp [hpc, upd_same]
    | selectPush c cs fs hpc hf hl => simp [hpc, upd_same]
    | selectFull c cs fs hpc hf hl => simp [hpc, upd_same]
  · intro j hj
    by_cases hnd : s.pc t = Pc.done
    · rw [task_idle e s t (Or.inr hnd), hnd] at hj
      cases hj
    · have hm := task_move e s t ht hnd
      generalize task e s t = s' at hm hj
      cases hm with
      | claimSeed hpc hlt => simp [upd_same] at hj
      | claimFail hpc hge => simp [upd_same] at hj
      | stealHit i c st hpc hi hst => simp [upd_same] at hj
      | stealMiss i hpc hi hst =>
          simp only [upd_same, Pc.steal.injEq, Nat.add_right_cancel_iff] at hj
          subst hj
          exact ⟨hpc, hi, hst⟩
      | stealEnd i hpc hi => simp [upd_same] at hj
      | drainHit c st hpc hst => simp [upd_same] at hj
      | drainEnd hpc hst => simp [upd_same] at hj
      | ret em fs hpc => simp [upd_same] at hj
      | recurse c cs fs hpc => simp [upd_same] at hj
      | selectFinal c cs fs hpc hf => simp [upd_same] at hj
      | selectPush c cs fs hpc hf hl => simp [upd_same] at hj
      | selectFull c cs fs hpc hf hl => simp [upd_same] at hj

/-- C6 on the small tree: thread 0 has pushed 1 and 2, thread 1 has failed its
claim; its own stack is empty, so its scan pops the top, 2, of the stack of
thread 0 at index 1 and passes it to func; 1 stays on that stack. -/
theorem steal_scan_witness :
    (run pairTask [1, 1] (parallel_continue pairTask [0, 0, 0, 1])).threadStack 0 = [1] ∧
    (run pairTask [1, 1] (parallel_continue pairTask [0, 0, 0, 1])).log =
      [⟨0, Origin.seed 0, 0⟩, ⟨1, Origin.steal 1, 2⟩] := by
  have h := (steal_scan pairTask (parallel_continue pairTask [0, 0, 0, 1]) 1
    (by decide)).2.2.2.2.2.1 1 2 [1] (by decide) (by decide) (by decide) (by decide)
  have h2 : run pairTask [1, 1] (parallel_continue pairTask [0, 0, 0, 1]) =
      run pairTask (List.replicate (1 + 1) 1) (parallel_continue pairTask [0, 0, 0, 1]) := rfl
  rw [h2, h]
  exact ⟨by decide, by decide⟩

/-- C10: on a pool of one thread, for a seed array and a callback with finite
expansion, under every schedule: the steal scan never yields a continuation; the
worker does return; and once it has, the seeds were claimed in the order
0, ..., N-1, the invocations between the claim of a seed and the next claim are
exactly the processing sequence of that seed (what its calls pass on at once,
depth first, then what they pushed, in LIFO pop order), so the sequence of all
invocations is the concatenation of the processing sequences of the seeds in
index order; and the processing sequence of a seed is a rearrangement of its
expansion. -/
theorem single_thread_order (e : ParallelContinueTask C) (rank : C → Nat)
    (hrank : FiniteExpansion e rank) (hT : e.threadCount = 1)
    (sched : List Nat) :
    (∀ ev i, ev ∈ (parallel_continue e sched).log → ev.origin ≠ Origin.steal i) ∧
    (∃ k, returned e (parallel_continue e (List.replicate k 0))) ∧
    (returned e (parallel_continue e sched) →
      visited (parallel_continue e sched) = referenceOrder e rank ∧
      splitClaims (parallel_continue e sched).log = ([], (seeds e).map (seedOrder e rank)) ∧
      seedClaims (parallel_continue e sched) = List.range e.taskCount) ∧
    (∀ i, i < e.taskCount →
      (seedOrder e rank (e.continuations i)).Perm (expansion e rank (e.continuations i))) := by
  obtain ⟨k, L, hL, hcl, hk⟩ := single_final e rank hrank hT
  have hkd : (run e (List.replicate k 0) (State.init C)).pc 0 = Pc.done := by
    rw [hk]; simp [upd]
  refine ⟨fun ev i hev => noStealHit_reach e hT sched ev i hev, ⟨k, ?_⟩, ?_, ?_⟩
  · intro t ht
    have ht0 : t = 0 := by omega
    subst ht0
    exact hkd
  · intro hret
    have hs : parallel_continue e sched = run e (List.replicate k 0) (State.init C) := by
      unfold parallel_continue
      rw [run_single e hT sched]
      apply solo_final_unique e 0 _ _ _ _ hkd
      rw [← run_single e hT sched]
      exact hret 0 (by omega)
    have hlog : (parallel_continue e sched).log = L := by rw [hs, hk]
    refine ⟨?_, ?_, ?_⟩
    · unfold visited referenceOrder
      rw [hlog, splitClaims_flatten, hL]
      simp [List.flatMap_def]
    · rw [hlog, hL]
    · unfold seedClaims
      rw [hlog, hcl]
  · intro i hi
    exact processOrder_perm e rank hrank _ _ (InExpansion.seed i hi) (le_refl _) 0

/-- C10 on the small tree with one thread: 0 is claimed; 1 and 2 are pushed; 2
is popped first, then 1, whose final child 3 is passed to func at once. -/
theorem single_thread_order_witness :
    visited (parallel_continue lineTask (solo 20)) = [0, 2, 1, 3] :=
  ((single_thread_order lineTask pairRank
    (finiteExpansion_of_rank lineTask pairRank lineTask_rank) rfl (solo 20)).2.2.1
    (by unfold returned; decide)).1

/-- C9: the code at an instantiation with a narrow `Index`. With `Index` an
unsigned type of 8 bits, 255 seeds that each emit one leaf (a finite expansion
of 510 continuations) and two threads, there is a schedule of rounds of 1533
actions under which no worker ever returns: after n rounds thread 0 has taken
1528 n actions and thread 1 has taken 5 n, both workers stand at their claim with
all stacks empty, the cursor is 256 n, which converts to index 0 again, func has
been invoked 510 n times, and at no point of the n rounds has a worker returned. -/
theorem termination_narrow_index (n : Nat) :
    FiniteExpansion byteLeafTask leafRank ∧
    ((seeds byteLeafTask).flatMap (expansion byteLeafTask leafRank)).length = 510 ∧
    (spin n).count 0 = 1528 * n ∧ (spin n).count 1 = 5 * n ∧
    parallel_continue byteLeafTask (spin n) =
      ⟨256 * n, fun _ => [], fun _ => Pc.claim, spinLogs n⟩ ∧
    Index.ofCursor byteLeafTask (parallel_continue byteLeafTask (spin n)).cntr = 0 ∧
    (visited (parallel_continue byteLeafTask (spin n))).length = 510 * n ∧
    (∀ k t, (parallel_continue byteLeafTask ((spin n).take k)).pc t ≠ Pc.done) := by
  refine ⟨byteLeaf_finite, byteLeaf_expansion, (spin_count n).1, (spin_count n).2,
    spin_state n, ?_, ?_, ?_⟩
  · rw [spin_state]
    show 256 * n % 256 = 0
    exact Nat.mul_mod_right 256 n
  · rw [spin_state]
    unfold visited
    rw [List.length_map]
    exact spinLogs_length n
  · intro k t hdone
    have hsplit : parallel_continue byteLeafTask (spin n) =
        run byteLeafTask ((spin n).drop k)
          (parallel_continue byteLeafTask ((spin n).take k)) := by
      unfold parallel_continue
      rw [← run_append, List.take_append_drop]
    have hend := done_run byteLeafTask ((spin n).drop k) _ t hdone
    rw [← hsplit, spin_state] at hend
    exact absurd hend (by simp)

end embree
